import Mathlib

/-!
# MoCapSim: Dice distance between voxel descriptors

A shallow embedding of `DICECoefficientVoxels` (file
`src/MoCapSim/DICECoefficientVoxels/dicecoefficientvoxels.cpp`):

* `computeDist`       the Dice-coefficient distance of two voxel images,
* `setAnimations`, `computeDistToAll`   the fill of the pairwise distance matrix,
* `computeVoxels`     the voxelisation of one animation.

`float` values are modelled exactly: a finite `float` is the rational number it denotes and
every arithmetic operation rounds its exact result to binary32 (round to nearest, ties to
even), with NaN and the infinities as separate values.  Expressions are evaluated in `float`
precision (`FLT_EVAL_METHOD == 0`).  Undefined behaviour of the C++ code (an iterator run past
the end, an access outside a buffer) is the result `none`.
-/

namespace MoCapSim

/-! ## binary32 arithmetic -/

/-- Nearest integer of a rational, a tie going to the even neighbour. -/
def rne (y : ℚ) : ℤ :=
  if y - ⌊y⌋ < 1/2 then ⌊y⌋
  else if 1/2 < y - ⌊y⌋ then ⌊y⌋ + 1
  else if ⌊y⌋ % 2 = 0 then ⌊y⌋ else ⌊y⌋ + 1

/-- Binary exponent used to round `q`: the exponent of its binade, and the smallest normal
exponent `-126` for the subnormal range. -/
def expo (q : ℚ) : ℤ := max (Int.log 2 |q|) (-126)

/-- Spacing of the binary32 values around `q` (24 significant bits). -/
def ulp (q : ℚ) : ℚ := 2 ^ (expo q - 23)

/-- Rounding of `q` to binary32 with an unbounded exponent range upwards. -/
def roundQ (q : ℚ) : ℚ := rne (q / ulp q) * ulp q

/-- A value of the C++ type `float`.  A finite value is the rational it denotes; the sign of a
zero is not represented (the program never divides a non-zero value by zero). -/
inductive F32 where
  | nan : F32
  | inf (neg : Bool) : F32
  | fin (q : ℚ) : F32
  deriving DecidableEq

namespace F32

/-- Rounding of an exact result to `float`; a rounded magnitude of `2^128` or more overflows
to an infinity. -/
def round (q : ℚ) : F32 :=
  if 2 ^ 128 ≤ |roundQ q| then inf (decide (q < 0)) else fin (roundQ q)

/-- A decimal `float` literal such as `0.001f`: the binary32 value nearest to it. -/
def lit (q : ℚ) : F32 := round q

/-- Conversion `static_cast<float>(n)` of an unsigned integer. -/
def ofNat (n : ℕ) : F32 := round n

/-- Value of `std::numeric_limits<float>::max()`, the largest finite `float`. -/
def numeric_limits_max : F32 := fin ((2 ^ 24 - 1) * 2 ^ 104)

/-- Operator `a + b` on `float`. -/
def add : F32 → F32 → F32
  | fin a, fin b => round (a + b)
  | fin _, inf s => inf s
  | inf s, fin _ => inf s
  | inf s, inf t => if s = t then inf s else nan
  | nan, _ => nan
  | _, nan => nan

/-- Operator `a * b` on `float`. -/
def mul : F32 → F32 → F32
  | fin a, fin b => round (a * b)
  | fin a, inf s => if a = 0 then nan else inf (xor (decide (a < 0)) s)
  | inf s, fin b => if b = 0 then nan else inf (xor s (decide (b < 0)))
  | inf s, inf t => inf (xor s t)
  | nan, _ => nan
  | _, nan => nan

/-- Operator `a / b` on `float`; `0/0` is NaN. -/
def div : F32 → F32 → F32
  | fin a, fin b =>
    if b = 0 then (if a = 0 then nan else inf (decide (a < 0))) else round (a / b)
  | fin _, inf _ => fin 0
  | inf s, fin b => inf (xor s (decide (b < 0)))
  | inf _, inf _ => nan
  | nan, _ => nan
  | _, nan => nan

/-- Comparison `a < b` on `float`; false as soon as one operand is NaN. -/
def lt : F32 → F32 → Bool
  | fin a, fin b => decide (a < b)
  | fin _, inf s => !s
  | inf s, fin _ => s
  | inf s, inf t => s && !t
  | nan, _ => false
  | _, nan => false

/-- Comparison `a <= b` on `float`; false as soon as one operand is NaN. -/
def le : F32 → F32 → Bool
  | fin a, fin b => decide (a ≤ b)
  | fin _, inf s => !s
  | inf s, fin _ => s
  | inf s, inf t => s || !t
  | nan, _ => false
  | _, nan => false

end F32

/-! ## Images and the Dice distance -/

/-- Pixel buffer of a `cimg_library::CImg<T>` in memory order, whatever the integer pixel
type `T`.  The point-wise operations below are those of images of equal size, the only case
the program produces (every descriptor is a 20x20x20 image). -/
abbrev CImg := List Int

/-- Point-wise minimum `desc1.get_min(desc2)`. -/
def get_min (img1 img2 : CImg) : CImg := List.zipWith min img1 img2

/-- Point-wise difference `img1 - img2`, computed in `int`. -/
def sub (img1 img2 : CImg) : CImg := List.zipWith (fun a b => a - b) img1 img2

/-- Histogram `img.get_histogram(nb_levels, min_value, max_value)`: a pixel `val` inside
`[min_value, max_value]` is counted in bin `nb_levels - 1` when `val = max_value` and in bin
`(val - min_value) * nb_levels / (max_value - min_value)` otherwise; a pixel outside the range
is not counted. -/
def get_histogram (img : CImg) (nb_levels : ℕ) (vmin vmax : Int) : List ℕ :=
  (List.range nb_levels).map fun k =>
    img.countP fun val =>
      decide (vmin ≤ val ∧ val ≤ vmax ∧
        (if val = vmax then nb_levels - 1
         else ((val - vmin) * (nb_levels : Int) / (vmax - vmin)).toNat) = k)

/-- Read access `hist(k)` to a bin of a histogram. -/
def histAt (hist : List ℕ) (k : ℕ) : ℕ := hist.getD k 0

/-- Local variable `dice` of `computeDist` (line 87): the bins are `unsigned long`, so the
denominator is computed modulo `2^64` before its conversion to `float`. -/
def dice (desc1 desc2 : CImg) : F32 :=
  let tp := get_min desc1 desc2
  let fp := sub desc1 tp
  let fn := sub desc2 tp
  let tpHist := get_histogram tp 2 0 1
  let fpHist := get_histogram fp 2 0 1
  let fnHist := get_histogram fn 2 0 1
  F32.div (F32.mul (F32.lit 2) (F32.ofNat (histAt tpHist 1)))
    (F32.ofNat ((2 * histAt tpHist 1 + histAt fpHist 1 + histAt fnHist 1) % 2 ^ 64))

/-- Embedding of `DICECoefficientVoxels::computeDist`. -/
def computeDist (desc1 desc2 : CImg) : F32 :=
  if F32.lt (dice desc1 desc2) (F32.lit (1/1000)) then F32.numeric_limits_max
  else F32.div (F32.lit 1) (dice desc1 desc2)

/-- A binary occupancy grid: every cell is 0 or 1. -/
def isBinary (g : CImg) : Prop := ∀ v ∈ g, v = 0 ∨ v = 1

instance (g : CImg) : Decidable (isBinary g) :=
  inferInstanceAs (Decidable (∀ v ∈ g, v = 0 ∨ v = 1))

/-- Number of cells occupied in both grids. -/
def countBoth (g1 g2 : CImg) : ℕ := (g1.zip g2).countP fun p => decide (p.1 = 1 ∧ p.2 = 1)

/-- Number of cells occupied in the first grid only. -/
def countFirstOnly (g1 g2 : CImg) : ℕ := (g1.zip g2).countP fun p => decide (p.1 = 1 ∧ p.2 = 0)

/-- Number of cells occupied in the second grid only. -/
def countSecondOnly (g1 g2 : CImg) : ℕ := (g1.zip g2).countP fun p => decide (p.1 = 0 ∧ p.2 = 1)

/-- A large binary grid of 199900001 cells, all occupied. -/
def largeGrid1 : CImg := List.replicate 100000 1 ++ List.replicate 199800001 1

/-- A large binary grid of 199900001 cells, the first 100000 of them occupied. -/
def largeGrid2 : CImg := List.replicate 100000 1 ++ List.replicate 199800001 0

/-- The Dice coefficient `2*tp / (2*tp + fp + fn)` as an exact rational number. -/
def diceExact (g1 g2 : CImg) : ℚ :=
  (2 * countBoth g1 g2 : ℚ) / (2 * countBoth g1 g2 + countFirstOnly g1 g2 + countSecondOnly g1 g2)

/-! ## Animations and the distance matrix -/

/-- A `cv::Vec3f`. -/
abbrev Vec3f := F32 × F32 × F32

/-- A `MocapAnimation::MocapFrame`: one position per joint. -/
abbrev MocapFrame := List Vec3f

/-- Modelled from the spec: class `MocapAnimation` is used by the code under src/ but declared
outside it.  The spec gives an animation "a stable integer identifier, an ordered sequence of
frames, each frame holding 3D positions" of the joints, and `ModelFactory::load` builds one
from a category, the poses and the identifier. -/
structure MocapAnimation where
  catId : Int
  poses : List MocapFrame
  id : Int
  deriving DecidableEq

/-- Accessor `anim->getId()`. -/
def MocapAnimation.getId (anim : MocapAnimation) : Int := anim.id

/-- Accessor `anim->frames()`, the number of frames. -/
def MocapAnimation.frames (anim : MocapAnimation) : Int := anim.poses.length

/-- Accessor `(*anim)(n, f)`: position of joint `n` at frame `f`; `none` when the animation
has no such frame or joint. -/
def MocapAnimation.posAt (anim : MocapAnimation) (n f : ℕ) : Option Vec3f :=
  (anim.poses.get? f).bind fun frame => frame.get? n

/-- A `cv::Mat` of type `CV_32FC1`: its size and its cells. -/
structure Mat where
  rows : ℕ
  cols : ℕ
  cell : ℕ → ℕ → F32

/-- Assignment `m.at<float>(i, j) = v`; `none` for an index outside the matrix. -/
def Mat.write (m : Mat) (i j : Int) (v : F32) : Option Mat :=
  if 0 ≤ i ∧ i < m.rows ∧ 0 ≤ j ∧ j < m.cols then
    some { m with cell := fun a b => if a = i.toNat ∧ b = j.toNat then v else m.cell a b }
  else none

/-- Embedding of `DICECoefficientVoxels::setAnimations`: the matrix assigned to
`m_distanceMatrix`, every cell being `std::numeric_limits<float>::max()` (`m_anims` becomes
the argument itself). -/
def setAnimations (animations : List MocapAnimation) : Mat :=
  { rows := animations.length, cols := animations.length,
    cell := fun _ _ => F32.numeric_limits_max }

/-- The `while` loop of `computeDistToAll`, `it` pointing at the head of the list.  There is
no test against `anims.end()`: on the empty list the iterator is dereferenced past the end.
The descriptors are a `QHash<int, CImg>`, read with `operator[]`. -/
def computeDistToAllLoop (anim : MocapAnimation) (descriptors : Int → CImg) :
    List MocapAnimation → Mat → Option Mat
  | [], _ => none
  | it :: rest, reducedResults =>
    if anim.getId > it.getId then
      match reducedResults.write it.getId anim.getId
          (computeDist (descriptors it.getId) (descriptors anim.getId)) with
      | none => none
      | some m1 =>
        match m1.write anim.getId it.getId
            (computeDist (descriptors it.getId) (descriptors anim.getId)) with
        | none => none
        | some m2 => computeDistToAllLoop anim descriptors rest m2
    else some reducedResults

/-- Embedding of `DICECoefficientVoxels::computeDistToAll`. -/
def computeDistToAll (anim : MocapAnimation) (reducedResults : Mat)
    (anims : List MocapAnimation) (descriptors : Int → CImg) : Option Mat :=
  computeDistToAllLoop anim descriptors anims reducedResults

/-- Embedding of `DICECoefficientVoxels::computeAllDistances`: `computeDistToAll` is mapped
over the animations, here one after the other in the order of `schedule`. -/
def computeAllDistances (schedule : List MocapAnimation) (distanceMatrix : Mat)
    (anims : List MocapAnimation) (descriptors : Int → CImg) : Option Mat :=
  match schedule with
  | [] => some distanceMatrix
  | anim :: rest =>
    match computeDistToAll anim distanceMatrix anims descriptors with
    | none => none
    | some m1 => computeAllDistances rest m1 anims descriptors

/-- Value the fill gives to the cell of two identifiers:
`computeDist(descriptors[smaller], descriptors[larger])`. -/
def pairDist (descriptors : Int → CImg) (i j : ℕ) : F32 :=
  computeDist (descriptors ((min i j : ℕ) : Int)) (descriptors ((max i j : ℕ) : Int))

/-- A collection of three animations with the identifiers 0, 1, 2, used as the concrete input
of the examples. -/
def exampleAnims : List MocapAnimation :=
  [{ catId := 0, poses := [], id := 0 }, { catId := 0, poses := [], id := 1 },
   { catId := 0, poses := [], id := 2 }]

/-- Descriptors for `exampleAnims`: the grids of 0 and 1 are identical and share no occupied
cell with the grid of 2. -/
def exampleDescriptors : Int → CImg := fun id => if id = 2 then [0, 0, 1] else [1, 1, 0]

/-- The identifiers of the collection are the positions `0 .. N-1`. -/
def idsArePositions (anims : List MocapAnimation) : Prop :=
  ∀ i : ℕ, ∀ h : i < anims.length, (anims.get ⟨i, h⟩).id = i

/-! ## Voxelisation -/

namespace F32

/-- Function `std::nearbyintf` in the default rounding mode: the nearest integral value, a
tie going to the even one. -/
def nearbyintf : F32 → F32
  | fin q => fin (rne q)
  | x => x

/-- Conversion of a `float` to `int`: the value truncated towards zero; `none` where the
conversion is undefined (NaN, an infinity, or a value outside the range of `int`). -/
def toInt : F32 → Option Int
  | fin q =>
    if -2 ^ 31 ≤ (if 0 ≤ q then ⌊q⌋ else ⌈q⌉) ∧ (if 0 ≤ q then ⌊q⌋ else ⌈q⌉) < 2 ^ 31 then
      some (if 0 ≤ q then ⌊q⌋ else ⌈q⌉)
    else none
  | _ => none

end F32

/-- Conversion `cv::saturate_cast<unsigned>(int)` as in OpenCV 4, where a negative value
becomes 0.  (Older releases wrap a negative value around modulo `2^32`; `computeVoxels` takes
the conversion as a parameter, and both agree on the values that are not negative.) -/
def saturate_cast_unsigned (v : Int) : ℕ := v.toNat

/-- Conversion of an `unsigned` coordinate to the `int` parameter of `draw_line`. -/
def toIntArg (u : ℕ) : Int := if u < 2 ^ 31 then (u : Int) else (u : Int) - 2 ^ 32

/-- One component of `(p + cv::Vec3f(20.0f,20.0f,20.0f)) * 5.0f / 10.0f`. -/
def toGridAxis (x : F32) : F32 :=
  F32.mul (F32.mul (F32.add x (F32.lit 20)) (F32.lit 5)) (F32.div (F32.lit 1) (F32.lit 10))

/-- Grid coordinates of a position, before rounding:
`(p + cv::Vec3f(20.0f,20.0f,20.0f)) * 5.0f / 10.0f`.  On a `cv::Vec` the operator `v * s`
multiplies every component by `s` and the operator `v / s` multiplies every component by
`1.f / s`. -/
def toGrid (p : Vec3f) : Vec3f :=
  (toGridAxis p.1, toGridAxis p.2.1, toGridAxis p.2.2)

/-- Rounded grid coordinates `posi` of a position: `cv::Vec3i(std::nearbyintf(pos[0]), ...)`
converted to `cv::Vec<uint,3>` by `toUnsigned`. -/
def voxelCoord (toUnsigned : Int → ℕ) (p : Vec3f) : Option (ℕ × ℕ × ℕ) :=
  match (F32.nearbyintf (toGrid p).1).toInt, (F32.nearbyintf (toGrid p).2.1).toInt,
      (F32.nearbyintf (toGrid p).2.2).toInt with
  | some x, some y, some z => some (toUnsigned x, toUnsigned y, toUnsigned z)
  | _, _, _ => none

/-- Assignment `m_voxelMap(x, y, z) = 1` on the 20x20x20 image: the cell at offset
`x + 20*y + 400*z` of the buffer; there is no bounds check, and `none` stands for a write
outside the buffer of 8000 cells. -/
def writeVoxel (m_voxelMap : CImg) (posi : ℕ × ℕ × ℕ) : Option CImg :=
  if posi.1 + 20 * posi.2.1 + 400 * posi.2.2 < m_voxelMap.length then
    some (m_voxelMap.set (posi.1 + 20 * posi.2.1 + 400 * posi.2.2) 1)
  else none

/-- One point of a line drawn on the 20x20x20 image; a point outside the image is skipped. -/
def drawPoint (img : CImg) (x y z : Int) (color : Int) : CImg :=
  if 0 ≤ x ∧ x < 20 ∧ 0 ≤ y ∧ y < 20 ∧ 0 ≤ z ∧ z < 20 then
    img.set (x + 20 * y + 400 * z).toNat color
  else img

/-- Sample `t` of `dmax` on the segment from `a` to `b`, rounded to the nearest integer. -/
def lineCoord (a b : Int) (t : ℕ) (dmax : Int) : Int :=
  a + (2 * (b - a) * (t : Int) + dmax) / (2 * dmax)

/-- Modelled from the spec: `CImg<T>::draw_line` for a 3D line belongs to the CImg library
and is not under src/.  The spec says: "rasterize a discrete 3D line between the two integer
coordinates and mark every voxel the line passes through as occupied".  The segment is
sampled at `dmax + 1` points, `dmax` being the largest coordinate difference, and every
sample inside the image is set to `color`. -/
def draw_line (img : CImg) (x0 y0 z0 x1 y1 z1 : Int) (color : Int) : CImg :=
  (List.range ((max (max |x1 - x0| |y1 - y0|) |z1 - z0|).toNat + 1)).foldl
    (fun im t =>
      drawPoint im (lineCoord x0 x1 t (max (max |x1 - x0| |y1 - y0|) |z1 - z0|))
        (lineCoord y0 y1 t (max (max |x1 - x0| |y1 - y0|) |z1 - z0|))
        (lineCoord z0 z1 t (max (max |x1 - x0| |y1 - y0|) |z1 - z0|)) color)
    img

/-- Body of the two loops of `computeVoxels` for joint `n` and frame `f`. -/
def voxelStep (toUnsigned : Int → ℕ) (anim : MocapAnimation) (n f : ℕ) (m_voxelMap : CImg) :
    Option CImg :=
  match anim.posAt n f, anim.posAt n (f - 1) with
  | some p, some q =>
    match voxelCoord toUnsigned p, voxelCoord toUnsigned q with
    | some posi, some prevPosi =>
      if prevPosi = posi then writeVoxel m_voxelMap posi
      else
        some (draw_line m_voxelMap (toIntArg prevPosi.1) (toIntArg prevPosi.2.1)
          (toIntArg prevPosi.2.2) (toIntArg posi.1) (toIntArg posi.2.1) (toIntArg posi.2.2) 1)
    | _, _ => none
  | _, _ => none

/-- Inner loop `for (int f = 1; f < anim->frames(); ++f)` over the listed frames. -/
def framesLoop (toUnsigned : Int → ℕ) (anim : MocapAnimation) (n : ℕ) :
    List ℕ → CImg → Option CImg
  | [], m_voxelMap => some m_voxelMap
  | f :: fs, m_voxelMap =>
    match voxelStep toUnsigned anim n f m_voxelMap with
    | none => none
    | some m1 => framesLoop toUnsigned anim n fs m1

/-- Outer loop `for (int n = 0; n < numberOfNodes; ++n)` over the listed joints. -/
def nodesLoop (toUnsigned : Int → ℕ) (anim : MocapAnimation) :
    List ℕ → CImg → Option CImg
  | [], m_voxelMap => some m_voxelMap
  | n :: ns, m_voxelMap =>
    match framesLoop toUnsigned anim n (List.range' 1 (anim.frames.toNat - 1)) m_voxelMap with
    | none => none
    | some m1 => nodesLoop toUnsigned anim ns m1

/-- Embedding of `DICECoefficientVoxels::computeVoxels`: 31 joints, a 20x20x20 image that is
0 everywhere at the start. -/
def computeVoxels (toUnsigned : Int → ℕ) (anim : MocapAnimation) : Option (Int × CImg) :=
  match nodesLoop toUnsigned anim (List.range 31) (List.replicate 8000 0) with
  | none => none
  | some m_voxelMap => some (anim.getId, m_voxelMap)

/-- Every joint position read by `computeVoxels` exists and has rounded grid coordinates
inside the 20x20x20 grid. -/
def inGrid (toUnsigned : Int → ℕ) (anim : MocapAnimation) : Prop :=
  ∀ n : ℕ, n < 31 → ∀ f : ℕ, f < anim.poses.length →
    ∃ p c, anim.posAt n f = some p ∧ voxelCoord toUnsigned p = some c ∧
      c.1 < 20 ∧ c.2.1 < 20 ∧ c.2.2 < 20

/-- Embedding of `DICECoefficientVoxels::computeDescriptors`: `computeVoxels` mapped over the
animations, the results in the order of the animations. -/
def computeDescriptors (toUnsigned : Int → ℕ) : List MocapAnimation → Option (List (Int × CImg))
  | [] => some []
  | anim :: rest =>
    match computeVoxels toUnsigned anim, computeDescriptors toUnsigned rest with
    | some r, some rs => some (r :: rs)
    | _, _ => none

/-- Embedding of `DICECoefficientVoxels::onComputeDescFinished`:
`m_descriptors[it.first] = it.second` for every result. -/
def onComputeDescFinished (results : List (Int × CImg)) (m_descriptors : Int → CImg) :
    Int → CImg :=
  results.foldl (fun d r => fun key => if key = r.1 then r.2 else d key) m_descriptors

/-- State of `m_descriptors` before any descriptor is stored: the hash is empty and
`operator[]` yields an empty image. -/
def emptyDescriptors : Int → CImg := fun _ => []

/-- An animation of two frames whose 31 joints all move from `(-20,-20,-20)` to
`(-10,-10,-10)`, used as the concrete input of the examples. -/
def exampleLineAnim : MocapAnimation :=
  { catId := 0,
    poses := [List.replicate 31 (F32.fin (-20), F32.fin (-20), F32.fin (-20)),
      List.replicate 31 (F32.fin (-10), F32.fin (-10), F32.fin (-10))],
    id := 0 }

/-- Two animations with the trajectories of `exampleLineAnim` and the identifiers 0 and 1. -/
def exampleTwins : List MocapAnimation :=
  [exampleLineAnim, { exampleLineAnim with id := 1 }]

/-! ## Trace of the loop of `computeDistToAll` -/

/-- Cells `(row, column)` assigned by the loop of `computeDistToAll`, in the order of the
assignments: in every iteration `reducedResults.at<float>(id2,id)` and then
`reducedResults.at<float>(id,id2)`.  The trace ends where the test `id > (*it)->getId()`
fails or the collection is exhausted. -/
def writtenCells (anim : MocapAnimation) : List MocapAnimation → List (Int × Int)
  | [] => []
  | it :: rest =>
    if anim.getId > it.getId then
      (it.getId, anim.getId) :: (anim.getId, it.getId) :: writtenCells anim rest
    else []

/-- Number of increments `++it` after which the test `id > (*it)->getId()` fails; `none` when
the iterator reaches `anims.end()`, where the test dereferences it. -/
def loopStop (anim : MocapAnimation) : List MocapAnimation → Option ℕ
  | [] => none
  | it :: rest =>
    if anim.getId > it.getId then (loopStop anim rest).map fun s => s + 1 else some 0

/-- A collection of two animations whose identifiers 1, 0 are not in non-decreasing order. -/
def exampleSwapped : List MocapAnimation :=
  [{ catId := 0, poses := [], id := 1 }, { catId := 0, poses := [], id := 0 }]

/-- A collection of three animations with the pairwise distinct identifiers 0, 2, 1. -/
def exampleUnsorted : List MocapAnimation :=
  [{ catId := 0, poses := [], id := 0 }, { catId := 0, poses := [], id := 2 },
   { catId := 0, poses := [], id := 1 }]

/-! ## Example inputs of the voxelisation and of `computeDist` -/

/-- An animation of `frames` frames all of whose 31 joints stay at the position `p`. -/
def stationaryAnim (p : Vec3f) (frames : ℕ) : MocapAnimation :=
  { catId := 0, poses := List.replicate frames (List.replicate 31 p), id := 0 }

/-- The 20x20x20 grid with all 8000 cells occupied. -/
def fullGrid : CImg := List.replicate 8000 1

/-- The 20x20x20 grid whose only occupied cell is the first one. -/
def singleGrid : CImg := 1 :: List.replicate 7999 0

/-! ## Loading of the animations -/

/-- A `QString`, as the list of its characters. -/
abbrev QString := List Char

/-- All the parts of a string around the separator `sep`, the empty ones included. -/
def splitAll (sep : Char) : QString → List QString
  | [] => [[]]
  | c :: cs =>
    if c = sep then [] :: splitAll sep cs
    else
      match splitAll sep cs with
      | [] => [[c]]
      | part :: parts => (c :: part) :: parts

/-- Call `s.split(sep, QString::SkipEmptyParts)` with a separator of one character. -/
def split (s : QString) (sep : Char) : List QString :=
  (splitAll sep s).filter fun part => !part.isEmpty

/-- The loop of `ModelFactory::parseCoordsLine` over `coordsList`: every item is split at
the commas and its first three parts become a `QVector3D`; `none` stands for an index
outside `coords`.  The conversion `QString::toFloat` is a parameter. -/
def parseCoordsItems (toFloat : QString → F32) : List QString → Option MocapFrame
  | [] => some []
  | item :: rest =>
    match split item ',' with
    | c0 :: c1 :: c2 :: _ =>
      match parseCoordsItems toFloat rest with
      | none => none
      | some retVal => some ((toFloat c0, toFloat c1, toFloat c2) :: retVal)
    | _ => none

/-- Embedding of `ModelFactory::parseCoordsLine`. -/
def parseCoordsLine (toFloat : QString → F32) (line : QString) : Option MocapFrame :=
  parseCoordsItems toFloat (split line ';')

/-- Local variables of `ModelFactory::load` that live across the iterations of its loop. -/
structure LoadState where
  retVal : List MocapAnimation
  currentPoses : List MocapFrame
  currCatID : Int

/-- Statements `int id = retVal.size(); retVal.push_back(new MocapAnimation(currCatID,
currentPoses, id));` of `ModelFactory::load`. -/
def pushAnimation (st : LoadState) : List MocapAnimation :=
  st.retVal ++ [{ catId := st.currCatID, poses := st.currentPoses, id := st.retVal.length }]

/-- Header branch of the loop of `ModelFactory::load`: the animation read so far is appended
when `currCatID != -1`, its poses are cleared, and `currCatID` becomes the category `cat` of
the header. -/
def headerState (st : LoadState) (cat : Int) : LoadState :=
  { retVal := if st.currCatID ≠ -1 then pushAnimation st else st.retVal,
    currentPoses := if st.currCatID ≠ -1 then [] else st.currentPoses,
    currCatID := cat }

/-- The loop `while (!in.atEnd())` of `ModelFactory::load` over the lines that are left in
the stream.  A line is a header when its first character is `#` (on an empty line the
character read is the null character); a header closes the animation read so far, takes the
next category from the second part of the third word, and consumes one more line.  After
every line the loop is left when `maxNumber != -1 && retVal.size() >= maxNumber`.  `none`
stands for an index outside `parts`, `info` or `coords`.  The conversions `QString::toInt`
and `QString::toFloat` are parameters. -/
def loadLoop (toInt : QString → Int) (toFloat : QString → F32) (maxNumber : Int) :
    List QString → LoadState → Option LoadState
  | [], st => some st
  | line :: rest, st =>
    if line.head? = some '#' then
      match (split line ' ').get? 2 with
      | none => none
      | some part =>
        match (split part '_').get? 1 with
        | none => none
        | some info =>
          if maxNumber ≠ -1 ∧
              (((headerState st (toInt info)).retVal.length : ℕ) : Int) ≥ maxNumber then
            some (headerState st (toInt info))
          else
            match rest with
            | [] => some (headerState st (toInt info))
            | _ :: rest2 =>
              loadLoop toInt toFloat maxNumber rest2 (headerState st (toInt info))
    else
      match parseCoordsLine toFloat line with
      | none => none
      | some frame =>
        if maxNumber ≠ -1 ∧ ((st.retVal.length : ℕ) : Int) ≥ maxNumber then
          some { st with currentPoses := st.currentPoses ++ [frame] }
        else
          loadLoop toInt toFloat maxNumber rest
            { st with currentPoses := st.currentPoses ++ [frame] }

/-- Embedding of `ModelFactory::load`.  The file is given by its lines, `none` being a file
that cannot be opened. -/
def load (toInt : QString → Int) (toFloat : QString → F32) (file : Option (List QString))
    (maxNumber : Int) : Option (List MocapAnimation) :=
  match file with
  | none => some []
  | some lines =>
    match loadLoop toInt toFloat maxNumber lines
        { retVal := [], currentPoses := [], currCatID := -1 } with
    | none => none
    | some st => if st.currentPoses ≠ [] then some (pushAnimation st) else some st.retVal

/-- A file of two animations: a header line and the line after it, two lines of
coordinates, a second header with its line, one line of coordinates. -/
def exampleFile : List QString :=
  ["#objectKey messif.objects.keys.AbstractObjectKey 3136_103_549_270".toList,
   "270;mcdr.objects.ObjectMocapPose".toList, "1,2,3;4,5,6".toList, "1,2,3;4,5,7".toList,
   "#objectKey messif.objects.keys.AbstractObjectKey 3137_104_12_100".toList,
   "100;mcdr.objects.ObjectMocapPose".toList, "0,0,0;1,1,1".toList]

/-! ## Rounded coordinates before their conversion -/

theorem rne_intCast (z : ℤ) : rne (z : ℚ) = z := by
  unfold rne
  simp

theorem floor_le_rne (y : ℚ) : ⌊y⌋ ≤ rne y := by
  unfold rne
  split_ifs <;> omega

theorem rne_le_floor_add_one (y : ℚ) : rne y ≤ ⌊y⌋ + 1 := by
  unfold rne
  split_ifs <;> omega

theorem rne_mono {y1 y2 : ℚ} (h : y1 ≤ y2) : rne y1 ≤ rne y2 := by
  have hf : ⌊y1⌋ ≤ ⌊y2⌋ := Int.floor_mono h
  rcases hf.lt_or_eq with hlt | heq
  · calc rne y1 ≤ ⌊y1⌋ + 1 := rne_le_floor_add_one y1
      _ ≤ ⌊y2⌋ := hlt
      _ ≤ rne y2 := floor_le_rne y2
  · unfold rne
    rw [heq]
    have hr : y1 - ⌊y2⌋ ≤ y2 - ⌊y2⌋ := by linarith
    split_ifs <;> first | omega | (exfalso; linarith)

theorem ulp_pos (q : ℚ) : 0 < ulp q := by
  unfold ulp; positivity

theorem expo_ge (q : ℚ) : -126 ≤ expo q := le_max_right _ _

theorem two_zpow_split (e : ℤ) (n : ℕ) : (2:ℚ) ^ e = 2 ^ n * 2 ^ (e - n) := by
  rw [← zpow_natCast, ← zpow_add₀ (by norm_num : (2:ℚ) ≠ 0)]
  congr 1; ring

theorem expo_eq_of {q : ℚ} {e : ℤ} (he : -126 ≤ e) (h1 : (2:ℚ) ^ e ≤ |q|) (h2 : |q| < 2 ^ (e + 1)) :
    expo q = e := by
  have hpos : 0 < |q| := lt_of_lt_of_le (by positivity) h1
  have a : e ≤ Int.log 2 |q| := (Int.zpow_le_iff_le_log (by norm_num) hpos).1 (by exact_mod_cast h1)
  have b : Int.log 2 |q| < e + 1 := (Int.lt_zpow_iff_log_lt (by norm_num) hpos).1 (by exact_mod_cast h2)
  unfold expo
  omega

theorem abs_lt_expo (q : ℚ) : |q| < 2 ^ (expo q + 1) := by
  rcases eq_or_ne q 0 with h | h
  · subst h; simp; positivity
  · have hpos : 0 < |q| := abs_pos.2 h
    have h1 : |q| < (2:ℚ) ^ (Int.log 2 |q| + 1) := by
      have := Int.lt_zpow_succ_log_self (b := 2) (by norm_num) |q|
      exact_mod_cast this
    refine lt_of_lt_of_le h1 ?_
    apply zpow_le_zpow_right₀ (by norm_num)
    unfold expo
    omega

theorem expo_le_abs {q : ℚ} (h : (2:ℚ) ^ (-126 : ℤ) ≤ |q|) : (2:ℚ) ^ expo q ≤ |q| := by
  have hpos : 0 < |q| := lt_of_lt_of_le (by positivity) h
  have h1 : (2:ℚ) ^ (Int.log 2 |q|) ≤ |q| := by
    have := Int.zpow_log_le_self (b := 2) (by norm_num) hpos
    exact_mod_cast this
  unfold expo
  rcases le_total (Int.log 2 |q|) (-126) with c | c
  · rw [max_eq_right c]; exact h
  · rw [max_eq_left c]; exact h1

theorem roundQ_zero : roundQ 0 = 0 := by
  unfold roundQ
  simp [rne]


theorem roundQ_of_int_mul_ulp {q : ℚ} (z : ℤ) (h : q = z * ulp q) : roundQ q = q := by
  unfold roundQ
  have hu : ulp q ≠ 0 := (ulp_pos q).ne'
  have : q / ulp q = z := by
    rw [div_eq_iff hu]; exact h
  rw [this, rne_intCast]
  exact h.symm

/-- Values `m * 2^k` with `|m| ≤ 2^24` and `k ≥ -149` are fixed by rounding. -/
theorem roundQ_of_repr_aux (q : ℚ) (m k : ℤ) (hq : q = (m : ℚ) * 2 ^ k) (hm : |m| ≤ 2 ^ 24)
    (hk : -149 ≤ k) : roundQ q = q := by
  rcases eq_or_ne m 0 with h0 | h0
  · subst h0; simp at hq; subst hq; exact roundQ_zero
  have h2k : (0:ℚ) < 2 ^ k := by positivity
  have habs : |q| = (|m| : ℤ) * 2 ^ k := by
    rw [hq, abs_mul, abs_of_pos h2k]; push_cast; rfl
  have hpos : 0 < |q| := by
    rw [habs]; have : (0:ℚ) < (|m| : ℤ) := by exact_mod_cast abs_pos.2 h0
    positivity
  have hmq : ((|m| : ℤ) : ℚ) ≤ 2 ^ 24 := by exact_mod_cast hm
  have hub : |q| < (2:ℚ) ^ (k + 25) := by
    rw [habs, two_zpow_split (k + 25) 25, show k + 25 - (25:ℕ) = k by push_cast; ring]
    have : ((|m| : ℤ) : ℚ) < 2 ^ 25 := lt_of_le_of_lt hmq (by norm_num)
    exact mul_lt_mul_of_pos_right this h2k
  have hL : Int.log 2 |q| < k + 25 :=
    (Int.lt_zpow_iff_log_lt (by norm_num) hpos).1 (by exact_mod_cast hub)
  have hLle : (2:ℚ) ^ (Int.log 2 |q|) ≤ |q| := by
    have := Int.zpow_log_le_self (b := 2) (by norm_num) hpos
    exact_mod_cast this
  rcases le_or_lt (expo q - 23) k with hd | hd
  · obtain ⟨n, hn⟩ := Int.eq_ofNat_of_zero_le (sub_nonneg.2 hd)
    apply roundQ_of_int_mul_ulp (m * 2 ^ n)
    have hu : ulp q = 2 ^ (k - n) := by unfold ulp; congr 1; omega
    rw [hu, hq, two_zpow_split k n]; push_cast; ring
  · have he : expo q = k + 24 := by unfold expo at hd ⊢; omega
    have heL : Int.log 2 |q| = k + 24 := by unfold expo at he; omega
    rw [heL, habs, two_zpow_split (k + 24) 24, show k + 24 - (24:ℕ) = k by push_cast; ring] at hLle
    have hge : (2:ℚ) ^ 24 ≤ ((|m| : ℤ) : ℚ) := le_of_mul_le_mul_right hLle h2k
    have hge' : (2:ℤ) ^ 24 ≤ |m| := by exact_mod_cast hge
    have hmeq : |m| = 2 ^ 24 := le_antisymm hm hge'
    have hmz : m = 2 * (m / 2) := by
      rcases abs_cases m with ⟨h1, _⟩ | ⟨h1, _⟩ <;> omega
    apply roundQ_of_int_mul_ulp (m / 2)
    have hu : ulp q = 2 ^ (k + 1) := by unfold ulp; congr 1; omega
    have hmq2 : (m : ℚ) = 2 * ((m / 2 : ℤ) : ℚ) := by exact_mod_cast hmz
    rw [hu, hq, zpow_add_one₀ (by norm_num : (2:ℚ) ≠ 0)]
    nth_rewrite 1 [hmq2]
    ring

theorem roundQ_of_repr (m k : ℤ) (hm : |m| ≤ 2 ^ 24) (hk : -149 ≤ k) :
    roundQ ((m : ℚ) * 2 ^ k) = (m : ℚ) * 2 ^ k :=
  roundQ_of_repr_aux _ m k rfl hm hk

theorem roundQ_natCast (n : ℕ) (h : n ≤ 2 ^ 24) : roundQ (n : ℚ) = n := by
  have := roundQ_of_repr (n : ℤ) 0 (by rw [abs_of_nonneg (by positivity)]; exact_mod_cast h) (by norm_num)
  simpa using this


theorem rne_le_of_le {y : ℚ} {z : ℤ} (h : y ≤ z) : rne y ≤ z := by
  have := rne_mono h; rwa [rne_intCast] at this

theorem le_rne_of_le {y : ℚ} {z : ℤ} (h : (z:ℚ) ≤ y) : z ≤ rne y := by
  have := rne_mono h; rwa [rne_intCast] at this

theorem roundQ_nonneg {q : ℚ} (h : 0 ≤ q) : 0 ≤ roundQ q := by
  unfold roundQ
  have hu := ulp_pos q
  have : (0:ℤ) ≤ rne (q / ulp q) := le_rne_of_le (by push_cast; positivity)
  have : (0:ℚ) ≤ rne (q / ulp q) := by exact_mod_cast this
  positivity

theorem roundQ_le_pow {q : ℚ} (h : 0 ≤ q) : roundQ q ≤ 2 ^ (expo q + 1) := by
  unfold roundQ
  have hu := ulp_pos q
  have h1 := abs_lt_expo q
  rw [abs_of_nonneg h] at h1
  have h2 : (2:ℚ) ^ (expo q + 1) = 2 ^ 24 * ulp q := by
    unfold ulp
    rw [two_zpow_split (expo q + 1) 24]; congr 2; push_cast; ring
  rw [h2]
  have h3 : q / ulp q ≤ ((2 ^ 24 : ℤ) : ℚ) := by
    rw [div_le_iff₀ hu, show ((2 ^ 24 : ℤ) : ℚ) = 2 ^ 24 by norm_num, ← h2]; exact h1.le
  have h4 : ((rne (q / ulp q) : ℤ) : ℚ) ≤ 2 ^ 24 := by exact_mod_cast rne_le_of_le h3
  exact mul_le_mul_of_nonneg_right h4 hu.le

theorem pow_le_roundQ {q : ℚ} (h : (2:ℚ) ^ (-126 : ℤ) ≤ q) : 2 ^ expo q ≤ roundQ q := by
  unfold roundQ
  have hu := ulp_pos q
  have hq0 : 0 ≤ q := le_trans (by positivity) h
  have h1 := expo_le_abs (q := q) (by rwa [abs_of_nonneg hq0])
  rw [abs_of_nonneg hq0] at h1
  have h2 : (2:ℚ) ^ (expo q) = 2 ^ 23 * ulp q := by
    unfold ulp
    rw [two_zpow_split (expo q) 23]; congr 2
  rw [h2]
  have h3 : ((2 ^ 23 : ℤ) : ℚ) ≤ q / ulp q := by
    rw [le_div_iff₀ hu, show ((2 ^ 23 : ℤ) : ℚ) = 2 ^ 23 by norm_num, ← h2]; exact h1
  have h4 : (2 ^ 23 : ℚ) ≤ ((rne (q / ulp q) : ℤ) : ℚ) := by exact_mod_cast le_rne_of_le h3
  exact mul_le_mul_of_nonneg_right h4 hu.le

theorem expo_mono {q1 q2 : ℚ} (h1 : 0 < q1) (h : q1 ≤ q2) : expo q1 ≤ expo q2 := by
  unfold expo
  have h2 : 0 < q2 := lt_of_lt_of_le h1 h
  have := Int.log_mono_right (b := 2) (abs_pos.2 h1.ne') (by
    rw [abs_of_pos h1, abs_of_pos h2]; exact h : |q1| ≤ |q2|)
  omega

theorem roundQ_mono {q1 q2 : ℚ} (h0 : 0 ≤ q1) (h : q1 ≤ q2) : roundQ q1 ≤ roundQ q2 := by
  have h02 : 0 ≤ q2 := le_trans h0 h
  rcases eq_or_lt_of_le h0 with hz | hpos
  · rw [← hz, roundQ_zero]; exact roundQ_nonneg h02
  have hq2 : 0 < q2 := lt_of_lt_of_le hpos h
  have he := expo_mono hpos h
  rcases he.lt_or_eq with hlt | heq
  · have hL : expo q2 = Int.log 2 |q2| := by
      have := expo_ge q1
      unfold expo at hlt ⊢; omega
    have hge : (2:ℚ) ^ (-126:ℤ) ≤ q2 := by
      have h1 : (2:ℚ) ^ (Int.log 2 |q2|) ≤ |q2| := by
        have := Int.zpow_log_le_self (b := 2) (by norm_num) (abs_pos.2 hq2.ne')
        exact_mod_cast this
      rw [← hL, abs_of_pos hq2] at h1
      refine le_trans ?_ h1
      exact zpow_le_zpow_right₀ (by norm_num) (expo_ge q2)
    calc roundQ q1 ≤ 2 ^ (expo q1 + 1) := roundQ_le_pow h0
      _ ≤ 2 ^ (expo q2) := zpow_le_zpow_right₀ (by norm_num) hlt
      _ ≤ roundQ q2 := pow_le_roundQ hge
  · unfold roundQ
    have hu : ulp q1 = ulp q2 := by unfold ulp; rw [heq]
    rw [hu]
    have hu2 := ulp_pos q2
    have : q1 / ulp q2 ≤ q2 / ulp q2 := div_le_div_of_nonneg_right h hu2.le
    have := rne_mono this
    have : ((rne (q1 / ulp q2) : ℤ) : ℚ) ≤ rne (q2 / ulp q2) := by exact_mod_cast this
    exact mul_le_mul_of_nonneg_right this hu2.le

theorem abs_rne_le {y : ℚ} {z : ℤ} (h : |y| ≤ z) : |rne y| ≤ z := by
  rw [abs_le] at h ⊢
  constructor
  · exact le_rne_of_le (by push_cast; exact h.1)
  · exact rne_le_of_le h.2

/-- The rounded value is again of the form `m * 2^k`. -/
theorem roundQ_repr (q : ℚ) : ∃ m : ℤ, |m| ≤ 2 ^ 24 ∧ roundQ q = (m : ℚ) * 2 ^ (expo q - 23) := by
  refine ⟨rne (q / ulp q), ?_, rfl⟩
  apply abs_rne_le
  have hu := ulp_pos q
  rw [abs_div, abs_of_pos hu, div_le_iff₀ hu]
  have h1 := abs_lt_expo q
  have h2 : (2:ℚ) ^ (expo q + 1) = 2 ^ 24 * ulp q := by
    unfold ulp
    rw [two_zpow_split (expo q + 1) 24]; congr 2; push_cast; ring
  rw [show ((2 ^ 24 : ℤ) : ℚ) = 2 ^ 24 by norm_num, ← h2]; exact h1.le

theorem roundQ_idem (q : ℚ) : roundQ (roundQ q) = roundQ q := by
  obtain ⟨m, hm, h⟩ := roundQ_repr q
  exact roundQ_of_repr_aux _ m _ h hm (by have := expo_ge q; omega)

theorem expo_two_mul {q : ℚ} (h : (2:ℚ) ^ (-126 : ℤ) ≤ |q|) : expo (2 * q) = expo q + 1 := by
  have a := expo_le_abs h
  have b := abs_lt_expo q
  apply expo_eq_of (by have := expo_ge q; omega)
  · rw [abs_mul, abs_two, zpow_add_one₀ (by norm_num : (2:ℚ) ≠ 0)]
    linarith
  · rw [abs_mul, abs_two, zpow_add_one₀ (by norm_num : (2:ℚ) ≠ 0) (expo q + 1)]
    linarith

theorem roundQ_two_mul {q : ℚ} (h : (2:ℚ) ^ (-126 : ℤ) ≤ |q|) : roundQ (2 * q) = 2 * roundQ q := by
  have hu : ulp (2 * q) = 2 * ulp q := by
    unfold ulp
    rw [expo_two_mul h, show expo q + 1 - 23 = (expo q - 23) + 1 by ring,
      zpow_add_one₀ (by norm_num : (2:ℚ) ≠ 0), mul_comm]
  unfold roundQ
  rw [hu, mul_div_mul_left _ _ (by norm_num : (2:ℚ) ≠ 0)]
  ring

theorem rne_eq_of_lt {y : ℚ} {m : ℤ} (h1 : (m : ℚ) - 1/2 < y) (h2 : y < m + 1/2) : rne y = m := by
  unfold rne
  have hfl : (⌊y⌋ : ℚ) ≤ y := Int.floor_le y
  have hfu : y < ⌊y⌋ + 1 := Int.lt_floor_add_one y
  have a1 : m - 1 < ⌊y⌋ + 1 := by
    have : ((m - 1 : ℤ) : ℚ) < ((⌊y⌋ + 1 : ℤ) : ℚ) := by push_cast; linarith
    exact_mod_cast this
  have a2 : ⌊y⌋ < m + 1 := by
    have : ((⌊y⌋ : ℤ) : ℚ) < ((m + 1 : ℤ) : ℚ) := by push_cast; linarith
    exact_mod_cast this
  have hcase : ⌊y⌋ = m ∨ ⌊y⌋ = m - 1 := by omega
  rcases hcase with hc | hc
  · rw [hc]
    rw [if_pos (by linarith)]
  · rw [hc]
    have hlt : ¬ (y - ((m - 1 : ℤ) : ℚ) < 1/2) := by push_cast; linarith
    have hgt : (1/2 : ℚ) < y - ((m - 1 : ℤ) : ℚ) := by push_cast; linarith
    rw [if_neg hlt, if_pos hgt]
    omega

/-- Evaluation of the rounding at a value that is not a tie. -/
theorem roundQ_eq_of {q : ℚ} (e m : ℤ) (he : -126 ≤ e) (h1 : (2:ℚ) ^ e ≤ |q|) (h2 : |q| < 2 ^ (e + 1))
    (h3 : (m:ℚ) - 1/2 < q / 2 ^ (e - 23)) (h4 : q / 2 ^ (e - 23) < m + 1/2) :
    roundQ q = m * 2 ^ (e - 23) := by
  unfold roundQ ulp
  rw [expo_eq_of he h1 h2, rne_eq_of_lt h3 h4]

/-! ## Lemmas on `float` operations -/

namespace F32

theorem round_eq_fin {q : ℚ} (h : |roundQ q| < 2 ^ 128) : round q = fin (roundQ q) := by
  unfold round
  rw [if_neg (not_le.2 h)]

theorem round_zero : round 0 = fin 0 := by
  rw [round_eq_fin] <;> rw [roundQ_zero]; norm_num

theorem round_natCast (n : ℕ) (h : n ≤ 2 ^ 24) : round (n : ℚ) = fin n := by
  have hq := roundQ_natCast n h
  rw [round_eq_fin, hq]
  rw [hq, abs_of_nonneg (by positivity)]
  have : (n : ℚ) ≤ 2 ^ 24 := by exact_mod_cast h
  exact lt_of_le_of_lt this (by norm_num)

theorem lit_one : lit 1 = fin 1 := by
  simpa [lit] using round_natCast 1 (by norm_num)

theorem lit_two : lit 2 = fin 2 := by
  simpa [lit] using round_natCast 2 (by norm_num)

theorem roundQ_thousandth : roundQ (1/1000) = 8589935 / 2 ^ 33 := by
  rw [roundQ_eq_of (-10) 8589935 (by norm_num) (by norm_num [abs_of_pos])
    (by norm_num [abs_of_pos]) (by norm_num) (by norm_num)]
  norm_num

/-- The literal `0.001f` denotes `8589935 / 2^33`, slightly above one thousandth. -/
theorem lit_thousandth : lit (1/1000) = fin (8589935 / 2 ^ 33) := by
  unfold lit
  rw [round_eq_fin] <;> rw [roundQ_thousandth]
  norm_num [abs_of_pos]

theorem one_le_roundQ_natCast {n : ℕ} (h : 0 < n) : 1 ≤ roundQ (n : ℚ) := by
  have h1 : roundQ ((1 : ℕ) : ℚ) = ((1 : ℕ) : ℚ) := roundQ_natCast 1 (by norm_num)
  have h2 : ((1 : ℕ) : ℚ) ≤ (n : ℚ) := by exact_mod_cast h
  have := roundQ_mono (by norm_num) h2
  rw [h1] at this
  simpa using this

theorem roundQ_natCast_le {n : ℕ} (h : n < 2 ^ 64) : roundQ (n : ℚ) ≤ 2 ^ 64 := by
  have h1 : roundQ (((1 : ℤ) : ℚ) * 2 ^ (64 : ℤ)) = ((1 : ℤ) : ℚ) * 2 ^ (64 : ℤ) :=
    roundQ_of_repr 1 64 (by norm_num) (by norm_num)
  have h2 : (n : ℚ) ≤ ((1 : ℤ) : ℚ) * 2 ^ (64 : ℤ) := by
    have : (n : ℚ) ≤ ((2 ^ 64 : ℕ) : ℚ) := by exact_mod_cast h.le
    norm_num at this ⊢
    exact this
  have := roundQ_mono (by positivity) h2
  rw [h1] at this
  norm_num at this ⊢
  exact this

/-- Conversion of an `unsigned long` to `float` is finite. -/
theorem ofNat_eq_fin {n : ℕ} (h : n < 2 ^ 64) : ofNat n = fin (roundQ n) := by
  unfold ofNat
  apply round_eq_fin
  rw [abs_of_nonneg (roundQ_nonneg (by positivity))]
  exact lt_of_le_of_lt (roundQ_natCast_le h) (by norm_num)

/-- The numerator `2.0f * static_cast<float>(n)` is the float nearest to `2 * n`. -/
theorem two_mul_ofNat {n : ℕ} (h : n < 2 ^ 63) :
    mul (lit 2) (ofNat n) = fin (roundQ ((2 * n : ℕ) : ℚ)) := by
  rw [lit_two, ofNat_eq_fin (lt_trans h (by norm_num))]
  show round (2 * roundQ (n : ℚ)) = _
  rcases Nat.eq_zero_or_pos n with h0 | h0
  · subst h0
    simp [roundQ_zero, round_zero]
  have h1 := one_le_roundQ_natCast h0
  have hn1 : (1 : ℚ) ≤ (n : ℚ) := by exact_mod_cast h0
  have e1 : roundQ (2 * roundQ (n : ℚ)) = 2 * roundQ (n : ℚ) := by
    rw [roundQ_two_mul, roundQ_idem]
    rw [abs_of_nonneg (by linarith)]
    exact le_trans (by norm_num) h1
  have e2 : roundQ ((2 * n : ℕ) : ℚ) = 2 * roundQ (n : ℚ) := by
    push_cast
    rw [roundQ_two_mul]
    rw [abs_of_nonneg (by linarith)]
    exact le_trans (by norm_num) hn1
  rw [round_eq_fin, e1, e2]
  rw [e1, abs_of_nonneg (by linarith)]
  have := roundQ_natCast_le (lt_trans h (by norm_num) : n < 2 ^ 64)
  calc 2 * roundQ (n : ℚ) ≤ 2 * 2 ^ 64 := by linarith
    _ < 2 ^ 128 := by norm_num

theorem div_of_ne_zero (a b : ℚ) (hb : b ≠ 0) : div (fin a) (fin b) = round (a / b) := by
  show (if b = 0 then _ else round (a / b)) = _
  rw [if_neg hb]

/-- Quotient of two finite floats with a positive divisor. -/
theorem div_fin_fin {a b : ℚ} (ha : 0 ≤ a) (hb : 0 < b) (hab : a ≤ b) :
    div (fin a) (fin b) = fin (roundQ (a / b)) := by
  show (if b = 0 then _ else round (a / b)) = _
  rw [if_neg hb.ne']
  apply round_eq_fin
  have h0 : 0 ≤ a / b := div_nonneg ha hb.le
  have h1 : a / b ≤ 1 := (div_le_one hb).2 hab
  rw [abs_of_nonneg (roundQ_nonneg h0)]
  have := roundQ_mono h0 h1
  have h2 : roundQ 1 = 1 := by simpa using roundQ_natCast 1 (by norm_num)
  rw [h2] at this
  exact lt_of_le_of_lt this (by norm_num)

end F32

/-! ## Lemmas on the counts of `computeDist` -/

/-- Bin 1 of `get_histogram(2,0,1)` counts the pixels equal to 1. -/
theorem histAt_one (img : CImg) : histAt (get_histogram img 2 0 1) 1 = img.count 1 := by
  unfold histAt get_histogram
  have hr : List.range 2 = [0, 1] := by decide
  rw [hr]
  simp only [List.map_cons, List.map_nil, List.getD_cons_succ, List.getD_cons_zero]
  rw [List.count, List.countP_congr]
  intro val _
  by_cases h1 : val = 1
  · subst h1; simp
  · have hd : decide (0 ≤ val ∧ val ≤ 1 ∧
        (if val = 1 then 2 - 1 else ((val - 0) * ((2 : ℕ) : Int) / (1 - 0)).toNat) = 1) = false := by
      rw [decide_eq_false_iff_not]
      rintro ⟨h0, hle, h⟩
      have hz : val = 0 := by omega
      subst hz
      simp at h
    rw [hd]
    simp [h1]

/-- Numbers read from the three histograms by `computeDist`. -/
theorem dice_eq (g1 g2 : CImg) :
    dice g1 g2 =
      F32.div (F32.mul (F32.lit 2) (F32.ofNat ((get_min g1 g2).count 1)))
        (F32.ofNat ((2 * (get_min g1 g2).count 1 + (sub g1 (get_min g1 g2)).count 1
          + (sub g2 (get_min g1 g2)).count 1) % 2 ^ 64)) := by
  unfold dice
  simp only [histAt_one]

theorem get_min_comm (g1 g2 : CImg) : get_min g1 g2 = get_min g2 g1 := by
  unfold get_min
  rw [List.zipWith_comm]
  congr 1
  funext a b
  exact min_comm b a

theorem get_min_eq_map (g1 g2 : CImg) :
    get_min g1 g2 = (g1.zip g2).map fun p => min p.1 p.2 := by
  unfold get_min
  rw [List.zip, List.map_zipWith]

theorem sub_get_min_left (g1 g2 : CImg) :
    sub g1 (get_min g1 g2) = (g1.zip g2).map fun p => p.1 - min p.1 p.2 := by
  unfold sub get_min
  induction g1 generalizing g2 with
  | nil => simp
  | cons a t ih =>
    cases g2 with
    | nil => simp
    | cons b u => simp [ih u]

theorem sub_get_min_right (g1 g2 : CImg) :
    sub g2 (get_min g1 g2) = (g1.zip g2).map fun p => p.2 - min p.1 p.2 := by
  unfold sub get_min
  induction g1 generalizing g2 with
  | nil => simp
  | cons a t ih =>
    cases g2 with
    | nil => simp
    | cons b u => simp [ih u]

theorem count_one_map {α : Type} (l : List α) (f : α → Int) :
    (l.map f).count 1 = l.countP fun p => decide (f p = 1) := by
  rw [List.count, List.countP_map]
  apply List.countP_congr
  intro p _
  simp

theorem count_le_length_zip (g1 g2 : CImg) (P : Int × Int → Bool) :
    (g1.zip g2).countP P ≤ g1.length := by
  calc (g1.zip g2).countP P ≤ (g1.zip g2).length := List.countP_le_length _
    _ ≤ g1.length := by rw [List.length_zip]; exact Nat.min_le_left _ _

/-- The `unsigned long` denominator does not wrap around for an image that fits in memory. -/
theorem denominator_lt (g1 g2 : CImg) (hlen : g1.length < 2 ^ 62) :
    2 * (get_min g1 g2).count 1 + (sub g1 (get_min g1 g2)).count 1
      + (sub g2 (get_min g1 g2)).count 1 < 2 ^ 64 := by
  rw [get_min_eq_map, ← get_min_eq_map, sub_get_min_left, sub_get_min_right, get_min_eq_map,
    count_one_map, count_one_map, count_one_map]
  have h1 := count_le_length_zip g1 g2 (fun p => decide (min p.1 p.2 = 1))
  have h2 := count_le_length_zip g1 g2 (fun p => decide (p.1 - min p.1 p.2 = 1))
  have h3 := count_le_length_zip g1 g2 (fun p => decide (p.2 - min p.1 p.2 = 1))
  omega

/-- For binary grids the three histogram counts are the counts of the cells occupied in both
grids, in the first only and in the second only. -/
theorem counts_binary (g1 g2 : CImg) (hb1 : isBinary g1) (hb2 : isBinary g2) :
    (get_min g1 g2).count 1 = countBoth g1 g2 ∧
    (sub g1 (get_min g1 g2)).count 1 = countFirstOnly g1 g2 ∧
    (sub g2 (get_min g1 g2)).count 1 = countSecondOnly g1 g2 := by
  have hmem : ∀ p ∈ g1.zip g2, (p.1 = 0 ∨ p.1 = 1) ∧ (p.2 = 0 ∨ p.2 = 1) := by
    intro p hp
    obtain ⟨a, b⟩ := p
    have := List.of_mem_zip hp
    exact ⟨hb1 _ this.1, hb2 _ this.2⟩
  refine ⟨?_, ?_, ?_⟩
  · rw [get_min_eq_map, count_one_map]
    unfold countBoth
    apply List.countP_congr
    intro p hp
    obtain ⟨h1, h2⟩ := hmem p hp
    simp only [decide_eq_true_eq]
    rcases h1 with h1 | h1 <;> rcases h2 with h2 | h2 <;> rw [h1, h2] <;> decide
  · rw [sub_get_min_left, count_one_map]
    unfold countFirstOnly
    apply List.countP_congr
    intro p hp
    obtain ⟨h1, h2⟩ := hmem p hp
    simp only [decide_eq_true_eq]
    rcases h1 with h1 | h1 <;> rcases h2 with h2 | h2 <;> rw [h1, h2] <;> decide
  · rw [sub_get_min_right, count_one_map]
    unfold countSecondOnly
    apply List.countP_congr
    intro p hp
    obtain ⟨h1, h2⟩ := hmem p hp
    simp only [decide_eq_true_eq]
    rcases h1 with h1 | h1 <;> rcases h2 with h2 | h2 <;> rw [h1, h2] <;> decide

/-- The three kinds of occupied cells of two binary grids of equal size: the first grid has
`tp + fp` occupied cells and the second `tp + fn`. -/
theorem counts_sum (g1 g2 : CImg) (hlen : g1.length = g2.length) (hb1 : isBinary g1)
    (hb2 : isBinary g2) :
    countBoth g1 g2 + countFirstOnly g1 g2 = g1.count 1 ∧
    countBoth g1 g2 + countSecondOnly g1 g2 = g2.count 1 := by
  unfold countBoth countFirstOnly countSecondOnly
  induction g1 generalizing g2 with
  | nil =>
    cases g2 with
    | nil => simp
    | cons b u => simp at hlen
  | cons a t ih =>
    cases g2 with
    | nil => simp at hlen
    | cons b u =>
      have hl : t.length = u.length := by simpa using hlen
      have ht : isBinary t := fun v hv => hb1 v (List.mem_cons_of_mem _ hv)
      have hu : isBinary u := fun v hv => hb2 v (List.mem_cons_of_mem _ hv)
      obtain ⟨i1, i2⟩ := ih u hl ht hu
      have ha := hb1 a (List.mem_cons_self _ _)
      have hb := hb2 b (List.mem_cons_self _ _)
      simp only [List.zip_cons_cons, List.countP_cons, List.count_cons]
      rcases ha with ha | ha <;> rcases hb with hb | hb <;> subst ha <;> subst hb <;>
        simp at i1 i2 ⊢ <;> omega

/-! ## The value of `dice` and of `computeDist` -/

theorem F32.lt_nan_left (x : F32) : F32.lt F32.nan x = false := by
  cases x <;> rfl

theorem F32.div_nan_right (x : F32) : F32.div x F32.nan = F32.nan := by
  cases x <;> rfl

theorem roundQ_one : roundQ 1 = 1 := by
  simpa using roundQ_natCast 1 (by norm_num)

/-- Value of the variable `dice` whenever the denominator `2*tp + fp + fn` is not zero. -/
theorem dice_fin (g1 g2 : CImg) (hlen : g1.length < 2 ^ 62)
    (hs : 0 < 2 * (get_min g1 g2).count 1 + (sub g1 (get_min g1 g2)).count 1
      + (sub g2 (get_min g1 g2)).count 1) :
    dice g1 g2 = F32.fin (roundQ (roundQ ((2 * (get_min g1 g2).count 1 : ℕ) : ℚ) /
      roundQ ((2 * (get_min g1 g2).count 1 + (sub g1 (get_min g1 g2)).count 1
        + (sub g2 (get_min g1 g2)).count 1 : ℕ) : ℚ))) ∧
    0 ≤ roundQ (roundQ ((2 * (get_min g1 g2).count 1 : ℕ) : ℚ) /
      roundQ ((2 * (get_min g1 g2).count 1 + (sub g1 (get_min g1 g2)).count 1
        + (sub g2 (get_min g1 g2)).count 1 : ℕ) : ℚ)) ∧
    roundQ (roundQ ((2 * (get_min g1 g2).count 1 : ℕ) : ℚ) /
      roundQ ((2 * (get_min g1 g2).count 1 + (sub g1 (get_min g1 g2)).count 1
        + (sub g2 (get_min g1 g2)).count 1 : ℕ) : ℚ)) ≤ 1 := by
  have hden := denominator_lt g1 g2 hlen
  rw [dice_eq, Nat.mod_eq_of_lt hden]
  generalize (get_min g1 g2).count 1 = T at *
  generalize (sub g1 (get_min g1 g2)).count 1 = F at *
  generalize (sub g2 (get_min g1 g2)).count 1 = N at *
  have hT : T < 2 ^ 63 := by omega
  rw [F32.two_mul_ofNat hT, F32.ofNat_eq_fin hden]
  have hpos : 0 < roundQ ((2 * T + F + N : ℕ) : ℚ) :=
    lt_of_lt_of_le (by norm_num) (F32.one_le_roundQ_natCast hs)
  have hle : roundQ ((2 * T : ℕ) : ℚ) ≤ roundQ ((2 * T + F + N : ℕ) : ℚ) := by
    apply roundQ_mono (by positivity)
    have : 2 * T ≤ 2 * T + F + N := by omega
    exact_mod_cast this
  have hnn : 0 ≤ roundQ ((2 * T : ℕ) : ℚ) := roundQ_nonneg (by positivity)
  refine ⟨F32.div_fin_fin hnn hpos hle, roundQ_nonneg (div_nonneg hnn hpos.le), ?_⟩
  have := roundQ_mono (div_nonneg hnn hpos.le) ((div_le_one hpos).2 hle)
  rwa [roundQ_one] at this

/-- Result of `computeDist` from a finite value of `dice`. -/
theorem computeDist_of_dice {g1 g2 : CImg} {d : ℚ} (h : dice g1 g2 = F32.fin d) :
    computeDist g1 g2 =
      if d < 8589935 / 2 ^ 33 then F32.numeric_limits_max else F32.fin (roundQ (1 / d)) := by
  unfold computeDist
  rw [h, F32.lit_thousandth, F32.lit_one]
  show (if decide (d < 8589935 / 2 ^ 33) = true then _ else _) = _
  by_cases hd : d < 8589935 / 2 ^ 33
  · rw [if_pos (by simpa using hd), if_pos hd]
  · rw [if_neg (by simpa using hd), if_neg hd]
    have hc : (8589935 / 2 ^ 33 : ℚ) ≤ d := not_lt.1 hd
    have hdpos : 0 < d := lt_of_lt_of_le (by norm_num) hc
    show (if d = 0 then _ else F32.round (1 / d)) = _
    rw [if_neg hdpos.ne']
    apply F32.round_eq_fin
    have hinv : 1 / d ≤ ((1024 : ℕ) : ℚ) := by
      rw [div_le_iff₀ hdpos]
      push_cast
      nlinarith
    have hm := roundQ_mono (by positivity) hinv
    rw [roundQ_natCast 1024 (by norm_num)] at hm
    rw [abs_of_nonneg (roundQ_nonneg (by positivity))]
    exact lt_of_le_of_lt hm (by norm_num)

theorem get_min_self (g : CImg) : get_min g g = g := by
  unfold get_min
  induction g with
  | nil => rfl
  | cons a t ih => simp [ih]

theorem sub_self_count (g : CImg) : (sub g g).count 1 = 0 := by
  unfold sub
  rw [List.count_eq_zero]
  intro h
  rw [List.mem_iff_get] at h
  obtain ⟨i, hi⟩ := h
  simp at hi

/-- Core of C1: an image with a cell equal to 1 is at distance exactly `1.0f` from itself. -/
theorem computeDist_self (g : CImg) (hocc : (1 : Int) ∈ g) (hlen : g.length < 2 ^ 62) :
    computeDist g g = F32.fin 1 := by
  have hn : 0 < g.count 1 := List.count_pos_iff.2 hocc
  have hs : 0 < 2 * (get_min g g).count 1 + (sub g (get_min g g)).count 1
      + (sub g (get_min g g)).count 1 := by
    rw [get_min_self]; omega
  obtain ⟨hd, -, -⟩ := dice_fin g g hlen hs
  rw [get_min_self, sub_self_count] at hd
  have hr : (0 : ℚ) < roundQ ((2 * g.count 1 : ℕ) : ℚ) :=
    lt_of_lt_of_le (by norm_num) (F32.one_le_roundQ_natCast (by omega))
  rw [show 2 * g.count 1 + 0 + 0 = 2 * g.count 1 from rfl, div_self hr.ne', roundQ_one] at hd
  rw [computeDist_of_dice hd, if_neg (by norm_num)]
  norm_num [roundQ_one]

/-- Core of C2: two binary grids of equal size without a common occupied cell, one of them
having an occupied cell, are at the sentinel distance. -/
theorem computeDist_disjoint (g1 g2 : CImg) (hlen : g1.length = g2.length)
    (hsize : g1.length < 2 ^ 62) (hb1 : isBinary g1) (hb2 : isBinary g2)
    (hdis : countBoth g1 g2 = 0) (hocc : (1 : Int) ∈ g1 ∨ (1 : Int) ∈ g2) :
    computeDist g1 g2 = F32.numeric_limits_max := by
  obtain ⟨c1, c2, c3⟩ := counts_binary g1 g2 hb1 hb2
  obtain ⟨s1, s2⟩ := counts_sum g1 g2 hlen hb1 hb2
  have hpos : 0 < g1.count 1 + g2.count 1 := by
    rcases hocc with h | h
    · have := List.count_pos_iff.2 h; omega
    · have := List.count_pos_iff.2 h; omega
  have hs : 0 < 2 * (get_min g1 g2).count 1 + (sub g1 (get_min g1 g2)).count 1
      + (sub g2 (get_min g1 g2)).count 1 := by
    rw [c1, c2, c3]; omega
  obtain ⟨hd, -, -⟩ := dice_fin g1 g2 hsize hs
  rw [c1, hdis] at hd
  simp only [Nat.mul_zero, Nat.cast_zero, roundQ_zero, zero_div] at hd
  rw [computeDist_of_dice hd, if_pos (by norm_num)]

/-- Defect behind C2: for two binary grids of equal size without any occupied cell the
quotient is `0.0f / 0.0f`, the test `dice < 0.001f` is false and the result is NaN. -/
theorem computeDist_both_empty (g1 g2 : CImg) (hlen : g1.length = g2.length)
    (hb1 : isBinary g1) (hb2 : isBinary g2) (h1 : (1 : Int) ∉ g1) (h2 : (1 : Int) ∉ g2) :
    computeDist g1 g2 = F32.nan := by
  obtain ⟨c1, c2, c3⟩ := counts_binary g1 g2 hb1 hb2
  obtain ⟨s1, s2⟩ := counts_sum g1 g2 hlen hb1 hb2
  rw [List.count_eq_zero.2 h1] at s1
  rw [List.count_eq_zero.2 h2] at s2
  have hd : dice g1 g2 = F32.nan := by
    rw [dice_eq, c1, c2, c3]
    have e1 : countBoth g1 g2 = 0 := by omega
    have e2 : countFirstOnly g1 g2 = 0 := by omega
    have e3 : countSecondOnly g1 g2 = 0 := by omega
    rw [e1, e2, e3, F32.lit_two]
    have hz : F32.ofNat 0 = F32.fin 0 := by
      unfold F32.ofNat; simpa using F32.round_zero
    show F32.div (F32.mul (F32.fin 2) (F32.ofNat 0)) (F32.ofNat 0) = F32.nan
    rw [hz]
    show F32.div (F32.round (2 * 0)) (F32.fin 0) = F32.nan
    rw [mul_zero, F32.round_zero]
    rfl
  unfold computeDist
  rw [hd, F32.lt_nan_left, if_neg (by simp), F32.div_nan_right]

theorem dice_comm (g1 g2 : CImg) : dice g1 g2 = dice g2 g1 := by
  rw [dice_eq, dice_eq, get_min_comm g2 g1]
  congr 3
  omega

theorem computeDist_comm (g1 g2 : CImg) : computeDist g1 g2 = computeDist g2 g1 := by
  unfold computeDist
  rw [dice_comm]

/-! ## Small grids: `dice` is the rounding of the exact Dice coefficient -/

theorem count_le_two_len (g1 g2 : CImg) (hlen : g1.length = g2.length) (hb1 : isBinary g1)
    (hb2 : isBinary g2) :
    2 * countBoth g1 g2 + countFirstOnly g1 g2 + countSecondOnly g1 g2 ≤ 2 * g1.length := by
  obtain ⟨s1, s2⟩ := counts_sum g1 g2 hlen hb1 hb2
  have h1 : g1.count 1 ≤ g1.length := List.count_le_length _ _
  have h2 : g2.count 1 ≤ g2.length := List.count_le_length _ _
  omega

theorem denominator_pos (g1 g2 : CImg) (hlen : g1.length = g2.length) (hb1 : isBinary g1)
    (hb2 : isBinary g2) (hocc : (1 : Int) ∈ g1 ∨ (1 : Int) ∈ g2) :
    0 < 2 * countBoth g1 g2 + countFirstOnly g1 g2 + countSecondOnly g1 g2 := by
  obtain ⟨s1, s2⟩ := counts_sum g1 g2 hlen hb1 hb2
  rcases hocc with h | h
  · have := List.count_pos_iff.2 h; omega
  · have := List.count_pos_iff.2 h; omega

/-- For binary grids of equal size with at most `2^23` cells, not both empty, the three
counts are converted to `float` exactly and `dice` is the float nearest to the exact Dice
coefficient. -/
theorem dice_small (g1 g2 : CImg) (hlen : g1.length = g2.length) (hsize : g1.length ≤ 2 ^ 23)
    (hb1 : isBinary g1) (hb2 : isBinary g2) (hocc : (1 : Int) ∈ g1 ∨ (1 : Int) ∈ g2) :
    dice g1 g2 = F32.fin (roundQ (diceExact g1 g2)) := by
  obtain ⟨c1, c2, c3⟩ := counts_binary g1 g2 hb1 hb2
  have hpos := denominator_pos g1 g2 hlen hb1 hb2 hocc
  have hle := count_le_two_len g1 g2 hlen hb1 hb2
  have hs : 0 < 2 * (get_min g1 g2).count 1 + (sub g1 (get_min g1 g2)).count 1
      + (sub g2 (get_min g1 g2)).count 1 := by
    rw [c1, c2, c3]; exact hpos
  obtain ⟨hd, -, -⟩ := dice_fin g1 g2 (lt_of_le_of_lt hsize (by norm_num)) hs
  rw [hd, c1, c2, c3]
  rw [roundQ_natCast _ (by omega), roundQ_natCast _ (by omega)]
  unfold diceExact
  push_cast
  rfl

theorem diceExact_nonneg (g1 g2 : CImg) : 0 ≤ diceExact g1 g2 := by
  unfold diceExact
  positivity

/-- Evaluation of the rounding just below the threshold. -/
theorem roundQ_below_thousandth :
    roundQ (1 / 1000 - 1 / (1000 * 2 ^ 24)) = 8589934 / 2 ^ 33 := by
  rw [roundQ_eq_of (-10) 8589934 (by norm_num) (by norm_num [abs_of_pos])
    (by norm_num [abs_of_pos]) (by norm_num) (by norm_num)]
  norm_num

/-- On quotients of integers up to `2^24` the test `dice < 0.001f` on the rounded value
decides `dice < 0.001` on the exact value. -/
theorem threshold_iff (a s : ℕ) (hs : 0 < s) (hs24 : s ≤ 2 ^ 24) :
    roundQ ((a : ℚ) / s) < 8589935 / 2 ^ 33 ↔ (a : ℚ) / s < 1 / 1000 := by
  have hsq : (0 : ℚ) < s := by exact_mod_cast hs
  have h0 : (0 : ℚ) ≤ (a : ℚ) / s := by positivity
  constructor
  · intro h
    by_contra hc
    have hge : (1 / 1000 : ℚ) ≤ (a : ℚ) / s := not_lt.1 hc
    have := roundQ_mono (by norm_num) hge
    rw [F32.roundQ_thousandth] at this
    exact absurd h (not_lt.2 this)
  · intro h
    have h1 : 1000 * a < s := by
      have : (1000 : ℚ) * a < s := by
        rw [div_lt_iff₀ hsq] at h
        linarith
      exact_mod_cast this
    have h2 : (1000 : ℚ) * a + 1 ≤ s := by exact_mod_cast h1
    have hs' : (s : ℚ) ≤ 2 ^ 24 := by exact_mod_cast hs24
    have hx : (a : ℚ) / s ≤ 1 / 1000 - 1 / (1000 * 2 ^ 24) := by
      rw [div_le_iff₀ hsq]
      have e : (1 / 1000 - 1 / (1000 * 2 ^ 24) : ℚ) * s = s / 1000 - s / (1000 * 2 ^ 24) := by
        ring
      rw [e]
      have e2 : (s : ℚ) / (1000 * 2 ^ 24) ≤ 1 / 1000 := by
        rw [div_le_iff₀ (by norm_num)]
        linarith
      linarith
    have := roundQ_mono h0 hx
    rw [roundQ_below_thousandth] at this
    exact lt_of_le_of_lt this (by norm_num)

/-- Value of `computeDist` on small binary grids, in terms of the exact Dice coefficient. -/
theorem computeDist_small (g1 g2 : CImg) (hlen : g1.length = g2.length)
    (hsize : g1.length ≤ 2 ^ 23) (hb1 : isBinary g1) (hb2 : isBinary g2)
    (hocc : (1 : Int) ∈ g1 ∨ (1 : Int) ∈ g2) :
    computeDist g1 g2 =
      if diceExact g1 g2 < 1 / 1000 then F32.numeric_limits_max
      else F32.fin (roundQ (1 / roundQ (diceExact g1 g2))) := by
  have hd := dice_small g1 g2 hlen hsize hb1 hb2 hocc
  rw [computeDist_of_dice hd]
  have hpos := denominator_pos g1 g2 hlen hb1 hb2 hocc
  have hle := count_le_two_len g1 g2 hlen hb1 hb2
  have hiff := threshold_iff (2 * countBoth g1 g2)
    (2 * countBoth g1 g2 + countFirstOnly g1 g2 + countSecondOnly g1 g2) hpos (by omega)
  have e : diceExact g1 g2 = ((2 * countBoth g1 g2 : ℕ) : ℚ) /
      ((2 * countBoth g1 g2 + countFirstOnly g1 g2 + countSecondOnly g1 g2 : ℕ) : ℚ) := by
    unfold diceExact; push_cast; rfl
  rw [← e] at hiff
  by_cases h : diceExact g1 g2 < 1 / 1000
  · rw [if_pos h, if_pos (hiff.2 h)]
  · rw [if_neg h, if_neg (fun h' => h (hiff.1 h'))]

/-! ## Monotonicity -/

/-- The result of `computeDist` as a function of a finite `dice` does not increase when
`dice` increases; the sentinel is the largest result. -/
theorem dist_antitone {d1 d2 : ℚ} (h : d1 ≤ d2) :
    F32.le (if d2 < 8589935 / 2 ^ 33 then F32.numeric_limits_max else F32.fin (roundQ (1 / d2)))
      (if d1 < 8589935 / 2 ^ 33 then F32.numeric_limits_max else F32.fin (roundQ (1 / d1)))
      = true := by
  have hbound : ∀ d : ℚ, 8589935 / 2 ^ 33 ≤ d → roundQ (1 / d) ≤ (2 ^ 24 - 1) * 2 ^ 104 := by
    intro d hd
    have hdpos : 0 < d := lt_of_lt_of_le (by norm_num) hd
    have hinv : 1 / d ≤ ((1024 : ℕ) : ℚ) := by
      rw [div_le_iff₀ hdpos]
      push_cast
      nlinarith
    have hm := roundQ_mono (by positivity) hinv
    rw [roundQ_natCast 1024 (by norm_num)] at hm
    exact le_trans hm (by norm_num)
  by_cases c1 : d1 < 8589935 / 2 ^ 33
  · rw [if_pos c1]
    by_cases c2 : d2 < 8589935 / 2 ^ 33
    · rw [if_pos c2]
      show decide (_ ≤ _) = true
      simp
    · rw [if_neg c2]
      show decide (_ ≤ _) = true
      simpa [F32.numeric_limits_max] using hbound d2 (not_lt.1 c2)
  · have c2 : ¬ d2 < 8589935 / 2 ^ 33 := fun h' => c1 (lt_of_le_of_lt h h')
    rw [if_neg c1, if_neg c2]
    show decide (_ ≤ _) = true
    have hd1 : 0 < d1 := lt_of_lt_of_le (by norm_num) (not_lt.1 c1)
    have hd2 : 0 < d2 := lt_of_lt_of_le hd1 h
    have : 1 / d2 ≤ 1 / d1 := one_div_le_one_div_of_le hd1 h
    simpa using roundQ_mono (by positivity) this

/-- The variable `dice` of two binary grids of equal size, not both empty, is a finite float
in `[0, 1]`. -/
theorem dice_range (g1 g2 : CImg) (hlen : g1.length = g2.length) (hsize : g1.length < 2 ^ 62)
    (hb1 : isBinary g1) (hb2 : isBinary g2) (hocc : (1 : Int) ∈ g1 ∨ (1 : Int) ∈ g2) :
    ∃ d : ℚ, dice g1 g2 = F32.fin d ∧ 0 ≤ d ∧ d ≤ 1 := by
  obtain ⟨c1, c2, c3⟩ := counts_binary g1 g2 hb1 hb2
  have hpos := denominator_pos g1 g2 hlen hb1 hb2 hocc
  have hs : 0 < 2 * (get_min g1 g2).count 1 + (sub g1 (get_min g1 g2)).count 1
      + (sub g2 (get_min g1 g2)).count 1 := by
    rw [c1, c2, c3]; exact hpos
  obtain ⟨hd, h0, h1⟩ := dice_fin g1 g2 hsize hs
  exact ⟨_, hd, h0, h1⟩

/-! ## Claims on `computeDist` -/

theorem computeDist_ne_nan (g1 g2 : CImg) (hlen : g1.length = g2.length)
    (hsize : g1.length < 2 ^ 62) (hb1 : isBinary g1) (hb2 : isBinary g2)
    (hocc : (1 : Int) ∈ g1 ∨ (1 : Int) ∈ g2) : computeDist g1 g2 ≠ F32.nan := by
  obtain ⟨d, hd, -, -⟩ := dice_range g1 g2 hlen hsize hb1 hb2 hocc
  rw [computeDist_of_dice hd]
  split_ifs
  · simp [F32.numeric_limits_max]
  · simp

theorem dice_disjoint_example : dice [1, 0] [0, 1] = F32.fin 0 := by
  have h := dice_small [1, 0] [0, 1] rfl (by norm_num) (by decide) (by decide) (by decide)
  have e : diceExact [1, 0] [0, 1] = 0 := by
    have : countBoth [1, 0] [0, 1] = 0 := by decide
    unfold diceExact
    rw [this]
    simp
  rw [h, e, roundQ_zero]

theorem dice_equal_example : dice [1, 1] [1, 1] = F32.fin 1 := by
  have h := dice_small [1, 1] [1, 1] rfl (by norm_num) (by decide) (by decide) (by decide)
  have e : diceExact [1, 1] [1, 1] = 1 := by
    have h1 : countBoth [1, 1] [1, 1] = 2 := by decide
    have h2 : countFirstOnly [1, 1] [1, 1] = 0 := by decide
    have h3 : countSecondOnly [1, 1] [1, 1] = 0 := by decide
    unfold diceExact
    rw [h1, h2, h3]
    norm_num
  rw [h, e, roundQ_one]

theorem roundQ_six_sevenths : roundQ (6 / 7) = 14380471 / 2 ^ 24 := by
  rw [roundQ_eq_of (-1) 14380471 (by norm_num) (by norm_num [abs_of_pos])
    (by norm_num [abs_of_pos]) (by norm_num) (by norm_num)]
  norm_num

theorem roundQ_inv_six_sevenths : roundQ (1 / (14380471 / 2 ^ 24)) = 9786709 / 2 ^ 23 := by
  rw [roundQ_eq_of 0 9786709 (by norm_num) (by norm_num [abs_of_pos])
    (by norm_num [abs_of_pos]) (by norm_num) (by norm_num)]
  norm_num

theorem diceExact_example : diceExact [1, 1, 1, 1] [1, 1, 1, 0] = 6 / 7 := by
  have h1 : countBoth [1, 1, 1, 1] [1, 1, 1, 0] = 3 := by decide
  have h2 : countFirstOnly [1, 1, 1, 1] [1, 1, 1, 0] = 1 := by decide
  have h3 : countSecondOnly [1, 1, 1, 1] [1, 1, 1, 0] = 0 := by decide
  unfold diceExact
  rw [h1, h2, h3]
  norm_num

theorem largeGrid_counts :
    countBoth largeGrid1 largeGrid2 = 100000 ∧ countFirstOnly largeGrid1 largeGrid2 = 199800001 ∧
      countSecondOnly largeGrid1 largeGrid2 = 0 := by
  have hz : largeGrid1.zip largeGrid2 =
      List.replicate 100000 ((1 : Int), (1 : Int)) ++
        List.replicate 199800001 ((1 : Int), (0 : Int)) := by
    unfold largeGrid1 largeGrid2
    rw [List.zip_append (by simp only [List.length_replicate]),
      List.zip_replicate', List.zip_replicate']
  unfold countBoth countFirstOnly countSecondOnly
  rw [hz]
  simp only [List.countP_append, List.countP_replicate]
  refine ⟨?_, ?_, ?_⟩ <;> simp

theorem largeGrid_binary : isBinary largeGrid1 ∧ isBinary largeGrid2 := by
  constructor
  · intro v hv
    unfold largeGrid1 at hv
    rcases List.mem_append.1 hv with h | h
    · exact Or.inr (List.eq_of_mem_replicate h)
    · exact Or.inr (List.eq_of_mem_replicate h)
  · intro v hv
    unfold largeGrid2 at hv
    rcases List.mem_append.1 hv with h | h
    · exact Or.inr (List.eq_of_mem_replicate h)
    · exact Or.inl (List.eq_of_mem_replicate h)

theorem largeGrid_length : largeGrid1.length = largeGrid2.length := by
  unfold largeGrid1 largeGrid2
  simp only [List.length_append, List.length_replicate]

theorem roundQ_large : roundQ ((200000001 : ℕ) : ℚ) = 200000000 := by
  rw [roundQ_eq_of 27 12500000 (by norm_num) (by norm_num [abs_of_pos])
    (by norm_num [abs_of_pos]) (by norm_num) (by norm_num)]
  norm_num

theorem roundQ_inv_thousandth : roundQ (1 / (8589935 / 2 ^ 33)) = 16383999 / 2 ^ 14 := by
  rw [roundQ_eq_of 9 16383999 (by norm_num) (by norm_num [abs_of_pos])
    (by norm_num [abs_of_pos]) (by norm_num) (by norm_num)]
  norm_num

/-- On the large grids the exact Dice coefficient is below one thousandth, but the
denominator `200000001` is rounded to `200000000` by its conversion to `float`, the float
`dice` is `0.001f` and the test `dice < 0.001f` fails. -/
theorem largeGrid_dist :
    diceExact largeGrid1 largeGrid2 < 1 / 1000 ∧
      computeDist largeGrid1 largeGrid2 = F32.fin (16383999 / 2 ^ 14) := by
  obtain ⟨k1, k2, k3⟩ := largeGrid_counts
  obtain ⟨b1, b2⟩ := largeGrid_binary
  obtain ⟨c1, c2, c3⟩ := counts_binary largeGrid1 largeGrid2 b1 b2
  constructor
  · unfold diceExact
    rw [k1, k2, k3]
    norm_num
  · have hd : dice largeGrid1 largeGrid2 = F32.fin (8589935 / 2 ^ 33) := by
      rw [dice_eq, c1, c2, c3, k1, k2, k3]
      rw [show (2 * 100000 + 199800001 + 0) % 2 ^ 64 = 200000001 by norm_num,
        F32.two_mul_ofNat (by norm_num), F32.ofNat_eq_fin (by norm_num),
        roundQ_natCast _ (by norm_num), roundQ_large,
        F32.div_of_ne_zero _ _ (by norm_num)]
      rw [show (((2 * 100000 : ℕ) : ℚ)) / 200000000 = 1 / 1000 by norm_num]
      exact F32.lit_thousandth
    rw [computeDist_of_dice hd, if_neg (lt_irrefl _), roundQ_inv_thousandth]

/-- C1: for every binary occupancy grid `g` with at least one occupied cell (and a size that
fits in memory, fewer than `2^62` cells) `computeDist(g, g)` is exactly `1.0f`. -/
theorem C1_computeDist_self (g : CImg) (_hb : isBinary g) (hocc : (1 : Int) ∈ g)
    (hsize : g.length < 2 ^ 62) : computeDist g g = F32.fin 1 :=
  computeDist_self g hocc hsize

theorem C1_computeDist_self_witness :
    isBinary [0, 1, 1, 0] ∧ (1 : Int) ∈ [0, 1, 1, 0] ∧ [0, 1, 1, (0 : Int)].length < 2 ^ 62 ∧
      computeDist [0, 1, 1, 0] [0, 1, 1, 0] = F32.fin 1 :=
  ⟨by decide, by decide, by norm_num,
    C1_computeDist_self [0, 1, 1, 0] (by decide) (by decide) (by norm_num)⟩

/-- C2 (defect): the claim that `computeDist` returns the sentinel for every pair of grids
without a common occupied cell fails when both grids are empty: for two 20x20x20 grids with
all 8000 cells 0 the quotient is `0.0f / 0.0f`, the test `dice < 0.001f` is false on NaN and
the value returned is NaN instead of `std::numeric_limits<float>::max()`. -/
theorem C2_computeDist_empty_grids_nan :
    computeDist (List.replicate 8000 0) (List.replicate 8000 0) = F32.nan ∧
      F32.nan ≠ F32.numeric_limits_max := by
  refine ⟨computeDist_both_empty _ _ rfl ?_ ?_ ?_ ?_, by simp [F32.numeric_limits_max]⟩
  · intro v hv; exact Or.inl (List.eq_of_mem_replicate hv)
  · intro v hv; exact Or.inl (List.eq_of_mem_replicate hv)
  · intro h; have := List.eq_of_mem_replicate h; omega
  · intro h; have := List.eq_of_mem_replicate h; omega

/-- C3: `computeDist` is symmetric: for every pair of binary grids of equal size,
`computeDist(g1, g2)` and `computeDist(g2, g1)` are the same float; and unless both grids are
empty (the NaN case of C2) this common value is not NaN, so that the C++ comparison `==` of
the two results holds as well. -/
theorem C3_computeDist_symm (g1 g2 : CImg) (hlen : g1.length = g2.length)
    (hsize : g1.length < 2 ^ 62) (hb1 : isBinary g1) (hb2 : isBinary g2) :
    computeDist g1 g2 = computeDist g2 g1 ∧
      ((1 : Int) ∈ g1 ∨ (1 : Int) ∈ g2 → computeDist g1 g2 ≠ F32.nan) :=
  ⟨computeDist_comm g1 g2, computeDist_ne_nan g1 g2 hlen hsize hb1 hb2⟩

theorem C3_computeDist_symm_witness :
    [1, 1, 0, (0 : Int)].length = [1, 0, 1, (0 : Int)].length ∧
    [1, 1, 0, (0 : Int)].length < 2 ^ 62 ∧ isBinary [1, 1, 0, 0] ∧ isBinary [1, 0, 1, 0] ∧
    (computeDist [1, 1, 0, 0] [1, 0, 1, 0] = computeDist [1, 0, 1, 0] [1, 1, 0, 0] ∧
      ((1 : Int) ∈ [1, 1, 0, (0 : Int)] ∨ (1 : Int) ∈ [1, 0, 1, (0 : Int)] →
        computeDist [1, 1, 0, 0] [1, 0, 1, 0] ≠ F32.nan)) :=
  ⟨rfl, by norm_num, by decide, by decide,
    C3_computeDist_symm [1, 1, 0, 0] [1, 0, 1, 0] rfl (by norm_num) (by decide) (by decide)⟩

/-- C4 (counterexample): two inputs on which the claim fails.  For `g1 = [1,1,1,1]` and
`g2 = [1,1,1,0]` one has `tp = 3`, `fp = 1`, `fn = 0` and `dice = 6/7`, which is not below
`0.001`; `computeDist` returns the float `9786709 / 2^23`, not `1/dice = 7/6`.  For the large
grids `largeGrid1`, `largeGrid2` (199900001 cells, `tp = 100000`, `fp = 199800001`, `fn = 0`)
`dice = 200000/200000001` is below `0.001`, but `computeDist` returns the float
`16383999 / 2^14`, not the sentinel. -/
theorem C4_counterexample :
    (isBinary [1, 1, 1, 1] ∧ isBinary [1, 1, 1, 0] ∧
      diceExact [1, 1, 1, 1] [1, 1, 1, 0] = 6 / 7 ∧
      computeDist [1, 1, 1, 1] [1, 1, 1, 0] = F32.fin (9786709 / 2 ^ 23) ∧
      computeDist [1, 1, 1, 1] [1, 1, 1, 0] ≠
        F32.fin (1 / diceExact [1, 1, 1, 1] [1, 1, 1, 0])) ∧
    (isBinary largeGrid1 ∧ isBinary largeGrid2 ∧ largeGrid1.length = largeGrid2.length ∧
      (1 : Int) ∈ largeGrid1 ∧ diceExact largeGrid1 largeGrid2 < 1 / 1000 ∧
      computeDist largeGrid1 largeGrid2 = F32.fin (16383999 / 2 ^ 14) ∧
      computeDist largeGrid1 largeGrid2 ≠ F32.numeric_limits_max) := by
  have hv : computeDist [1, 1, 1, 1] [1, 1, 1, 0] = F32.fin (9786709 / 2 ^ 23) := by
    rw [computeDist_small [1, 1, 1, 1] [1, 1, 1, 0] rfl (by norm_num) (by decide) (by decide)
        (by decide),
      diceExact_example, if_neg (by norm_num), roundQ_six_sevenths, roundQ_inv_six_sevenths]
  refine ⟨⟨by decide, by decide, diceExact_example, hv, ?_⟩,
    ⟨largeGrid_binary.1, largeGrid_binary.2, largeGrid_length, ?_, largeGrid_dist.1,
      largeGrid_dist.2, ?_⟩⟩
  · rw [hv, diceExact_example]
    intro h
    have := F32.fin.inj h
    norm_num at this
  · unfold largeGrid1
    exact List.mem_append.2 (Or.inl (List.mem_replicate.2 ⟨by norm_num, rfl⟩))
  · rw [largeGrid_dist.2]
    intro h
    have := F32.fin.inj h
    norm_num at this

/-- C4 (amended): for every pair of binary grids of equal size with at most `2^23` cells, not
both empty, with `dice = 2*tp / (2*tp + fp + fn)` the exact Dice coefficient, `computeDist`
returns the sentinel maximum float when `dice < 0.001` and otherwise the float nearest to
`1/d`, where `d` is the float nearest to `dice`. -/
theorem C4_computeDist_value (g1 g2 : CImg) (hlen : g1.length = g2.length)
    (hsize : g1.length ≤ 2 ^ 23) (hb1 : isBinary g1) (hb2 : isBinary g2)
    (hocc : (1 : Int) ∈ g1 ∨ (1 : Int) ∈ g2) :
    computeDist g1 g2 =
      if diceExact g1 g2 < 1 / 1000 then F32.numeric_limits_max
      else F32.fin (roundQ (1 / roundQ (diceExact g1 g2))) :=
  computeDist_small g1 g2 hlen hsize hb1 hb2 hocc

theorem C4_computeDist_value_witness :
    [1, 1, 1, (1 : Int)].length = [1, 1, 1, (0 : Int)].length ∧
    [1, 1, 1, (1 : Int)].length ≤ 2 ^ 23 ∧ isBinary [1, 1, 1, 1] ∧ isBinary [1, 1, 1, 0] ∧
    ((1 : Int) ∈ [1, 1, 1, (1 : Int)] ∨ (1 : Int) ∈ [1, 1, 1, (0 : Int)]) ∧
    computeDist [1, 1, 1, 1] [1, 1, 1, 0] =
      if diceExact [1, 1, 1, 1] [1, 1, 1, 0] < 1 / 1000 then F32.numeric_limits_max
      else F32.fin (roundQ (1 / roundQ (diceExact [1, 1, 1, 1] [1, 1, 1, 0]))) :=
  ⟨rfl, by norm_num, by decide, by decide, by decide,
    C4_computeDist_value [1, 1, 1, 1] [1, 1, 1, 0] rfl (by norm_num) (by decide) (by decide)
      (by decide)⟩

/-- On small grids the float `dice` grows with the exact Dice coefficient. -/
theorem dice_le_of_diceExact_le (a1 a2 b1 b2 : CImg)
    (hlena : a1.length = a2.length) (hsizea : a1.length ≤ 2 ^ 23)
    (hba1 : isBinary a1) (hba2 : isBinary a2) (hocca : (1 : Int) ∈ a1 ∨ (1 : Int) ∈ a2)
    (hlenb : b1.length = b2.length) (hsizeb : b1.length ≤ 2 ^ 23)
    (hbb1 : isBinary b1) (hbb2 : isBinary b2) (hoccb : (1 : Int) ∈ b1 ∨ (1 : Int) ∈ b2)
    (hle : diceExact a1 a2 ≤ diceExact b1 b2) :
    F32.le (dice a1 a2) (dice b1 b2) = true := by
  rw [dice_small a1 a2 hlena hsizea hba1 hba2 hocca,
    dice_small b1 b2 hlenb hsizeb hbb1 hbb2 hoccb]
  show decide (_ ≤ _) = true
  simpa using roundQ_mono (diceExact_nonneg a1 a2) hle

theorem diceExact_le_one (g1 g2 : CImg) : diceExact g1 g2 ≤ 1 := by
  unfold diceExact
  apply div_le_one_of_le₀
  · have h1 : (0 : ℚ) ≤ countFirstOnly g1 g2 := by positivity
    have h2 : (0 : ℚ) ≤ countSecondOnly g1 g2 := by positivity
    linarith
  · positivity

theorem computeDist_antitone (a1 a2 b1 b2 : CImg)
    (hlena : a1.length = a2.length) (hsizea : a1.length < 2 ^ 62)
    (hba1 : isBinary a1) (hba2 : isBinary a2) (hocca : (1 : Int) ∈ a1 ∨ (1 : Int) ∈ a2)
    (hlenb : b1.length = b2.length) (hsizeb : b1.length < 2 ^ 62)
    (hbb1 : isBinary b1) (hbb2 : isBinary b2) (hoccb : (1 : Int) ∈ b1 ∨ (1 : Int) ∈ b2)
    (hle : F32.le (dice a1 a2) (dice b1 b2) = true) :
    F32.le (computeDist b1 b2) (computeDist a1 a2) = true := by
  obtain ⟨da, hda, -, -⟩ := dice_range a1 a2 hlena hsizea hba1 hba2 hocca
  obtain ⟨db, hdb, -, -⟩ := dice_range b1 b2 hlenb hsizeb hbb1 hbb2 hoccb
  rw [hda, hdb] at hle
  have hab : da ≤ db := by
    have : decide (da ≤ db) = true := hle
    simpa using this
  rw [computeDist_of_dice hda, computeDist_of_dice hdb]
  exact dist_antitone hab

theorem dice_in_unit (g1 g2 : CImg) (hlen : g1.length = g2.length) (hsize : g1.length < 2 ^ 62)
    (hb1 : isBinary g1) (hb2 : isBinary g2) (hocc : (1 : Int) ∈ g1 ∨ (1 : Int) ∈ g2) :
    F32.le (F32.fin 0) (dice g1 g2) = true ∧ F32.le (dice g1 g2) (F32.fin 1) = true := by
  obtain ⟨d, hd, h0, h1⟩ := dice_range g1 g2 hlen hsize hb1 hb2 hocc
  rw [hd]
  constructor
  · show decide (_ ≤ _) = true; simpa using h0
  · show decide (_ ≤ _) = true; simpa using h1

/-- C10: the distance does not increase when the Dice coefficient increases.  For two pairs
of binary grids of equal size, neither pair both empty: if the float variable `dice` of the
first pair is at most that of the second, then `computeDist` of the second pair is at most
that of the first, the sentinel maximum float being the largest result; for grids of at most
`2^23` cells the same holds when the exact coefficients `2*tp / (2*tp + fp + fn)` are so
ordered; and the Dice coefficient of each pair, as the float `dice` and as the exact
rational, lies in `[0, 1]`. -/
theorem C10_computeDist_antitone (a1 a2 b1 b2 : CImg)
    (hlena : a1.length = a2.length) (hsizea : a1.length < 2 ^ 62)
    (hba1 : isBinary a1) (hba2 : isBinary a2) (hocca : (1 : Int) ∈ a1 ∨ (1 : Int) ∈ a2)
    (hlenb : b1.length = b2.length) (hsizeb : b1.length < 2 ^ 62)
    (hbb1 : isBinary b1) (hbb2 : isBinary b2) (hoccb : (1 : Int) ∈ b1 ∨ (1 : Int) ∈ b2) :
    (F32.le (dice a1 a2) (dice b1 b2) = true →
      F32.le (computeDist b1 b2) (computeDist a1 a2) = true) ∧
    (a1.length ≤ 2 ^ 23 → b1.length ≤ 2 ^ 23 → diceExact a1 a2 ≤ diceExact b1 b2 →
      F32.le (computeDist b1 b2) (computeDist a1 a2) = true) ∧
    (F32.le (F32.fin 0) (dice a1 a2) = true ∧ F32.le (dice a1 a2) (F32.fin 1) = true) ∧
    (F32.le (F32.fin 0) (dice b1 b2) = true ∧ F32.le (dice b1 b2) (F32.fin 1) = true) ∧
    (0 ≤ diceExact a1 a2 ∧ diceExact a1 a2 ≤ 1) ∧
    (0 ≤ diceExact b1 b2 ∧ diceExact b1 b2 ≤ 1) :=
  ⟨computeDist_antitone a1 a2 b1 b2 hlena hsizea hba1 hba2 hocca hlenb hsizeb hbb1 hbb2 hoccb,
    fun ha hb hle =>
      computeDist_antitone a1 a2 b1 b2 hlena hsizea hba1 hba2 hocca hlenb hsizeb hbb1 hbb2
        hoccb
        (dice_le_of_diceExact_le a1 a2 b1 b2 hlena ha hba1 hba2 hocca hlenb hb hbb1 hbb2 hoccb
          hle),
    dice_in_unit a1 a2 hlena hsizea hba1 hba2 hocca,
    dice_in_unit b1 b2 hlenb hsizeb hbb1 hbb2 hoccb,
    ⟨diceExact_nonneg a1 a2, diceExact_le_one a1 a2⟩,
    ⟨diceExact_nonneg b1 b2, diceExact_le_one b1 b2⟩⟩

theorem C10_computeDist_antitone_witness :
    F32.le (dice [1, 0] [0, 1]) (dice [1, 1] [1, 1]) = true ∧
    F32.le (computeDist [1, 1] [1, 1]) (computeDist [1, 0] [0, 1]) = true :=
  have hle : F32.le (dice [1, 0] [0, 1]) (dice [1, 1] [1, 1]) = true := by
    rw [dice_disjoint_example, dice_equal_example]
    show decide ((0 : ℚ) ≤ 1) = true
    simp
  ⟨hle, (C10_computeDist_antitone [1, 0] [0, 1] [1, 1] [1, 1] rfl (by norm_num) (by decide)
    (by decide) (by decide) rfl (by norm_num) (by decide) (by decide) (by decide)).1 hle⟩

/-! ## The fill of the distance matrix -/

theorem Mat.write_of_bounds (m : Mat) (i j : ℕ) (v : F32) (hi : i < m.rows) (hj : j < m.cols) :
    m.write (i : Int) (j : Int) v =
      some { m with cell := fun a b => if a = i ∧ b = j then v else m.cell a b } := by
  unfold Mat.write
  rw [if_pos ⟨by omega, by omega, by omega, by omega⟩]
  simp

theorem Mat.write_some {m m' : Mat} {i j : Int} {v : F32} (h : m.write i j v = some m') :
    ∃ i' j' : ℕ, i = i' ∧ j = j' ∧ i' < m.rows ∧ j' < m.cols ∧
      m' = { m with cell := fun a b => if a = i' ∧ b = j' then v else m.cell a b } := by
  unfold Mat.write at h
  split_ifs at h with hb
  obtain ⟨h1, h2, h3, h4⟩ := hb
  refine ⟨i.toNat, j.toNat, by omega, by omega, by omega, by omega, ?_⟩
  exact (Option.some.inj h).symm

/-- One iteration of the loop, read backwards: a result `some` means that both writes were
inside the matrix and the loop went on with the matrix so updated. -/
theorem loop_cons_some {anim it : MocapAnimation} {descriptors : Int → CImg}
    {rest : List MocapAnimation} {m m' : Mat}
    (h : computeDistToAllLoop anim descriptors (it :: rest) m = some m') :
    (¬ anim.getId > it.getId ∧ m' = m) ∨
    (anim.getId > it.getId ∧ ∃ i k : ℕ, it.getId = i ∧ anim.getId = k ∧ i < m.rows ∧
      k < m.cols ∧ k < m.rows ∧ i < m.cols ∧
      computeDistToAllLoop anim descriptors rest
        { m with cell := fun a b =>
            if a = k ∧ b = i then computeDist (descriptors it.getId) (descriptors anim.getId)
            else if a = i ∧ b = k then
              computeDist (descriptors it.getId) (descriptors anim.getId)
            else m.cell a b } = some m') := by
  rw [computeDistToAllLoop] at h
  split_ifs at h with hc
  · right
    refine ⟨hc, ?_⟩
    cases h1 : m.write it.getId anim.getId
        (computeDist (descriptors it.getId) (descriptors anim.getId)) with
    | none => rw [h1] at h; simp at h
    | some m1 =>
      rw [h1] at h
      simp only at h
      cases h2 : m1.write anim.getId it.getId
          (computeDist (descriptors it.getId) (descriptors anim.getId)) with
      | none => rw [h2] at h; simp at h
      | some m2 =>
        rw [h2] at h
        simp only at h
        obtain ⟨i, k, e1, e2, b1, b2, rfl⟩ := Mat.write_some h1
        obtain ⟨k', i', e3, e4, b3, b4, rfl⟩ := Mat.write_some h2
        have hk : k' = k := by omega
        have hi : i' = i := by omega
        subst hk; subst hi
        exact ⟨i', k', e1, e2, b1, b2, b3, b4, h⟩
  · left
    exact ⟨hc, (Option.some.inj h).symm⟩

/-- The loop keeps the size of the matrix, keeps it symmetric and never writes the diagonal. -/
theorem loop_preserves (anim : MocapAnimation) (descriptors : Int → CImg) :
    ∀ (l : List MocapAnimation) (m m' : Mat),
      computeDistToAllLoop anim descriptors l m = some m' →
      m'.rows = m.rows ∧ m'.cols = m.cols ∧
      ((∀ a b, m.cell a b = m.cell b a) → ∀ a b, m'.cell a b = m'.cell b a) ∧
      (∀ a, m'.cell a a = m.cell a a) := by
  intro l
  induction l with
  | nil => intro m m' h; simp [computeDistToAllLoop] at h
  | cons it rest ih =>
    intro m m' h
    rcases loop_cons_some h with ⟨-, rfl⟩ | ⟨hc, i, k, e1, e2, -, -, -, -, hrec⟩
    · exact ⟨rfl, rfl, fun hs => hs, fun _ => rfl⟩
    · obtain ⟨r1, r2, r3, r4⟩ := ih _ _ hrec
      have hik : i ≠ k := by
        intro e; rw [e1, e2, e] at hc; exact lt_irrefl _ hc
      refine ⟨r1, r2, ?_, ?_⟩
      · intro hs
        apply r3
        intro a b
        simp only
        by_cases c1 : a = k ∧ b = i
        · rw [if_pos c1]
          by_cases c2 : b = k ∧ a = i
          · rw [if_pos c2]
          · rw [if_neg c2, if_pos ⟨c1.2, c1.1⟩]
        · rw [if_neg c1]
          by_cases c3 : a = i ∧ b = k
          · rw [if_pos c3, if_pos ⟨c3.2, c3.1⟩]
          · rw [if_neg c3]
            have c4 : ¬ (b = k ∧ a = i) := fun h' => c3 ⟨h'.2, h'.1⟩
            have c5 : ¬ (b = i ∧ a = k) := fun h' => c1 ⟨h'.2, h'.1⟩
            rw [if_neg c4, if_neg c5]
            exact hs a b
      · intro a
        rw [r4 a]
        simp only
        rw [if_neg (fun h' => hik (h'.2.symm.trans h'.1)),
          if_neg (fun h' => hik (h'.1.symm.trans h'.2))]

/-- The loop stops at the latest on the animation it was started for: it returns a matrix
as soon as that animation is in the list and the identifiers met are inside the matrix. -/
theorem loop_defined (anim : MocapAnimation) (descriptors : Int → CImg) (N : ℕ)
    (hk : 0 ≤ anim.id ∧ anim.id < N) :
    ∀ (l : List MocapAnimation) (m : Mat), m.rows = N → m.cols = N →
      (∀ x ∈ l, 0 ≤ x.id ∧ x.id < N) → (∃ x ∈ l, ¬ anim.id > x.id) →
      ∃ m', computeDistToAllLoop anim descriptors l m = some m' := by
  intro l
  induction l with
  | nil => intro m _ _ _ hstop; obtain ⟨x, hx, -⟩ := hstop; simp at hx
  | cons it rest ih =>
    intro m hr hc hids hstop
    rw [computeDistToAllLoop]
    by_cases hgt : anim.getId > it.getId
    · rw [if_pos hgt]
      obtain ⟨hi0, hiN⟩ := hids it (List.mem_cons_self _ _)
      obtain ⟨i, hi⟩ := Int.eq_ofNat_of_zero_le hi0
      obtain ⟨k, hk'⟩ := Int.eq_ofNat_of_zero_le hk.1
      have e1 : it.getId = (i : Int) := hi
      have e2 : anim.getId = (k : Int) := hk'
      have hiN' : i < N := by omega
      have hkN' : k < N := by have := hk.2; omega
      rw [e1, e2, Mat.write_of_bounds m i k _ (by omega) (by omega)]
      simp only
      rw [Mat.write_of_bounds _ k i _ (by simpa using (by omega : k < m.rows))
        (by simpa using (by omega : i < m.cols))]
      simp only
      apply ih
      · simpa using hr
      · simpa using hc
      · intro x hx; exact hids x (List.mem_cons_of_mem _ hx)
      · obtain ⟨x, hx, hnx⟩ := hstop
        rcases List.mem_cons.1 hx with rfl | hx'
        · exact absurd hgt hnx
        · exact ⟨x, hx', hnx⟩
    · rw [if_neg hgt]
      exact ⟨m, rfl⟩

/-- The loop on a collection whose identifiers are the positions, started at position `p`:
for the animation of identifier `k` it writes `pairDist` into the cells `(j, k)` and `(k, j)`
for `p ≤ j < k` and stops on position `k`. -/
theorem loop_positions (anim : MocapAnimation) (descriptors : Int → CImg) (k N : ℕ)
    (hk : anim.id = (k : Int)) :
    ∀ (l : List MocapAnimation) (p : ℕ) (m : Mat), m.rows = N → m.cols = N →
      (∀ i : ℕ, ∀ h : i < l.length, (l.get ⟨i, h⟩).id = ((p + i : ℕ) : Int)) →
      p ≤ k → k < p + l.length → p + l.length ≤ N →
      ∃ m', computeDistToAllLoop anim descriptors l m = some m' ∧ m'.rows = N ∧ m'.cols = N ∧
        ∀ a b, m'.cell a b =
          if (a = k ∧ p ≤ b ∧ b < k) ∨ (b = k ∧ p ≤ a ∧ a < k) then pairDist descriptors a b
          else m.cell a b := by
  intro l
  induction l with
  | nil => intro p m _ _ _ h1 h2 _; simp at h2; omega
  | cons it rest ih =>
    intro p m hr hc hids hpk hkl hlN
    have hit : it.id = (p : Int) := by simpa using hids 0 (by simp)
    have e1 : it.getId = (p : Int) := hit
    have e2 : anim.getId = (k : Int) := hk
    simp only [List.length_cons] at hkl hlN
    rw [computeDistToAllLoop]
    by_cases hgt : anim.getId > it.getId
    · rw [if_pos hgt]
      have hpk' : p < k := by rw [e1, e2] at hgt; omega
      rw [e1, e2, Mat.write_of_bounds m p k _ (by omega) (by omega)]
      simp only
      rw [Mat.write_of_bounds _ k p _ (by simpa using (by omega : k < m.rows))
        (by simpa using (by omega : p < m.cols))]
      simp only
      have hids' : ∀ i : ℕ, ∀ h : i < rest.length,
          (rest.get ⟨i, h⟩).id = ((p + 1 + i : ℕ) : Int) := by
        intro i h
        have := hids (i + 1) (by simp; omega)
        simp only [List.get_eq_getElem, List.getElem_cons_succ] at this ⊢
        rw [this]
        congr 1
        omega
      obtain ⟨m', h1, h2, h3, h4⟩ := ih (p + 1)
        { rows := m.rows, cols := m.cols,
          cell := fun a b =>
            if a = k ∧ b = p then computeDist (descriptors (p : Int)) (descriptors (k : Int))
            else if a = p ∧ b = k then
              computeDist (descriptors (p : Int)) (descriptors (k : Int))
            else m.cell a b } hr hc hids' (by omega) (by omega) (by omega)
      refine ⟨m', h1, h2, h3, ?_⟩
      intro a b
      rw [h4 a b]
      dsimp only
      have hv1 : pairDist descriptors k p =
          computeDist (descriptors (p : Int)) (descriptors (k : Int)) := by
        unfold pairDist
        rw [min_eq_right hpk'.le, max_eq_left hpk'.le]
      have hv2 : pairDist descriptors p k =
          computeDist (descriptors (p : Int)) (descriptors (k : Int)) := by
        unfold pairDist
        rw [min_eq_left hpk'.le, max_eq_right hpk'.le]
      by_cases c1 : (a = k ∧ p + 1 ≤ b ∧ b < k) ∨ (b = k ∧ p + 1 ≤ a ∧ a < k)
      · rw [if_pos c1, if_pos (by omega)]
      · rw [if_neg c1]
        by_cases c2 : a = k ∧ b = p
        · rw [if_pos c2, if_pos (by omega), c2.1, c2.2, hv1]
        · rw [if_neg c2]
          by_cases c3 : a = p ∧ b = k
          · rw [if_pos c3, if_pos (by omega), c3.1, c3.2, hv2]
          · rw [if_neg c3, if_neg (by omega)]
    · rw [if_neg hgt]
      have hpk' : p = k := by rw [e1, e2] at hgt; omega
      refine ⟨m, rfl, hr, hc, ?_⟩
      intro a b
      rw [if_neg (by omega)]

/-- One call of `computeDistToAll` on a collection whose identifiers are the positions. -/
theorem computeDistToAll_positions (anims : List MocapAnimation) (descriptors : Int → CImg)
    (hids : idsArePositions anims) (anim : MocapAnimation) (hmem : anim ∈ anims) (m : Mat)
    (hr : m.rows = anims.length) (hc : m.cols = anims.length) :
    ∃ k : ℕ, anim.id = (k : Int) ∧ k < anims.length ∧
      ∃ m', computeDistToAll anim m anims descriptors = some m' ∧
        m'.rows = anims.length ∧ m'.cols = anims.length ∧
        ∀ a b, m'.cell a b =
          if (a = k ∧ b < k) ∨ (b = k ∧ a < k) then pairDist descriptors a b else m.cell a b := by
  obtain ⟨⟨k, hklt⟩, hget⟩ := List.mem_iff_get.1 hmem
  have hk : anim.id = (k : Int) := by rw [← hget]; exact hids k hklt
  refine ⟨k, hk, hklt, ?_⟩
  obtain ⟨m', h1, h2, h3, h4⟩ := loop_positions anim descriptors k anims.length hk anims 0 m hr hc
    (by intro i h; simpa using hids i h) (by omega) (by omega) (by omega)
  refine ⟨m', h1, h2, h3, ?_⟩
  intro a b
  rw [h4 a b]
  simp

/-- Full run on a collection whose identifiers are the positions: whatever the order of the
calls, the run returns a matrix, and a cell off the diagonal holds `pairDist` as soon as the
call for its larger index has run or the cell had that value before. -/
theorem computeAllDistances_positions (anims : List MocapAnimation)
    (descriptors : Int → CImg) (hids : idsArePositions anims) :
    ∀ (schedule : List MocapAnimation) (m : Mat) (Q : ℕ → Prop),
      (∀ x ∈ schedule, x ∈ anims) → m.rows = anims.length → m.cols = anims.length →
      (∀ a b, a ≠ b → Q (max a b) → m.cell a b = pairDist descriptors a b) →
      ∃ m', computeAllDistances schedule m anims descriptors = some m' ∧
        m'.rows = anims.length ∧ m'.cols = anims.length ∧
        ∀ a b, a ≠ b → (Q (max a b) ∨ ∃ x ∈ schedule, x.id = ((max a b : ℕ) : Int)) →
          m'.cell a b = pairDist descriptors a b := by
  intro schedule
  induction schedule with
  | nil =>
    intro m Q _ hr hc hinv
    refine ⟨m, rfl, hr, hc, ?_⟩
    intro a b hab h
    rcases h with h | ⟨x, hx, -⟩
    · exact hinv a b hab h
    · simp at hx
  | cons anim rest ih =>
    intro m Q hmem hr hc hinv
    obtain ⟨k, hk, -, m1, h1, h2, h3, h4⟩ := computeDistToAll_positions anims descriptors hids
      anim (hmem anim (List.mem_cons_self _ _)) m hr hc
    obtain ⟨m', r1, r2, r3, r4⟩ := ih m1 (fun n => Q n ∨ n = k)
      (fun x hx => hmem x (List.mem_cons_of_mem _ hx)) h2 h3 (by
        intro a b hab hq
        rw [h4 a b]
        by_cases c : (a = k ∧ b < k) ∨ (b = k ∧ a < k)
        · rw [if_pos c]
        · rw [if_neg c]
          rcases hq with hq | hq
          · exact hinv a b hab hq
          · exfalso
            apply c
            rcases le_total a b with hle | hle
            · rw [max_eq_right hle] at hq; right; omega
            · rw [max_eq_left hle] at hq; left; omega)
    refine ⟨m', ?_, r2, r3, ?_⟩
    · rw [computeAllDistances, h1]
      exact r1
    · intro a b hab h
      apply r4 a b hab
      rcases h with h | ⟨x, hx, hxid⟩
      · exact Or.inl (Or.inl h)
      · rcases List.mem_cons.1 hx with rfl | hx'
        · left; right
          have : ((max a b : ℕ) : Int) = (k : Int) := by rw [← hxid, hk]
          exact_mod_cast this
        · exact Or.inr ⟨x, hx', hxid⟩

/-- Full run on any collection whose identifiers are inside the matrix: whatever the order
of the calls, the run returns a matrix of the same size, symmetric if the initial one was,
with the initial diagonal. -/
theorem computeAllDistances_preserves (anims : List MocapAnimation)
    (descriptors : Int → CImg)
    (hrange : ∀ x ∈ anims, 0 ≤ x.id ∧ x.id < (anims.length : Int)) :
    ∀ (schedule : List MocapAnimation) (m : Mat),
      (∀ x ∈ schedule, x ∈ anims) → m.rows = anims.length → m.cols = anims.length →
      ∃ m', computeAllDistances schedule m anims descriptors = some m' ∧
        m'.rows = anims.length ∧ m'.cols = anims.length ∧
        ((∀ a b, m.cell a b = m.cell b a) → ∀ a b, m'.cell a b = m'.cell b a) ∧
        (∀ a, m'.cell a a = m.cell a a) := by
  intro schedule
  induction schedule with
  | nil => intro m _ hr hc; exact ⟨m, rfl, hr, hc, fun h => h, fun _ => rfl⟩
  | cons anim rest ih =>
    intro m hmem hr hc
    have hin := hmem anim (List.mem_cons_self _ _)
    obtain ⟨m1, h1⟩ := loop_defined anim descriptors anims.length (hrange anim hin) anims m hr hc
      hrange ⟨anim, hin, lt_irrefl _⟩
    obtain ⟨p1, p2, p3, p4⟩ := loop_preserves anim descriptors anims m m1 h1
    obtain ⟨m', r1, r2, r3, r4, r5⟩ := ih m1 (fun x hx => hmem x (List.mem_cons_of_mem _ hx))
      (by rw [p1, hr]) (by rw [p2, hc])
    refine ⟨m', ?_, r2, r3, fun hs => r4 (p3 hs), fun a => by rw [r5 a, p4 a]⟩
    rw [computeAllDistances]
    show (match computeDistToAllLoop anim descriptors anims m with
      | none => none
      | some m1 => computeAllDistances rest m1 anims descriptors) = some m'
    rw [h1]
    exact r1

/-! ## Claims on the matrix fill -/

theorem exampleAnims_positions : idsArePositions exampleAnims := by
  intro i h
  have h3 : i < 3 := h
  interval_cases i <;> rfl

theorem exampleAnims_range :
    ∀ x ∈ exampleAnims, 0 ≤ x.id ∧ x.id < (exampleAnims.length : Int) := by
  intro x hx
  simp only [exampleAnims, List.mem_cons, List.mem_singleton, List.not_mem_nil, or_false] at hx
  rcases hx with rfl | rfl | rfl <;> simp [exampleAnims]

theorem exampleSchedule_perm :
    List.Perm [exampleAnims.get ⟨1, by decide⟩, exampleAnims.get ⟨0, by decide⟩,
      exampleAnims.get ⟨2, by decide⟩] exampleAnims :=
  List.Perm.swap _ _ _

/-- C5: for a collection of `N` animations whose identifiers are their positions and any
descriptor store, after `setAnimations` and one `computeDistToAll` per animation, in the
order of any permutation `schedule` of the collection, the run returns a matrix whose cell
`(i, j)`, `i ≠ j` in `[0, N)`, is `computeDist(grid[min(i,j)], grid[max(i,j)])`.  In
particular, for three animations whose grids 0 and 1 are identical with an occupied cell, and
whose grid 2 is a binary grid sharing no occupied cell with them, the cells `(0,1)`, `(1,0)`
are `1.0f` and the cells `(0,2)`, `(2,0)`, `(1,2)`, `(2,1)` are the sentinel. -/
theorem C5_full_run (anims : List MocapAnimation) (descriptors : Int → CImg)
    (schedule : List MocapAnimation) (hids : idsArePositions anims)
    (hperm : schedule.Perm anims) :
    ∃ m, computeAllDistances schedule (setAnimations anims) anims descriptors = some m ∧
      (∀ i j : ℕ, i < anims.length → j < anims.length → i ≠ j →
        m.cell i j =
          computeDist (descriptors ((min i j : ℕ) : Int)) (descriptors ((max i j : ℕ) : Int))) ∧
      (anims.length = 3 → descriptors 0 = descriptors 1 → (1 : Int) ∈ descriptors 0 →
        isBinary (descriptors 0) → isBinary (descriptors 2) →
        (descriptors 0).length = (descriptors 2).length → (descriptors 0).length < 2 ^ 62 →
        countBoth (descriptors 0) (descriptors 2) = 0 →
        m.cell 0 1 = F32.fin 1 ∧ m.cell 1 0 = F32.fin 1 ∧
        m.cell 0 2 = F32.numeric_limits_max ∧ m.cell 2 0 = F32.numeric_limits_max ∧
        m.cell 1 2 = F32.numeric_limits_max ∧ m.cell 2 1 = F32.numeric_limits_max) := by
  obtain ⟨m, h1, -, -, h4⟩ := computeAllDistances_positions anims descriptors hids schedule
    (setAnimations anims) (fun _ => False) (fun x hx => hperm.mem_iff.1 hx) rfl rfl
    (fun _ _ _ h => h.elim)
  have hcell : ∀ i j : ℕ, i < anims.length → j < anims.length → i ≠ j →
      m.cell i j = pairDist descriptors i j := by
    intro i j hi hj hij
    apply h4 i j hij
    right
    have hmax : max i j < anims.length := max_lt hi hj
    refine ⟨anims.get ⟨max i j, hmax⟩, hperm.mem_iff.2 (List.get_mem _ _ _), hids _ hmax⟩
  refine ⟨m, h1, hcell, ?_⟩
  intro h3 h01 hocc hb0 hb2 hlen hsize hdis
  have e01 : computeDist (descriptors 0) (descriptors 1) = F32.fin 1 := by
    rw [← h01]; exact computeDist_self _ hocc hsize
  have e02 : computeDist (descriptors 0) (descriptors 2) = F32.numeric_limits_max :=
    computeDist_disjoint _ _ hlen hsize hb0 hb2 hdis (Or.inl hocc)
  have e12 : computeDist (descriptors 1) (descriptors 2) = F32.numeric_limits_max := by
    rw [← h01]; exact e02
  refine ⟨?_, ?_, ?_, ?_, ?_, ?_⟩
  · rw [hcell 0 1 (by omega) (by omega) (by omega)]; exact e01
  · rw [hcell 1 0 (by omega) (by omega) (by omega)]; exact e01
  · rw [hcell 0 2 (by omega) (by omega) (by omega)]; exact e02
  · rw [hcell 2 0 (by omega) (by omega) (by omega)]; exact e02
  · rw [hcell 1 2 (by omega) (by omega) (by omega)]; exact e12
  · rw [hcell 2 1 (by omega) (by omega) (by omega)]; exact e12

theorem C5_full_run_witness :
    idsArePositions exampleAnims ∧
    List.Perm [exampleAnims.get ⟨1, by decide⟩, exampleAnims.get ⟨0, by decide⟩,
      exampleAnims.get ⟨2, by decide⟩] exampleAnims ∧
    ∃ m, computeAllDistances [exampleAnims.get ⟨1, by decide⟩, exampleAnims.get ⟨0, by decide⟩,
        exampleAnims.get ⟨2, by decide⟩] (setAnimations exampleAnims) exampleAnims
        exampleDescriptors = some m ∧
      m.cell 0 1 = F32.fin 1 ∧ m.cell 1 0 = F32.fin 1 ∧
      m.cell 0 2 = F32.numeric_limits_max ∧ m.cell 2 0 = F32.numeric_limits_max ∧
      m.cell 1 2 = F32.numeric_limits_max ∧ m.cell 2 1 = F32.numeric_limits_max := by
  refine ⟨exampleAnims_positions, exampleSchedule_perm, ?_⟩
  obtain ⟨m, h1, -, h3⟩ := C5_full_run exampleAnims exampleDescriptors _ exampleAnims_positions
    exampleSchedule_perm
  exact ⟨m, h1, h3 rfl rfl (by decide) (by decide) (by decide) rfl (by decide) (by decide)⟩

/-- C6: the distance matrix is symmetric after a full run.  For a collection whose
identifiers lie in `[0, N)`, starting from the all-sentinel `N x N` matrix of
`setAnimations`, one `computeDistToAll` per animation in the order of any permutation of the
collection returns a matrix with `matrix[i][j] = matrix[j][i]` for all `i ≠ j` in `[0, N)`;
and symmetry is preserved by every single `computeDistToAll` step, on any collection. -/
theorem C6_symmetric (anims : List MocapAnimation) (descriptors : Int → CImg)
    (schedule : List MocapAnimation)
    (hrange : ∀ x ∈ anims, 0 ≤ x.id ∧ x.id < (anims.length : Int))
    (hperm : schedule.Perm anims) :
    (∃ m, computeAllDistances schedule (setAnimations anims) anims descriptors = some m ∧
      ∀ i j : ℕ, i < anims.length → j < anims.length → i ≠ j → m.cell i j = m.cell j i) ∧
    (∀ (collection : List MocapAnimation) (anim : MocapAnimation) (m m' : Mat),
      (∀ a b, m.cell a b = m.cell b a) →
      computeDistToAll anim m collection descriptors = some m' →
      ∀ a b, m'.cell a b = m'.cell b a) := by
  constructor
  · obtain ⟨m, h1, -, -, h4, -⟩ := computeAllDistances_preserves anims descriptors hrange
      schedule (setAnimations anims) (fun x hx => hperm.mem_iff.1 hx) rfl rfl
    exact ⟨m, h1, fun i j _ _ _ => h4 (fun _ _ => rfl) i j⟩
  · intro collection anim m m' hs h
    exact (loop_preserves anim descriptors collection m m' h).2.2.1 hs

theorem C6_symmetric_witness :
    (∀ x ∈ exampleAnims, 0 ≤ x.id ∧ x.id < (exampleAnims.length : Int)) ∧
    List.Perm [exampleAnims.get ⟨1, by decide⟩, exampleAnims.get ⟨0, by decide⟩,
      exampleAnims.get ⟨2, by decide⟩] exampleAnims ∧
    ∃ m, computeAllDistances [exampleAnims.get ⟨1, by decide⟩, exampleAnims.get ⟨0, by decide⟩,
        exampleAnims.get ⟨2, by decide⟩] (setAnimations exampleAnims) exampleAnims
        exampleDescriptors = some m ∧
      ∀ i j : ℕ, i < exampleAnims.length → j < exampleAnims.length → i ≠ j →
        m.cell i j = m.cell j i :=
  ⟨exampleAnims_range, exampleSchedule_perm,
    (C6_symmetric exampleAnims exampleDescriptors _ exampleAnims_range exampleSchedule_perm).1⟩

/-- C7: the diagonal is never written.  `setAnimations` sets every cell of the `N x N`
matrix to the sentinel maximum float; every `computeDistToAll` step, on any collection and
for any animation, leaves `matrix[k][k]` unchanged for all `k`; hence, for a collection whose
identifiers lie in `[0, N)`, after a full run in any order `matrix[k][k]` is the sentinel for
all `k` in `[0, N)`. -/
theorem C7_diagonal (anims : List MocapAnimation) (descriptors : Int → CImg)
    (schedule : List MocapAnimation)
    (hrange : ∀ x ∈ anims, 0 ≤ x.id ∧ x.id < (anims.length : Int))
    (hperm : schedule.Perm anims) :
    ((setAnimations anims).rows = anims.length ∧ (setAnimations anims).cols = anims.length ∧
      ∀ a b, (setAnimations anims).cell a b = F32.numeric_limits_max) ∧
    (∀ (collection : List MocapAnimation) (anim : MocapAnimation) (m m' : Mat),
      computeDistToAll anim m collection descriptors = some m' →
      ∀ k, m'.cell k k = m.cell k k) ∧
    (∃ m, computeAllDistances schedule (setAnimations anims) anims descriptors = some m ∧
      ∀ k : ℕ, k < anims.length → m.cell k k = F32.numeric_limits_max) := by
  refine ⟨⟨rfl, rfl, fun _ _ => rfl⟩, ?_, ?_⟩
  · intro collection anim m m' h
    exact (loop_preserves anim descriptors collection m m' h).2.2.2
  · obtain ⟨m, h1, -, -, -, h5⟩ := computeAllDistances_preserves anims descriptors hrange
      schedule (setAnimations anims) (fun x hx => hperm.mem_iff.1 hx) rfl rfl
    exact ⟨m, h1, fun k _ => h5 k⟩

theorem C7_diagonal_witness :
    (∀ x ∈ exampleAnims, 0 ≤ x.id ∧ x.id < (exampleAnims.length : Int)) ∧
    List.Perm [exampleAnims.get ⟨1, by decide⟩, exampleAnims.get ⟨0, by decide⟩,
      exampleAnims.get ⟨2, by decide⟩] exampleAnims ∧
    ∃ m, computeAllDistances [exampleAnims.get ⟨1, by decide⟩, exampleAnims.get ⟨0, by decide⟩,
        exampleAnims.get ⟨2, by decide⟩] (setAnimations exampleAnims) exampleAnims
        exampleDescriptors = some m ∧
      ∀ k : ℕ, k < exampleAnims.length → m.cell k k = F32.numeric_limits_max :=
  ⟨exampleAnims_range, exampleSchedule_perm,
    (C7_diagonal exampleAnims exampleDescriptors _ exampleAnims_range exampleSchedule_perm).2.2⟩

/-! ## Lemmas on the voxelisation -/

theorem set_one_keep (img : CImg) (j i : ℕ) (h : img[i]? = some 1) :
    (img.set j 1)[i]? = some 1 := by
  rw [List.getElem?_set]
  by_cases hji : j = i
  · subst hji
    have hlt : j < img.length := by
      by_contra hc
      rw [List.getElem?_eq_none (not_lt.1 hc)] at h
      exact Option.noConfusion h
    rw [if_pos rfl, if_pos hlt]
  · rw [if_neg hji]; exact h

theorem drawPoint_length (img : CImg) (x y z c : Int) :
    (drawPoint img x y z c).length = img.length := by
  unfold drawPoint
  split_ifs <;> simp

theorem drawPoint_keep (img : CImg) (x y z : Int) (i : ℕ) (h : img[i]? = some 1) :
    (drawPoint img x y z 1)[i]? = some 1 := by
  unfold drawPoint
  split_ifs
  · exact set_one_keep img _ i h
  · exact h

/-- Drawing the listed samples of a line keeps the size of the image and the cells that hold
1. -/
theorem drawSamples_keep (fx fy fz : ℕ → Int) :
    ∀ (ts : List ℕ) (img : CImg),
      (ts.foldl (fun im t => drawPoint im (fx t) (fy t) (fz t) 1) img).length = img.length ∧
      ∀ i : ℕ, img[i]? = some 1 →
        (ts.foldl (fun im t => drawPoint im (fx t) (fy t) (fz t) 1) img)[i]? = some 1 := by
  intro ts
  induction ts with
  | nil => intro img; exact ⟨rfl, fun _ h => h⟩
  | cons t rest ih =>
    intro img
    obtain ⟨h1, h2⟩ := ih (drawPoint img (fx t) (fy t) (fz t) 1)
    simp only [List.foldl_cons]
    refine ⟨by rw [h1, drawPoint_length], fun i hi => h2 i (drawPoint_keep img _ _ _ i hi)⟩

/-- Drawing the listed samples sets the voxel of every listed sample that lies inside the
image. -/
theorem drawSamples_sets (fx fy fz : ℕ → Int) :
    ∀ (ts : List ℕ) (img : CImg), img.length = 8000 → ∀ t ∈ ts,
      0 ≤ fx t ∧ fx t < 20 ∧ 0 ≤ fy t ∧ fy t < 20 ∧ 0 ≤ fz t ∧ fz t < 20 →
      (ts.foldl (fun im t => drawPoint im (fx t) (fy t) (fz t) 1) img)[
        (fx t + 20 * fy t + 400 * fz t).toNat]? = some 1 := by
  intro ts
  induction ts with
  | nil => intro img _ t ht; simp at ht
  | cons s rest ih =>
    intro img hlen t ht hb
    simp only [List.foldl_cons]
    rcases List.mem_cons.1 ht with rfl | ht'
    · apply (drawSamples_keep fx fy fz rest _).2
      unfold drawPoint
      rw [if_pos hb]
      apply List.getElem?_set_self
      rw [hlen]
      omega
    · exact ih _ (by rw [drawPoint_length, hlen]) t ht' hb

theorem draw_line_keep (img : CImg) (x0 y0 z0 x1 y1 z1 : Int) :
    (draw_line img x0 y0 z0 x1 y1 z1 1).length = img.length ∧
    ∀ i : ℕ, img[i]? = some 1 → (draw_line img x0 y0 z0 x1 y1 z1 1)[i]? = some 1 := by
  unfold draw_line
  exact drawSamples_keep _ _ _ _ img

/-- The line from voxel `(0,0,0)` to voxel `(5,5,5)` sets the six voxels `(k,k,k)`. -/
theorem draw_line_diagonal (img : CImg) (hlen : img.length = 8000) (k : ℕ) (hk : k ≤ 5) :
    (draw_line img 0 0 0 5 5 5 1)[k + 20 * k + 400 * k]? = some 1 := by
  unfold draw_line
  have hd : (max (max |(5 : Int) - 0| |(5 : Int) - 0|) |(5 : Int) - 0|) = 5 := by decide
  rw [hd]
  have hc : lineCoord 0 5 k 5 = (k : Int) := by
    unfold lineCoord
    omega
  have hmem : k ∈ List.range ((5 : Int).toNat + 1) := by
    rw [List.mem_range]
    have : (5 : Int).toNat = 5 := rfl
    omega
  have := drawSamples_sets (fun t => lineCoord 0 5 t 5) (fun t => lineCoord 0 5 t 5)
    (fun t => lineCoord 0 5 t 5) _ img hlen k hmem
    (by simp only [hc]; omega)
  simp only [hc] at this
  have e : ((k : Int) + 20 * (k : Int) + 400 * (k : Int)).toNat = k + 20 * k + 400 * k := by
    omega
  rw [e] at this
  exact this

theorem writeVoxel_keep {img img' : CImg} {posi : ℕ × ℕ × ℕ} (h : writeVoxel img posi = some img') :
    img'.length = img.length ∧ ∀ i : ℕ, img[i]? = some 1 → img'[i]? = some 1 := by
  unfold writeVoxel at h
  split_ifs at h
  have := Option.some.inj h
  subst this
  exact ⟨by simp, fun i hi => set_one_keep img _ i hi⟩

/-- A step of `computeVoxels` keeps the size of the image and never clears a voxel. -/
theorem voxelStep_keep {toUnsigned : Int → ℕ} {anim : MocapAnimation} {n f : ℕ}
    {img img' : CImg} (h : voxelStep toUnsigned anim n f img = some img') :
    img'.length = img.length ∧ ∀ i : ℕ, img[i]? = some 1 → img'[i]? = some 1 := by
  unfold voxelStep at h
  split at h
  · split at h
    · split_ifs at h
      · exact writeVoxel_keep h
      · have := Option.some.inj h
        subst this
        exact draw_line_keep _ _ _ _ _ _ _
    · exact Option.noConfusion h
  · exact Option.noConfusion h

theorem framesLoop_keep (toUnsigned : Int → ℕ) (anim : MocapAnimation) (n : ℕ) :
    ∀ (fs : List ℕ) (img img' : CImg), framesLoop toUnsigned anim n fs img = some img' →
      img'.length = img.length ∧ ∀ i : ℕ, img[i]? = some 1 → img'[i]? = some 1 := by
  intro fs
  induction fs with
  | nil =>
    intro img img' h
    have := Option.some.inj h
    subst this
    exact ⟨rfl, fun _ hi => hi⟩
  | cons f rest ih =>
    intro img img' h
    rw [framesLoop] at h
    cases hs : voxelStep toUnsigned anim n f img with
    | none => rw [hs] at h; exact Option.noConfusion h
    | some m1 =>
      rw [hs] at h
      obtain ⟨a1, a2⟩ := voxelStep_keep hs
      obtain ⟨b1, b2⟩ := ih m1 img' h
      exact ⟨by rw [b1, a1], fun i hi => b2 i (a2 i hi)⟩

theorem nodesLoop_keep (toUnsigned : Int → ℕ) (anim : MocapAnimation) :
    ∀ (ns : List ℕ) (img img' : CImg), nodesLoop toUnsigned anim ns img = some img' →
      img'.length = img.length ∧ ∀ i : ℕ, img[i]? = some 1 → img'[i]? = some 1 := by
  intro ns
  induction ns with
  | nil =>
    intro img img' h
    have := Option.some.inj h
    subst this
    exact ⟨rfl, fun _ hi => hi⟩
  | cons n rest ih =>
    intro img img' h
    rw [nodesLoop] at h
    cases hs : framesLoop toUnsigned anim n (List.range' 1 (anim.frames.toNat - 1)) img with
    | none => rw [hs] at h; exact Option.noConfusion h
    | some m1 =>
      rw [hs] at h
      obtain ⟨a1, a2⟩ := framesLoop_keep toUnsigned anim n _ img m1 hs
      obtain ⟨b1, b2⟩ := ih m1 img' h
      exact ⟨by rw [b1, a1], fun i hi => b2 i (a2 i hi)⟩

/-- What a step of the inner loop establishes is still there at the end of the loop. -/
theorem framesLoop_step (toUnsigned : Int → ℕ) (anim : MocapAnimation) (n f : ℕ)
    (P : CImg → Prop)
    (hstep : ∀ img img', img.length = 8000 → voxelStep toUnsigned anim n f img = some img' →
      P img')
    (hkeep : ∀ img img' g, P img → voxelStep toUnsigned anim n g img = some img' → P img') :
    ∀ (fs : List ℕ) (img img' : CImg), f ∈ fs → img.length = 8000 →
      framesLoop toUnsigned anim n fs img = some img' → P img' := by
  have hpers : ∀ (fs : List ℕ) (img img' : CImg), P img →
      framesLoop toUnsigned anim n fs img = some img' → P img' := by
    intro fs
    induction fs with
    | nil => intro img img' hp h; have := Option.some.inj h; subst this; exact hp
    | cons g rest ih =>
      intro img img' hp h
      rw [framesLoop] at h
      cases hs : voxelStep toUnsigned anim n g img with
      | none => rw [hs] at h; exact Option.noConfusion h
      | some m1 => rw [hs] at h; exact ih m1 img' (hkeep img m1 g hp hs) h
  intro fs
  induction fs with
  | nil => intro img img' hf; simp at hf
  | cons g rest ih =>
    intro img img' hf hlen h
    rw [framesLoop] at h
    cases hs : voxelStep toUnsigned anim n g img with
    | none => rw [hs] at h; exact Option.noConfusion h
    | some m1 =>
      rw [hs] at h
      rcases List.mem_cons.1 hf with rfl | hf'
      · exact hpers rest m1 img' (hstep img m1 hlen hs) h
      · exact ih m1 img' hf' (by rw [(voxelStep_keep hs).1, hlen]) h

theorem nodesLoop_step (toUnsigned : Int → ℕ) (anim : MocapAnimation) (n : ℕ)
    (P : CImg → Prop)
    (hstep : ∀ img img', img.length = 8000 →
      framesLoop toUnsigned anim n (List.range' 1 (anim.frames.toNat - 1)) img = some img' →
      P img')
    (hkeep : ∀ img img' g fs, P img → framesLoop toUnsigned anim g fs img = some img' → P img') :
    ∀ (ns : List ℕ) (img img' : CImg), n ∈ ns → img.length = 8000 →
      nodesLoop toUnsigned anim ns img = some img' → P img' := by
  have hpers : ∀ (ns : List ℕ) (img img' : CImg), P img →
      nodesLoop toUnsigned anim ns img = some img' → P img' := by
    intro ns
    induction ns with
    | nil => intro img img' hp h; have := Option.some.inj h; subst this; exact hp
    | cons g rest ih =>
      intro img img' hp h
      rw [nodesLoop] at h
      cases hs : framesLoop toUnsigned anim g (List.range' 1 (anim.frames.toNat - 1)) img with
      | none => rw [hs] at h; exact Option.noConfusion h
      | some m1 => rw [hs] at h; exact ih m1 img' (hkeep img m1 g _ hp hs) h
  intro ns
  induction ns with
  | nil => intro img img' hf; simp at hf
  | cons g rest ih =>
    intro img img' hf hlen h
    rw [nodesLoop] at h
    cases hs : framesLoop toUnsigned anim g (List.range' 1 (anim.frames.toNat - 1)) img with
    | none => rw [hs] at h; exact Option.noConfusion h
    | some m1 =>
      rw [hs] at h
      rcases List.mem_cons.1 hf with rfl | hf'
      · exact hpers rest m1 img' (hstep img m1 hlen hs) h
      · exact ih m1 img' hf' (by rw [(framesLoop_keep toUnsigned anim g _ img m1 hs).1, hlen]) h

theorem toIntArg_small (u : ℕ) (h : u < 2 ^ 31) : toIntArg u = (u : Int) := by
  unfold toIntArg
  rw [if_pos h]

/-- Core of C8: a segment between the rounded coordinates `(0,0,0)` and `(5,5,5)` leaves the
six voxels `(k,k,k)` set in the grid returned by `computeVoxels`. -/
theorem computeVoxels_line (toUnsigned : Int → ℕ) (anim : MocapAnimation) (n f : ℕ)
    (hn : n < 31) (hf1 : 1 ≤ f) (hf : f < anim.poses.length) (p q : Vec3f)
    (hq : anim.posAt n (f - 1) = some q) (hp : anim.posAt n f = some p)
    (hcq : voxelCoord toUnsigned q = some (0, 0, 0))
    (hcp : voxelCoord toUnsigned p = some (5, 5, 5))
    (r : Int × CImg) (hdef : computeVoxels toUnsigned anim = some r) :
    r.1 = anim.id ∧ r.2.length = 8000 ∧
      ∀ k : ℕ, k ≤ 5 → r.2[k + 20 * k + 400 * k]? = some 1 := by
  unfold computeVoxels at hdef
  cases hs : nodesLoop toUnsigned anim (List.range 31) (List.replicate 8000 0) with
  | none => rw [hs] at hdef; exact Option.noConfusion hdef
  | some img' =>
    rw [hs] at hdef
    have := Option.some.inj hdef
    subst this
    refine ⟨rfl, ?_, ?_⟩
    · rw [(nodesLoop_keep toUnsigned anim _ _ _ hs).1, List.length_replicate]
    · refine nodesLoop_step toUnsigned anim n
        (fun img => ∀ k : ℕ, k ≤ 5 → img[k + 20 * k + 400 * k]? = some 1) ?_ ?_
        (List.range 31) _ img' (List.mem_range.2 hn) (List.length_replicate _ _) hs
      · intro img img1 hlen hfl
        refine framesLoop_step toUnsigned anim n f
          (fun img => ∀ k : ℕ, k ≤ 5 → img[k + 20 * k + 400 * k]? = some 1) ?_ ?_
          _ img img1 ?_ hlen hfl
        · intro im im' hl hstep k hk
          unfold voxelStep at hstep
          rw [hp, hq] at hstep
          simp only [hcp, hcq] at hstep
          rw [if_neg (by decide)] at hstep
          have := Option.some.inj hstep
          subst this
          have h0 : toIntArg 0 = 0 := toIntArg_small 0 (by norm_num)
          have h5 : toIntArg 5 = 5 := toIntArg_small 5 (by norm_num)
          rw [h0, h5]
          exact draw_line_diagonal im hl k hk
        · intro im im' g hP hstep k hk
          exact (voxelStep_keep hstep).2 _ (hP k hk)
        · rw [List.mem_range']
          refine ⟨f - 1, ?_, by omega⟩
          have : anim.frames.toNat = anim.poses.length := by
            unfold MocapAnimation.frames; simp
          omega
      · intro img img1 g fs hP hfl k hk
        exact (framesLoop_keep toUnsigned anim g fs img img1 hfl).2 _ (hP k hk)

/-! ## Definedness of `computeVoxels` and the example segment -/

theorem writeVoxel_defined (img : CImg) (hlen : img.length = 8000) (c : ℕ × ℕ × ℕ)
    (h1 : c.1 < 20) (h2 : c.2.1 < 20) (h3 : c.2.2 < 20) :
    writeVoxel img c = some (img.set (c.1 + 20 * c.2.1 + 400 * c.2.2) 1) := by
  unfold writeVoxel
  rw [if_pos (by rw [hlen]; omega)]

/-- Inside the grid every step of `computeVoxels` returns an image. -/
theorem voxelStep_defined (toUnsigned : Int → ℕ) (anim : MocapAnimation)
    (hin : inGrid toUnsigned anim) (n f : ℕ) (hn : n < 31) (hf1 : 1 ≤ f)
    (hf : f < anim.poses.length) (img : CImg) (hlen : img.length = 8000) :
    ∃ img', voxelStep toUnsigned anim n f img = some img' := by
  obtain ⟨p, c, hp, hc, c1, c2, c3⟩ := hin n hn f hf
  obtain ⟨q, d, hq, hd, -, -, -⟩ := hin n hn (f - 1) (by omega)
  unfold voxelStep
  rw [hp, hq]
  simp only [hc, hd]
  split_ifs
  · exact ⟨_, writeVoxel_defined img hlen c c1 c2 c3⟩
  · exact ⟨_, rfl⟩

theorem framesLoop_defined (toUnsigned : Int → ℕ) (anim : MocapAnimation)
    (hin : inGrid toUnsigned anim) (n : ℕ) (hn : n < 31) :
    ∀ (fs : List ℕ) (img : CImg), (∀ f ∈ fs, 1 ≤ f ∧ f < anim.poses.length) →
      img.length = 8000 → ∃ img', framesLoop toUnsigned anim n fs img = some img' := by
  intro fs
  induction fs with
  | nil => intro img _ _; exact ⟨img, rfl⟩
  | cons f rest ih =>
    intro img hfs hlen
    obtain ⟨h1, h2⟩ := hfs f (List.mem_cons_self _ _)
    obtain ⟨m1, hm1⟩ := voxelStep_defined toUnsigned anim hin n f hn h1 h2 img hlen
    obtain ⟨img', h'⟩ := ih m1 (fun g hg => hfs g (List.mem_cons_of_mem _ hg))
      (by rw [(voxelStep_keep hm1).1, hlen])
    refine ⟨img', ?_⟩
    rw [framesLoop, hm1]
    exact h'

theorem frames_toNat (anim : MocapAnimation) : anim.frames.toNat = anim.poses.length := by
  unfold MocapAnimation.frames; simp

theorem nodesLoop_defined (toUnsigned : Int → ℕ) (anim : MocapAnimation)
    (hin : inGrid toUnsigned anim) :
    ∀ (ns : List ℕ) (img : CImg), (∀ n ∈ ns, n < 31) → img.length = 8000 →
      ∃ img', nodesLoop toUnsigned anim ns img = some img' := by
  intro ns
  induction ns with
  | nil => intro img _ _; exact ⟨img, rfl⟩
  | cons n rest ih =>
    intro img hns hlen
    obtain ⟨m1, hm1⟩ := framesLoop_defined toUnsigned anim hin n
      (hns n (List.mem_cons_self _ _)) (List.range' 1 (anim.frames.toNat - 1)) img (by
        intro f hf
        rw [List.mem_range', frames_toNat] at hf
        obtain ⟨i, hi, rfl⟩ := hf
        omega) hlen
    obtain ⟨img', h'⟩ := ih m1 (fun g hg => hns g (List.mem_cons_of_mem _ hg))
      (by rw [(framesLoop_keep toUnsigned anim n _ img m1 hm1).1, hlen])
    refine ⟨img', ?_⟩
    rw [nodesLoop, hm1]
    exact h'

/-- Inside the grid `computeVoxels` returns the identifier and an image of 8000 cells. -/
theorem computeVoxels_defined (toUnsigned : Int → ℕ) (anim : MocapAnimation)
    (hin : inGrid toUnsigned anim) :
    ∃ g : CImg, computeVoxels toUnsigned anim = some (anim.id, g) ∧ g.length = 8000 := by
  obtain ⟨g, hg⟩ := nodesLoop_defined toUnsigned anim hin (List.range 31)
    (List.replicate 8000 0) (fun n hn => List.mem_range.1 hn) (List.length_replicate _ _)
  refine ⟨g, ?_, ?_⟩
  · unfold computeVoxels
    rw [hg]
    rfl
  · rw [(nodesLoop_keep toUnsigned anim _ _ _ hg).1, List.length_replicate]

namespace F32

theorem nearbyintf_intCast (z : ℤ) : nearbyintf (fin (z : ℚ)) = fin (z : ℚ) := by
  show fin ((rne (z : ℚ) : ℤ) : ℚ) = _
  rw [rne_intCast]

theorem toInt_intCast (z : ℤ) (h1 : -2 ^ 31 ≤ z) (h2 : z < 2 ^ 31) :
    toInt (fin (z : ℚ)) = some z := by
  have e : (if (0 : ℚ) ≤ (z : ℚ) then ⌊(z : ℚ)⌋ else ⌈(z : ℚ)⌉) = z := by
    split_ifs <;> simp
  dsimp only [toInt]
  rw [e, if_pos ⟨h1, h2⟩]

theorem roundQ_tenth : roundQ (1 / 10) = 13421773 / 2 ^ 27 := by
  rw [roundQ_eq_of (-4) 13421773 (by norm_num) (by norm_num [abs_of_pos])
    (by norm_num [abs_of_pos]) (by norm_num) (by norm_num)]
  norm_num

/-- The factor `1.f / 10.0f` is the float `13421773 / 2^27`, slightly above one tenth. -/
theorem div_one_ten : div (lit 1) (lit 10) = fin (13421773 / 2 ^ 27) := by
  have h10 : lit 10 = fin 10 := by simpa [lit] using round_natCast 10 (by norm_num)
  rw [lit_one, h10]
  rw [div_of_ne_zero 1 10 (by norm_num), round_eq_fin] <;> rw [roundQ_tenth]
  norm_num [abs_of_pos]

theorem roundQ_five : roundQ (50 * (13421773 / 2 ^ 27)) = 5 := by
  rw [roundQ_eq_of 2 10485760 (by norm_num) (by norm_num [abs_of_pos])
    (by norm_num [abs_of_pos]) (by norm_num) (by norm_num)]
  norm_num

end F32

theorem toGridAxis_neg20 : toGridAxis (F32.fin (-20)) = F32.fin 0 := by
  unfold toGridAxis
  have h20 : F32.lit 20 = F32.fin 20 := by
    simpa [F32.lit] using F32.round_natCast 20 (by norm_num)
  have h5 : F32.lit 5 = F32.fin 5 := by
    simpa [F32.lit] using F32.round_natCast 5 (by norm_num)
  rw [h20, h5, F32.div_one_ten]
  show F32.mul (F32.mul (F32.round (-20 + 20)) (F32.fin 5)) _ = _
  rw [show (-20 + 20 : ℚ) = 0 by norm_num, F32.round_zero]
  show F32.mul (F32.round (0 * 5)) _ = _
  rw [zero_mul, F32.round_zero]
  show F32.round (0 * _) = _
  rw [zero_mul, F32.round_zero]

theorem toGridAxis_neg10 : toGridAxis (F32.fin (-10)) = F32.fin 5 := by
  unfold toGridAxis
  have h20 : F32.lit 20 = F32.fin 20 := by
    simpa [F32.lit] using F32.round_natCast 20 (by norm_num)
  have h5 : F32.lit 5 = F32.fin 5 := by
    simpa [F32.lit] using F32.round_natCast 5 (by norm_num)
  have r10 : F32.round 10 = F32.fin 10 := by
    simpa using F32.round_natCast 10 (by norm_num)
  have r50 : F32.round 50 = F32.fin 50 := by
    simpa using F32.round_natCast 50 (by norm_num)
  rw [h20, h5, F32.div_one_ten]
  show F32.mul (F32.mul (F32.round (-10 + 20)) (F32.fin 5)) _ = _
  rw [show (-10 + 20 : ℚ) = 10 by norm_num, r10]
  show F32.mul (F32.round (10 * 5)) _ = _
  rw [show (10 * 5 : ℚ) = 50 by norm_num, r50]
  show F32.round (50 * (13421773 / 2 ^ 27)) = _
  rw [F32.round_eq_fin] <;> rw [F32.roundQ_five]
  norm_num [abs_of_pos]

theorem voxelCoord_of_axes (toUnsigned : Int → ℕ) (p : Vec3f) (x y z : ℤ)
    (hx : toGridAxis p.1 = F32.fin (x : ℚ)) (hy : toGridAxis p.2.1 = F32.fin (y : ℚ))
    (hz : toGridAxis p.2.2 = F32.fin (z : ℚ))
    (bx : -2 ^ 31 ≤ x ∧ x < 2 ^ 31) (by' : -2 ^ 31 ≤ y ∧ y < 2 ^ 31)
    (bz : -2 ^ 31 ≤ z ∧ z < 2 ^ 31) :
    voxelCoord toUnsigned p = some (toUnsigned x, toUnsigned y, toUnsigned z) := by
  unfold voxelCoord toGrid
  simp only [hx, hy, hz, F32.nearbyintf_intCast, F32.toInt_intCast _ bx.1 bx.2,
    F32.toInt_intCast _ by'.1 by'.2, F32.toInt_intCast _ bz.1 bz.2]

/-- The position `(-20,-20,-20)` has the rounded grid coordinates `(0,0,0)`. -/
theorem voxelCoord_neg20 (toUnsigned : Int → ℕ) (h : ∀ v : Int, 0 ≤ v → toUnsigned v = v.toNat) :
    voxelCoord toUnsigned (F32.fin (-20), F32.fin (-20), F32.fin (-20)) = some (0, 0, 0) := by
  have := voxelCoord_of_axes toUnsigned (F32.fin (-20), F32.fin (-20), F32.fin (-20)) 0 0 0
    (by simpa using toGridAxis_neg20) (by simpa using toGridAxis_neg20)
    (by simpa using toGridAxis_neg20) (by norm_num) (by norm_num) (by norm_num)
  rw [this, h 0 (le_refl _)]
  rfl

/-- The position `(-10,-10,-10)` has the rounded grid coordinates `(5,5,5)`. -/
theorem voxelCoord_neg10 (toUnsigned : Int → ℕ) (h : ∀ v : Int, 0 ≤ v → toUnsigned v = v.toNat) :
    voxelCoord toUnsigned (F32.fin (-10), F32.fin (-10), F32.fin (-10)) = some (5, 5, 5) := by
  have := voxelCoord_of_axes toUnsigned (F32.fin (-10), F32.fin (-10), F32.fin (-10)) 5 5 5
    (by simpa using toGridAxis_neg10) (by simpa using toGridAxis_neg10)
    (by simpa using toGridAxis_neg10) (by norm_num) (by norm_num) (by norm_num)
  rw [this, h 5 (by norm_num)]
  rfl

theorem exampleLine_posAt_zero (n : ℕ) (hn : n < 31) :
    exampleLineAnim.posAt n 0 = some (F32.fin (-20), F32.fin (-20), F32.fin (-20)) := by
  show (List.replicate 31 (F32.fin (-20), F32.fin (-20), F32.fin (-20))).get? n = some _
  rw [List.get?_eq_getElem?, List.getElem?_replicate, if_pos hn]

theorem exampleLine_posAt_one (n : ℕ) (hn : n < 31) :
    exampleLineAnim.posAt n 1 = some (F32.fin (-10), F32.fin (-10), F32.fin (-10)) := by
  show (List.replicate 31 (F32.fin (-10), F32.fin (-10), F32.fin (-10))).get? n = some _
  rw [List.get?_eq_getElem?, List.getElem?_replicate, if_pos hn]

theorem exampleLine_inGrid (toUnsigned : Int → ℕ)
    (h : ∀ v : Int, 0 ≤ v → toUnsigned v = v.toNat) : inGrid toUnsigned exampleLineAnim := by
  intro n hn f hf
  have hf2 : f < 2 := hf
  interval_cases f
  · exact ⟨_, _, exampleLine_posAt_zero n hn, voxelCoord_neg20 toUnsigned h, by norm_num,
      by norm_num, by norm_num⟩
  · exact ⟨_, _, exampleLine_posAt_one n hn, voxelCoord_neg10 toUnsigned h, by norm_num,
      by norm_num, by norm_num⟩

/-- C8 (with `draw_line` modelled from the spec): for an animation in which a joint `n` has
the rounded grid coordinates `(0,0,0)` at frame `f-1` and `(5,5,5)` at frame `f`, every grid
returned by `computeVoxels` has all the voxels `(k,k,k)`, `k = 0..5`, occupied; such a grid is
returned whenever all positions of the animation round inside the grid; and the positions
`(-20,-20,-20)` and `(-10,-10,-10)` have these rounded coordinates. -/
theorem C8_line_rasterisation (toUnsigned : Int → ℕ)
    (hsat : ∀ v : Int, 0 ≤ v → toUnsigned v = v.toNat) (anim : MocapAnimation)
    (n f : ℕ) (hn : n < 31) (hf1 : 1 ≤ f)
    (hf : f < anim.poses.length) (p q : Vec3f)
    (hq : anim.posAt n (f - 1) = some q) (hp : anim.posAt n f = some p)
    (hcq : voxelCoord toUnsigned q = some (0, 0, 0))
    (hcp : voxelCoord toUnsigned p = some (5, 5, 5)) :
    (∀ r : Int × CImg, computeVoxels toUnsigned anim = some r →
      ∀ k : ℕ, k ≤ 5 → r.2[k + 20 * k + 400 * k]? = some 1) ∧
    (inGrid toUnsigned anim →
      ∃ g : CImg, computeVoxels toUnsigned anim = some (anim.id, g) ∧
        ∀ k : ℕ, k ≤ 5 → g[k + 20 * k + 400 * k]? = some 1) ∧
    voxelCoord toUnsigned (F32.fin (-20), F32.fin (-20), F32.fin (-20)) = some (0, 0, 0) ∧
    voxelCoord toUnsigned (F32.fin (-10), F32.fin (-10), F32.fin (-10)) = some (5, 5, 5) := by
  refine ⟨fun r hr => (computeVoxels_line toUnsigned anim n f hn hf1 hf p q hq hp hcq hcp r
    hr).2.2, ?_, voxelCoord_neg20 toUnsigned hsat, voxelCoord_neg10 toUnsigned hsat⟩
  intro hin
  obtain ⟨g, hg, -⟩ := computeVoxels_defined toUnsigned anim hin
  exact ⟨g, hg, (computeVoxels_line toUnsigned anim n f hn hf1 hf p q hq hp hcq hcp _ hg).2.2⟩

theorem C8_line_rasterisation_witness :
    inGrid saturate_cast_unsigned exampleLineAnim ∧
    exampleLineAnim.posAt 0 0 = some (F32.fin (-20), F32.fin (-20), F32.fin (-20)) ∧
    exampleLineAnim.posAt 0 1 = some (F32.fin (-10), F32.fin (-10), F32.fin (-10)) ∧
    ∃ g : CImg, computeVoxels saturate_cast_unsigned exampleLineAnim =
        some (exampleLineAnim.id, g) ∧
      ∀ k : ℕ, k ≤ 5 → g[k + 20 * k + 400 * k]? = some 1 :=
  ⟨exampleLine_inGrid _ (fun _ _ => rfl), exampleLine_posAt_zero 0 (by norm_num),
    exampleLine_posAt_one 0 (by norm_num),
    (C8_line_rasterisation saturate_cast_unsigned (fun _ _ => rfl) exampleLineAnim
      0 1 (by norm_num) (le_refl 1) (by decide) _ _
      (exampleLine_posAt_zero 0 (by norm_num)) (exampleLine_posAt_one 0 (by norm_num))
      (voxelCoord_neg20 _ (fun _ _ => rfl)) (voxelCoord_neg10 _ (fun _ _ => rfl))).2.1
      (exampleLine_inGrid _ (fun _ _ => rfl))⟩

/-! ## Identical trajectories -/

theorem voxelStep_congr (toUnsigned : Int → ℕ) (a b : MocapAnimation) (h : a.poses = b.poses)
    (n f : ℕ) (img : CImg) :
    voxelStep toUnsigned a n f img = voxelStep toUnsigned b n f img := by
  unfold voxelStep MocapAnimation.posAt
  rw [h]

theorem framesLoop_congr (toUnsigned : Int → ℕ) (a b : MocapAnimation) (h : a.poses = b.poses)
    (n : ℕ) : ∀ (fs : List ℕ) (img : CImg),
      framesLoop toUnsigned a n fs img = framesLoop toUnsigned b n fs img := by
  intro fs
  induction fs with
  | nil => intro img; rfl
  | cons f rest ih =>
    intro img
    rw [framesLoop, framesLoop, voxelStep_congr toUnsigned a b h]
    cases voxelStep toUnsigned b n f img with
    | none => rfl
    | some m1 => exact ih m1

theorem nodesLoop_congr (toUnsigned : Int → ℕ) (a b : MocapAnimation) (h : a.poses = b.poses) :
    ∀ (ns : List ℕ) (img : CImg),
      nodesLoop toUnsigned a ns img = nodesLoop toUnsigned b ns img := by
  have hfr : a.frames = b.frames := by unfold MocapAnimation.frames; rw [h]
  intro ns
  induction ns with
  | nil => intro img; rfl
  | cons n rest ih =>
    intro img
    rw [nodesLoop, nodesLoop, hfr, framesLoop_congr toUnsigned a b h]
    cases framesLoop toUnsigned b n (List.range' 1 (b.frames.toNat - 1)) img with
    | none => rfl
    | some m1 => exact ih m1

/-- The grid of `computeVoxels` depends on the joint trajectories only, not on the
identifier. -/
theorem computeVoxels_congr (toUnsigned : Int → ℕ) (a b : MocapAnimation)
    (h : a.poses = b.poses) :
    (computeVoxels toUnsigned a).map Prod.snd = (computeVoxels toUnsigned b).map Prod.snd := by
  unfold computeVoxels
  rw [nodesLoop_congr toUnsigned a b h]
  cases nodesLoop toUnsigned b (List.range 31) (List.replicate 8000 0) <;> rfl

theorem nodesLoop_few_frames (toUnsigned : Int → ℕ) (anim : MocapAnimation)
    (h : anim.poses.length ≤ 1) :
    ∀ (ns : List ℕ) (img : CImg), nodesLoop toUnsigned anim ns img = some img := by
  have hr : List.range' 1 (anim.frames.toNat - 1) = [] := by
    rw [frames_toNat]
    have : anim.poses.length - 1 = 0 := by omega
    rw [this]
    rfl
  intro ns
  induction ns with
  | nil => intro img; rfl
  | cons n rest ih =>
    intro img
    rw [nodesLoop, hr]
    exact ih img

/-- An animation with at most one frame has the grid without any occupied voxel. -/
theorem computeVoxels_few_frames (toUnsigned : Int → ℕ) (anim : MocapAnimation)
    (h : anim.poses.length ≤ 1) :
    computeVoxels toUnsigned anim = some (anim.id, List.replicate 8000 0) := by
  unfold computeVoxels
  rw [nodesLoop_few_frames toUnsigned anim h]
  rfl

theorem lineCoord_zero (a b dmax : Int) (h : 0 ≤ dmax) : lineCoord a b 0 dmax = a := by
  unfold lineCoord
  rcases eq_or_lt_of_le h with h0 | hpos
  · rw [← h0]; simp
  · have : (2 * (b - a) * ((0 : ℕ) : Int) + dmax) / (2 * dmax) = 0 := by
      apply Int.ediv_eq_zero_of_lt <;> simp <;> omega
    rw [this]; simp

/-- The first sample of a line is its starting voxel. -/
theorem draw_line_start (img : CImg) (hlen : img.length = 8000) (x0 y0 z0 x1 y1 z1 : Int)
    (hb : 0 ≤ x0 ∧ x0 < 20 ∧ 0 ≤ y0 ∧ y0 < 20 ∧ 0 ≤ z0 ∧ z0 < 20) :
    (draw_line img x0 y0 z0 x1 y1 z1 1)[(x0 + 20 * y0 + 400 * z0).toNat]? = some 1 := by
  unfold draw_line
  have hd : 0 ≤ max (max |x1 - x0| |y1 - y0|) |z1 - z0| :=
    le_trans (abs_nonneg _) (le_max_right _ _)
  have := drawSamples_sets
    (fun t => lineCoord x0 x1 t (max (max |x1 - x0| |y1 - y0|) |z1 - z0|))
    (fun t => lineCoord y0 y1 t (max (max |x1 - x0| |y1 - y0|) |z1 - z0|))
    (fun t => lineCoord z0 z1 t (max (max |x1 - x0| |y1 - y0|) |z1 - z0|))
    (List.range ((max (max |x1 - x0| |y1 - y0|) |z1 - z0|).toNat + 1)) img hlen 0
    (List.mem_range.2 (by omega))
    (by simp only [lineCoord_zero _ _ _ hd]; exact hb)
  simp only [lineCoord_zero _ _ _ hd] at this
  exact this

/-- Inside the grid an animation of at least two frames has an occupied voxel. -/
theorem computeVoxels_occupied (toUnsigned : Int → ℕ) (anim : MocapAnimation)
    (hin : inGrid toUnsigned anim) (hframes : 2 ≤ anim.poses.length) (r : Int × CImg)
    (hdef : computeVoxels toUnsigned anim = some r) : (1 : Int) ∈ r.2 := by
  unfold computeVoxels at hdef
  cases hs : nodesLoop toUnsigned anim (List.range 31) (List.replicate 8000 0) with
  | none => rw [hs] at hdef; exact Option.noConfusion hdef
  | some img' =>
    rw [hs] at hdef
    have := Option.some.inj hdef
    subst this
    have hP : ∃ i : ℕ, img'[i]? = some 1 := by
      refine nodesLoop_step toUnsigned anim 0 (fun img => ∃ i : ℕ, img[i]? = some 1) ?_ ?_
        (List.range 31) _ img' (List.mem_range.2 (by norm_num)) (List.length_replicate _ _) hs
      · intro img img1 hlen hfl
        refine framesLoop_step toUnsigned anim 0 1 (fun img => ∃ i : ℕ, img[i]? = some 1)
          ?_ ?_ _ img img1 ?_ hlen hfl
        · intro im im' hl hstep
          obtain ⟨p, c, hp, hc, c1, c2, c3⟩ := hin 0 (by norm_num) 1 (by omega)
          obtain ⟨q, d, hq, hd, d1, d2, d3⟩ := hin 0 (by norm_num) 0 (by omega)
          unfold voxelStep at hstep
          rw [hp, show (1 : ℕ) - 1 = 0 from rfl, hq] at hstep
          simp only [hc, hd] at hstep
          split_ifs at hstep with heq
          · rw [writeVoxel_defined im hl c c1 c2 c3] at hstep
            have := Option.some.inj hstep
            subst this
            exact ⟨_, List.getElem?_set_self (by rw [hl]; omega)⟩
          · have := Option.some.inj hstep
            subst this
            rw [toIntArg_small d.1 (by omega), toIntArg_small d.2.1 (by omega),
              toIntArg_small d.2.2 (by omega)]
            exact ⟨_, draw_line_start im hl _ _ _ _ _ _ (by omega)⟩
        · intro im im' g hP hstep
          obtain ⟨i, hi⟩ := hP
          exact ⟨i, (voxelStep_keep hstep).2 i hi⟩
        · rw [List.mem_range', frames_toNat]
          exact ⟨0, by omega, rfl⟩
      · intro img img1 g fs hP hfl
        obtain ⟨i, hi⟩ := hP
        exact ⟨i, (framesLoop_keep toUnsigned anim g fs img img1 hfl).2 i hi⟩
    obtain ⟨i, hi⟩ := hP
    exact List.mem_iff_getElem?.2 ⟨i, hi⟩

/-! ## The descriptor store -/

theorem computeVoxels_fst {toUnsigned : Int → ℕ} {anim : MocapAnimation} {r : Int × CImg}
    (h : computeVoxels toUnsigned anim = some r) : r.1 = anim.id := by
  unfold computeVoxels at h
  cases hs : nodesLoop toUnsigned anim (List.range 31) (List.replicate 8000 0) with
  | none => rw [hs] at h; exact Option.noConfusion h
  | some img' =>
    rw [hs] at h
    have := Option.some.inj h
    subst this
    rfl

theorem computeDescriptors_get (toUnsigned : Int → ℕ) :
    ∀ (anims : List MocapAnimation) (results : List (Int × CImg)),
      computeDescriptors toUnsigned anims = some results →
      results.length = anims.length ∧
      ∀ (i : ℕ) (h : i < anims.length) (h' : i < results.length),
        computeVoxels toUnsigned (anims.get ⟨i, h⟩) = some (results.get ⟨i, h'⟩) := by
  intro anims
  induction anims with
  | nil =>
    intro results h
    have := Option.some.inj h
    subst this
    exact ⟨rfl, fun i h _ => absurd h (Nat.not_lt_zero i)⟩
  | cons a rest ih =>
    intro results h
    rw [computeDescriptors] at h
    cases h1 : computeVoxels toUnsigned a with
    | none => rw [h1] at h; exact Option.noConfusion h
    | some r =>
      cases h2 : computeDescriptors toUnsigned rest with
      | none => rw [h1, h2] at h; exact Option.noConfusion h
      | some rs =>
        rw [h1, h2] at h
        have := Option.some.inj h
        subst this
        obtain ⟨l, g⟩ := ih rs h2
        refine ⟨by simp [l], ?_⟩
        intro i hi hi'
        cases i with
        | zero => exact h1
        | succ k => exact g k (by simpa using hi) (by simpa using hi')

theorem computeDescriptors_defined (toUnsigned : Int → ℕ) :
    ∀ (anims : List MocapAnimation), (∀ a ∈ anims, inGrid toUnsigned a) →
      ∃ results, computeDescriptors toUnsigned anims = some results := by
  intro anims
  induction anims with
  | nil => intro _; exact ⟨[], rfl⟩
  | cons a rest ih =>
    intro hin
    obtain ⟨g, hg, -⟩ := computeVoxels_defined toUnsigned a (hin a (List.mem_cons_self _ _))
    obtain ⟨rs, hrs⟩ := ih (fun x hx => hin x (List.mem_cons_of_mem _ hx))
    refine ⟨(a.id, g) :: rs, ?_⟩
    rw [computeDescriptors, hg, hrs]

theorem onComputeDescFinished_other :
    ∀ (results : List (Int × CImg)) (d : Int → CImg) (key : Int),
      (∀ r ∈ results, r.1 ≠ key) → onComputeDescFinished results d key = d key := by
  intro results
  induction results with
  | nil => intro d key _; rfl
  | cons r rs ih =>
    intro d key h
    unfold onComputeDescFinished
    rw [List.foldl_cons]
    have := ih (fun k => if k = r.1 then r.2 else d k) key
      (fun x hx => h x (List.mem_cons_of_mem _ hx))
    unfold onComputeDescFinished at this
    rw [this]
    exact if_neg (fun e => h r (List.mem_cons_self _ _) e.symm)

/-- When the keys of the results are the positions (from `p` on), the store maps each key to
the grid of its result. -/
theorem onComputeDescFinished_positions :
    ∀ (results : List (Int × CImg)) (p : ℕ) (d : Int → CImg),
      (∀ (i : ℕ) (h : i < results.length), (results.get ⟨i, h⟩).1 = ((p + i : ℕ) : Int)) →
      ∀ (i : ℕ) (h : i < results.length),
        onComputeDescFinished results d ((p + i : ℕ) : Int) = (results.get ⟨i, h⟩).2 := by
  intro results
  induction results with
  | nil => intro p d _ i h; exact absurd h (Nat.not_lt_zero i)
  | cons r rs ih =>
    intro p d hkeys i h
    have hstep : onComputeDescFinished (r :: rs) d =
        onComputeDescFinished rs (fun k => if k = r.1 then r.2 else d k) := by
      unfold onComputeDescFinished
      rw [List.foldl_cons]
    rw [hstep]
    have hkeys' : ∀ (k : ℕ) (hk : k < rs.length),
        (rs.get ⟨k, hk⟩).1 = ((p + 1 + k : ℕ) : Int) := by
      intro k hk
      have := hkeys (k + 1) (by simpa using hk)
      simp only [List.get_eq_getElem, List.getElem_cons_succ] at this ⊢
      rw [this]
      congr 1
      omega
    cases i with
    | zero =>
      have hr : r.1 = ((p : ℕ) : Int) := by simpa using hkeys 0 (by simp)
      rw [onComputeDescFinished_other rs _ _ (by
        intro x hx
        obtain ⟨⟨k, hk⟩, rfl⟩ := List.mem_iff_get.1 hx
        rw [hkeys' k hk]
        simp only [Nat.add_zero]
        intro e
        have : p + 1 + k = p := by exact_mod_cast e
        omega)]
      simp [hr]
    | succ k =>
      have := ih (p + 1) (fun key => if key = r.1 then r.2 else d key) hkeys' k
        (by simpa using h)
      rw [show p + (k + 1) = p + 1 + k by omega]
      simpa using this

/-! ## Claim on identical trajectories -/

theorem inGrid_congr (toUnsigned : Int → ℕ) (a b : MocapAnimation) (h : a.poses = b.poses)
    (ha : inGrid toUnsigned a) : inGrid toUnsigned b := by
  unfold inGrid MocapAnimation.posAt at *
  rw [← h]
  exact ha

/-- On a collection whose identifiers are the positions, the store filled from the results
of `computeDescriptors` maps every identifier to the grid of its animation. -/
theorem descriptors_positions (toUnsigned : Int → ℕ) (anims : List MocapAnimation)
    (hids : idsArePositions anims) (results : List (Int × CImg))
    (hres : computeDescriptors toUnsigned anims = some results) (k : ℕ)
    (hk : k < anims.length) :
    ∃ g : CImg, computeVoxels toUnsigned (anims.get ⟨k, hk⟩) = some ((k : Int), g) ∧
      onComputeDescFinished results emptyDescriptors (k : Int) = g := by
  obtain ⟨hl, hg⟩ := computeDescriptors_get toUnsigned anims results hres
  have hkeys : ∀ (i : ℕ) (h : i < results.length),
      (results.get ⟨i, h⟩).1 = ((0 + i : ℕ) : Int) := by
    intro i h
    have h1 := hg i (by omega) h
    rw [computeVoxels_fst h1, hids i (by omega)]
    simp
  have hk' : k < results.length := by omega
  refine ⟨(results.get ⟨k, hk'⟩).2, ?_, ?_⟩
  · rw [hg k hk hk']
    congr 1
    have := hkeys k hk'
    simp only [Nat.zero_add] at this
    exact Prod.ext this rfl
  · have := onComputeDescFinished_positions results 0 emptyDescriptors hkeys k hk'
    simpa using this

/-- Cells of the matrix after a full run on a collection whose identifiers are the
positions. -/
theorem full_run_positions (anims : List MocapAnimation) (descriptors : Int → CImg)
    (schedule : List MocapAnimation) (hids : idsArePositions anims)
    (hperm : schedule.Perm anims) :
    ∃ m, computeAllDistances schedule (setAnimations anims) anims descriptors = some m ∧
      ∀ i j : ℕ, i < anims.length → j < anims.length → i ≠ j →
        m.cell i j = pairDist descriptors i j := by
  obtain ⟨m, h1, -, -, h4⟩ := computeAllDistances_positions anims descriptors hids schedule
    (setAnimations anims) (fun _ => False) (fun x hx => hperm.mem_iff.1 hx) rfl rfl
    (fun _ _ _ h => h.elim)
  refine ⟨m, h1, ?_⟩
  intro i j hi hj hij
  apply h4 i j hij
  right
  have hmax : max i j < anims.length := max_lt hi hj
  exact ⟨anims.get ⟨max i j, hmax⟩, hperm.mem_iff.2 (List.get_mem _ _ _), hids _ hmax⟩

theorem pairDist_same (descriptors : Int → CImg) (i j : ℕ) (g : CImg)
    (hi : descriptors (i : Int) = g) (hj : descriptors (j : Int) = g) :
    pairDist descriptors i j = computeDist g g := by
  unfold pairDist
  rcases le_total i j with h | h
  · rw [min_eq_left h, max_eq_right h, hi, hj]
  · rw [min_eq_right h, max_eq_left h, hi, hj]

theorem exampleAnims_poses :
    ∀ a ∈ exampleAnims, a.poses.length ≤ 1 := by
  intro a ha
  simp only [exampleAnims, List.mem_cons, List.mem_singleton, List.not_mem_nil, or_false] at ha
  rcases ha with rfl | rfl | rfl <;> simp

/-- C9 (counterexample): the animations 0 and 1 of `exampleAnims` have identical (empty)
trajectories and different identifiers; their grids are identical, without any occupied
voxel, and after a full run the cell between their identifiers is NaN, not `1.0f`. -/
theorem C9_counterexample :
    (exampleAnims.get ⟨0, by decide⟩).poses = (exampleAnims.get ⟨1, by decide⟩).poses ∧
    (exampleAnims.get ⟨0, by decide⟩).id ≠ (exampleAnims.get ⟨1, by decide⟩).id ∧
    computeVoxels saturate_cast_unsigned (exampleAnims.get ⟨0, by decide⟩) =
      some (0, List.replicate 8000 0) ∧
    computeVoxels saturate_cast_unsigned (exampleAnims.get ⟨1, by decide⟩) =
      some (1, List.replicate 8000 0) ∧
    ∃ results m, computeDescriptors saturate_cast_unsigned exampleAnims = some results ∧
      computeAllDistances exampleAnims (setAnimations exampleAnims) exampleAnims
        (onComputeDescFinished results emptyDescriptors) = some m ∧
      m.cell 0 1 = F32.nan ∧ m.cell 0 1 ≠ F32.fin 1 := by
  have h0 := computeVoxels_few_frames saturate_cast_unsigned (exampleAnims.get ⟨0, by decide⟩)
    (exampleAnims_poses _ (List.get_mem _ _ _))
  have h1 := computeVoxels_few_frames saturate_cast_unsigned (exampleAnims.get ⟨1, by decide⟩)
    (exampleAnims_poses _ (List.get_mem _ _ _))
  refine ⟨rfl, by decide, h0, h1, ?_⟩
  obtain ⟨results, hres⟩ := computeDescriptors_defined saturate_cast_unsigned exampleAnims (by
    intro a ha n _ f hf
    have := exampleAnims_poses a ha
    simp only [exampleAnims, List.mem_cons, List.mem_singleton, List.not_mem_nil,
      or_false] at ha
    rcases ha with rfl | rfl | rfl <;> simp at hf)
  obtain ⟨g0, e0, d0⟩ := descriptors_positions saturate_cast_unsigned exampleAnims
    exampleAnims_positions results hres 0 (by decide)
  obtain ⟨g1, e1, d1⟩ := descriptors_positions saturate_cast_unsigned exampleAnims
    exampleAnims_positions results hres 1 (by decide)
  rw [h0] at e0
  rw [h1] at e1
  have hg0 : g0 = List.replicate 8000 0 := by
    have := Option.some.inj e0
    exact (congrArg Prod.snd this).symm
  have hg1 : g1 = List.replicate 8000 0 := by
    have := Option.some.inj e1
    exact (congrArg Prod.snd this).symm
  obtain ⟨m, hm, hcell⟩ := full_run_positions exampleAnims
    (onComputeDescFinished results emptyDescriptors) exampleAnims exampleAnims_positions
    (List.Perm.refl _)
  have hnan : m.cell 0 1 = F32.nan := by
    rw [hcell 0 1 (by decide) (by decide) (by decide),
      pairDist_same _ 0 1 (List.replicate 8000 0) (by rw [← hg0]; exact d0)
        (by rw [← hg1]; exact d1)]
    apply computeDist_both_empty _ _ rfl
    · intro v hv; exact Or.inl (List.eq_of_mem_replicate hv)
    · intro v hv; exact Or.inl (List.eq_of_mem_replicate hv)
    · intro h; have := List.eq_of_mem_replicate h; omega
    · intro h; have := List.eq_of_mem_replicate h; omega
  exact ⟨results, m, hres, hm, hnan, by rw [hnan]; simp⟩

/-- C9 (amended): two animations with identical joint trajectories always get identical
occupancy grids from `computeVoxels`, whatever their identifiers; and in a collection whose
identifiers are the positions and whose positions all round inside the grid, for two such
animations whose trajectory has at least two frames, the descriptors are computed and after
a full run in any order the matrix cell between their two identifiers is `1.0f`. -/
theorem C9_identical_trajectories (toUnsigned : Int → ℕ) (anims : List MocapAnimation)
    (hids : idsArePositions anims) (hin : ∀ a ∈ anims, inGrid toUnsigned a)
    (i j : ℕ) (hi : i < anims.length) (hj : j < anims.length) (hij : i ≠ j)
    (hposes : (anims.get ⟨i, hi⟩).poses = (anims.get ⟨j, hj⟩).poses)
    (hframes : 2 ≤ (anims.get ⟨i, hi⟩).poses.length)
    (schedule : List MocapAnimation) (hperm : schedule.Perm anims) :
    (∀ a b : MocapAnimation, a.poses = b.poses →
      (computeVoxels toUnsigned a).map Prod.snd = (computeVoxels toUnsigned b).map Prod.snd) ∧
    ∃ g results m,
      computeVoxels toUnsigned (anims.get ⟨i, hi⟩) = some ((i : Int), g) ∧
      computeVoxels toUnsigned (anims.get ⟨j, hj⟩) = some ((j : Int), g) ∧
      computeDescriptors toUnsigned anims = some results ∧
      computeAllDistances schedule (setAnimations anims) anims
        (onComputeDescFinished results emptyDescriptors) = some m ∧
      m.cell i j = F32.fin 1 ∧ m.cell j i = F32.fin 1 := by
  refine ⟨fun a b h => computeVoxels_congr toUnsigned a b h, ?_⟩
  obtain ⟨results, hres⟩ := computeDescriptors_defined toUnsigned anims hin
  obtain ⟨gi, ei, di⟩ := descriptors_positions toUnsigned anims hids results hres i hi
  obtain ⟨gj, ej, dj⟩ := descriptors_positions toUnsigned anims hids results hres j hj
  have hgg : gj = gi := by
    have := computeVoxels_congr toUnsigned _ _ hposes
    rw [ei, ej] at this
    exact (Option.some.inj this).symm
  subst hgg
  have hocc : (1 : Int) ∈ gj :=
    computeVoxels_occupied toUnsigned _ (hin _ (List.get_mem _ _ _)) hframes _ ei
  have hlen : gj.length < 2 ^ 62 := by
    obtain ⟨g', hg', hl'⟩ := computeVoxels_defined toUnsigned _ (hin _ (List.get_mem anims i hi))
    rw [ei] at hg'
    have : gj = g' := congrArg Prod.snd (Option.some.inj hg')
    rw [this, hl']
    norm_num
  obtain ⟨m, hm, hcell⟩ := full_run_positions anims
    (onComputeDescFinished results emptyDescriptors) schedule hids hperm
  refine ⟨gj, results, m, ei, ej, hres, hm, ?_, ?_⟩
  · rw [hcell i j hi hj hij, pairDist_same _ i j gj di dj]
    exact computeDist_self gj hocc hlen
  · rw [hcell j i hj hi (Ne.symm hij), pairDist_same _ j i gj dj di]
    exact computeDist_self gj hocc hlen

theorem exampleTwins_positions : idsArePositions exampleTwins := by
  intro i h
  have h2 : i < 2 := h
  interval_cases i <;> rfl

theorem exampleTwins_inGrid : ∀ a ∈ exampleTwins, inGrid saturate_cast_unsigned a := by
  intro a ha
  simp only [exampleTwins, List.mem_cons, List.mem_singleton, List.not_mem_nil, or_false] at ha
  rcases ha with rfl | rfl
  · exact exampleLine_inGrid _ (fun _ _ => rfl)
  · exact inGrid_congr _ exampleLineAnim _ rfl (exampleLine_inGrid _ (fun _ _ => rfl))

theorem C9_identical_trajectories_witness :
    idsArePositions exampleTwins ∧ (∀ a ∈ exampleTwins, inGrid saturate_cast_unsigned a) ∧
    (exampleTwins.get ⟨0, by decide⟩).poses = (exampleTwins.get ⟨1, by decide⟩).poses ∧
    2 ≤ (exampleTwins.get ⟨0, by decide⟩).poses.length ∧
    ∃ g results m,
      computeVoxels saturate_cast_unsigned (exampleTwins.get ⟨0, by decide⟩) = some (0, g) ∧
      computeVoxels saturate_cast_unsigned (exampleTwins.get ⟨1, by decide⟩) = some (1, g) ∧
      computeDescriptors saturate_cast_unsigned exampleTwins = some results ∧
      computeAllDistances exampleTwins (setAnimations exampleTwins) exampleTwins
        (onComputeDescFinished results emptyDescriptors) = some m ∧
      m.cell 0 1 = F32.fin 1 ∧ m.cell 1 0 = F32.fin 1 :=
  ⟨exampleTwins_positions, exampleTwins_inGrid, rfl, by decide,
    (C9_identical_trajectories saturate_cast_unsigned exampleTwins exampleTwins_positions
      exampleTwins_inGrid 0 1 (by decide) (by decide) (by decide) rfl (by decide) exampleTwins
      (List.Perm.refl _)).2⟩

/-! ## The trace of the loop of `computeDistToAll` -/

/-- Every cell of the trace joins the identifier of the animation with a smaller one. -/
theorem writtenCells_shape (anim : MocapAnimation) :
    ∀ (l : List MocapAnimation) (rc : Int × Int), rc ∈ writtenCells anim l →
      (rc.1 < rc.2 ∧ rc.2 = anim.getId) ∨ (rc.2 < rc.1 ∧ rc.1 = anim.getId) := by
  intro l
  induction l with
  | nil => intro rc h; simp [writtenCells] at h
  | cons it rest ih =>
    intro rc h
    rw [writtenCells] at h
    split_ifs at h with hgt
    · rcases List.mem_cons.1 h with rfl | h
      · exact Or.inl ⟨hgt, rfl⟩
      · rcases List.mem_cons.1 h with rfl | h
        · exact Or.inr ⟨hgt, rfl⟩
        · exact ih rc h
    · simp at h

/-- The cells of the trace come from the animations that stand before the first position at
which the test of the loop fails. -/
theorem writtenCells_index (anim : MocapAnimation) :
    ∀ (l : List MocapAnimation) (p : ℕ) (hp : p < l.length),
      ¬ anim.getId > (l.get ⟨p, hp⟩).getId → ∀ rc ∈ writtenCells anim l,
      ∃ i : ℕ, ∃ h : i < l.length, i < p ∧ anim.getId > (l.get ⟨i, h⟩).getId ∧
        (rc = ((l.get ⟨i, h⟩).getId, anim.getId) ∨ rc = (anim.getId, (l.get ⟨i, h⟩).getId)) := by
  intro l
  induction l with
  | nil => intro p hp; simp at hp
  | cons it rest ih =>
    intro p hp hstop rc h
    rw [writtenCells] at h
    split_ifs at h with hgt
    · cases p with
      | zero => exact absurd hgt hstop
      | succ p' =>
        have hp' : p' < rest.length := by simpa using hp
        rcases List.mem_cons.1 h with rfl | h
        · exact ⟨0, by simp, by omega, hgt, Or.inl rfl⟩
        · rcases List.mem_cons.1 h with rfl | h
          · exact ⟨0, by simp, by omega, hgt, Or.inr rfl⟩
          · obtain ⟨i, hi, hip, hgi, hrc⟩ := ih p' hp' hstop rc h
            exact ⟨i + 1, by simpa using hi, by omega, hgi, hrc⟩
    · simp at h

/-- The traces of two animations with different identifiers share no cell. -/
theorem writtenCells_disjoint (a b : MocapAnimation) (l : List MocapAnimation)
    (hab : a.getId ≠ b.getId) :
    ∀ rc, rc ∈ writtenCells a l → rc ∉ writtenCells b l := by
  intro rc ha hb
  have h1 := writtenCells_shape a l rc ha
  have h2 := writtenCells_shape b l rc hb
  omega

/-- The loop changes the cells of its trace, and no other cell: a cell of the trace receives
`computeDist(descriptors[smaller identifier], descriptors[larger identifier])`. -/
theorem loop_cells (anim : MocapAnimation) (descriptors : Int → CImg) :
    ∀ (l : List MocapAnimation) (m m' : Mat),
      computeDistToAllLoop anim descriptors l m = some m' →
      ∀ a b : ℕ, m'.cell a b =
        if ((a : Int), (b : Int)) ∈ writtenCells anim l then pairDist descriptors a b
        else m.cell a b := by
  intro l
  induction l with
  | nil => intro m m' h; simp [computeDistToAllLoop] at h
  | cons it rest ih =>
    intro m m' h a b
    rcases loop_cons_some h with ⟨hc, rfl⟩ | ⟨hc, i, k, e1, e2, -, -, -, -, hrec⟩
    · rw [writtenCells, if_neg hc]
      simp
    · rw [ih _ _ hrec a b, writtenCells, if_pos hc]
      have hik : i < k := by rw [e1, e2] at hc; exact_mod_cast hc
      have hv : computeDist (descriptors it.getId) (descriptors anim.getId) =
          pairDist descriptors i k := by
        unfold pairDist
        rw [min_eq_left hik.le, max_eq_right hik.le, e1, e2]
      have hv' : pairDist descriptors k i = pairDist descriptors i k := by
        unfold pairDist
        rw [min_comm, max_comm]
      by_cases hin : ((a : Int), (b : Int)) ∈ writtenCells anim rest
      · rw [if_pos hin, if_pos (List.mem_cons_of_mem _ (List.mem_cons_of_mem _ hin))]
      · rw [if_neg hin]
        simp only
        by_cases c1 : a = k ∧ b = i
        · rw [if_pos c1, if_pos]
          · rw [hv, c1.1, c1.2, hv']
          · rw [e1, e2, c1.1, c1.2]; simp
        · rw [if_neg c1]
          by_cases c2 : a = i ∧ b = k
          · rw [if_pos c2, if_pos]
            · rw [hv, c2.1, c2.2]
            · rw [e1, e2, c2.1, c2.2]; simp
          · rw [if_neg c2, if_neg]
            rw [e1, e2]
            intro hmem
            rcases List.mem_cons.1 hmem with h1 | hmem
            · apply c2
              have := Prod.mk.inj h1
              omega
            · rcases List.mem_cons.1 hmem with h1 | hmem
              · apply c1
                have := Prod.mk.inj h1
                omega
              · exact hin hmem

/-- A full run leaves a cell as it was when no call has it in its trace. -/
theorem run_cells_unwritten (anims : List MocapAnimation) (descriptors : Int → CImg)
    (a b : ℕ) :
    ∀ (schedule : List MocapAnimation) (m m' : Mat),
      computeAllDistances schedule m anims descriptors = some m' →
      (∀ x ∈ schedule, ((a : Int), (b : Int)) ∉ writtenCells x anims) →
      m'.cell a b = m.cell a b := by
  intro schedule
  induction schedule with
  | nil =>
    intro m m' h _
    rw [computeAllDistances] at h
    rw [← Option.some.inj h]
  | cons x rest ih =>
    intro m m' h hno
    rw [computeAllDistances] at h
    cases h1 : computeDistToAll x m anims descriptors with
    | none => rw [h1] at h; simp at h
    | some m1 =>
      rw [h1] at h
      simp only at h
      rw [ih m1 m' h (fun y hy => hno y (List.mem_cons_of_mem _ hy))]
      rw [loop_cells x descriptors anims m m1 h1 a b,
        if_neg (hno x (List.mem_cons_self _ _))]

/-! ## Where the loop stops -/

/-- The iterator reaches `anims.end()` exactly when every animation of the collection has a
smaller identifier than the one the loop was started for. -/
theorem loopStop_none_iff (anim : MocapAnimation) :
    ∀ l : List MocapAnimation, loopStop anim l = none ↔ ∀ x ∈ l, anim.getId > x.getId := by
  intro l
  induction l with
  | nil => simp [loopStop]
  | cons it rest ih =>
    rw [loopStop]
    split_ifs with hgt
    · rw [Option.map_eq_none', ih]
      constructor
      · intro h x hx
        rcases List.mem_cons.1 hx with rfl | hx
        · exact hgt
        · exact h x hx
      · intro h x hx
        exact h x (List.mem_cons_of_mem _ hx)
    · constructor
      · intro h; exact absurd h (by simp)
      · intro h; exact absurd (h it (List.mem_cons_self _ _)) hgt

/-- The loop stops at the first position at which the test fails: no later than any position
at which it fails, and after a prefix on which it holds. -/
theorem loopStop_le (anim : MocapAnimation) :
    ∀ (l : List MocapAnimation) (p : ℕ) (hp : p < l.length),
      ¬ anim.getId > (l.get ⟨p, hp⟩).getId →
      ∃ s : ℕ, ∃ hs : s < l.length, loopStop anim l = some s ∧ s ≤ p ∧
        ¬ anim.getId > (l.get ⟨s, hs⟩).getId ∧
        ∀ i : ℕ, ∀ hi : i < l.length, i < s → anim.getId > (l.get ⟨i, hi⟩).getId := by
  intro l
  induction l with
  | nil => intro p hp; simp at hp
  | cons it rest ih =>
    intro p hp hstop
    rw [loopStop]
    by_cases hgt : anim.getId > it.getId
    · rw [if_pos hgt]
      cases p with
      | zero => exact absurd hgt hstop
      | succ p' =>
        have hp' : p' < rest.length := by simpa using hp
        obtain ⟨s, hs, e, hsp, hns, hpre⟩ := ih p' hp' hstop
        refine ⟨s + 1, by simpa using hs, by rw [e]; rfl, by omega, hns, ?_⟩
        intro i hi his
        cases i with
        | zero => exact hgt
        | succ i' => exact hpre i' (by simpa using hi) (by omega)
    · rw [if_neg hgt]
      exact ⟨0, by simp, rfl, by omega, hgt, fun i _ hi => absurd hi (by omega)⟩

/-- An iterator that reaches `anims.end()` is undefined behaviour of the loop. -/
theorem loop_none_of_loopStop (anim : MocapAnimation) (descriptors : Int → CImg) :
    ∀ (l : List MocapAnimation) (m : Mat), loopStop anim l = none →
      computeDistToAllLoop anim descriptors l m = none := by
  intro l
  induction l with
  | nil => intro m _; rfl
  | cons it rest ih =>
    intro m h
    rw [loopStop] at h
    split_ifs at h with hgt
    · rw [Option.map_eq_none'] at h
      rw [computeDistToAllLoop, if_pos hgt]
      cases h1 : m.write it.getId anim.getId
          (computeDist (descriptors it.getId) (descriptors anim.getId)) with
      | none => rfl
      | some m1 =>
        simp only
        cases h2 : m1.write anim.getId it.getId
            (computeDist (descriptors it.getId) (descriptors anim.getId)) with
        | none => rfl
        | some m2 => exact ih m2 h

theorem mem_get {α : Type} (l : List α) (x : α) (h : x ∈ l) :
    ∃ p : ℕ, ∃ hp : p < l.length, l.get ⟨p, hp⟩ = x := by
  obtain ⟨n, hn⟩ := List.get_of_mem h
  exact ⟨n.1, n.2, hn⟩

/-- C15: traversal safety of `computeDistToAll`.  For every collection `anims` and every
animation of it, whatever the order of the identifiers, the loop
`while (id > (*it)->getId())` stops after `s` increments with `s` a position of the
collection, at or before every position of the animation itself, the test holding on the
animations before `s` and failing at `s`: it terminates and never dereferences
`anims.end()`.  The iterator reaches `anims.end()` only for an animation whose identifier is
larger than all those of the collection, and only then, or for a write outside the matrix,
is the call undefined: with all identifiers inside the matrix it returns a matrix. -/
theorem C15_traversal_safe (anims : List MocapAnimation) (anim : MocapAnimation)
    (hmem : anim ∈ anims) :
    (∃ s : ℕ, ∃ hs : s < anims.length, loopStop anim anims = some s ∧
      (∀ p : ℕ, ∀ hp : p < anims.length, anims.get ⟨p, hp⟩ = anim → s ≤ p) ∧
      ¬ anim.getId > (anims.get ⟨s, hs⟩).getId ∧
      ∀ i : ℕ, ∀ hi : i < anims.length, i < s → anim.getId > (anims.get ⟨i, hi⟩).getId) ∧
    (∀ (other : MocapAnimation) (descriptors : Int → CImg) (m : Mat),
      loopStop other anims = none →
        (∀ x ∈ anims, other.getId > x.getId) ∧
        computeDistToAll other m anims descriptors = none) ∧
    (∀ (descriptors : Int → CImg) (m : Mat) (N : ℕ), m.rows = N → m.cols = N →
      (∀ x ∈ anims, 0 ≤ x.id ∧ x.id < N) →
      ∃ m', computeDistToAll anim m anims descriptors = some m') := by
  obtain ⟨p0, hp0, e0⟩ := mem_get anims anim hmem
  have hstop0 : ¬ anim.getId > (anims.get ⟨p0, hp0⟩).getId := by
    rw [e0]; exact lt_irrefl _
  obtain ⟨s, hs, e, -, hns, hpre⟩ := loopStop_le anim anims p0 hp0 hstop0
  refine ⟨⟨s, hs, e, ?_, hns, hpre⟩, ?_, ?_⟩
  · intro p hp hpe
    have hstop : ¬ anim.getId > (anims.get ⟨p, hp⟩).getId := by
      rw [hpe]; exact lt_irrefl _
    obtain ⟨s', -, e', hsp, -, -⟩ := loopStop_le anim anims p hp hstop
    rw [e] at e'
    have := Option.some.inj e'
    omega
  · intro other descriptors m h
    exact ⟨(loopStop_none_iff other anims).1 h,
      loop_none_of_loopStop other descriptors anims m h⟩
  · intro descriptors m N hr hc hids
    exact loop_defined anim descriptors N (hids anim hmem) anims m hr hc hids
      ⟨anim, hmem, lt_irrefl _⟩

/-- C15 at the collection with the identifiers 0, 2, 1 and its last animation. -/
theorem C15_traversal_safe_witness :
    ∃ s : ℕ, ∃ hs : s < exampleUnsorted.length,
      loopStop (exampleUnsorted.get ⟨2, by decide⟩) exampleUnsorted = some s ∧
      (∀ p : ℕ, ∀ hp : p < exampleUnsorted.length,
        exampleUnsorted.get ⟨p, hp⟩ = exampleUnsorted.get ⟨2, by decide⟩ → s ≤ p) ∧
      ¬ (exampleUnsorted.get ⟨2, by decide⟩).getId > (exampleUnsorted.get ⟨s, hs⟩).getId ∧
      ∀ i : ℕ, ∀ hi : i < exampleUnsorted.length, i < s →
        (exampleUnsorted.get ⟨2, by decide⟩).getId > (exampleUnsorted.get ⟨i, hi⟩).getId :=
  (C15_traversal_safe exampleUnsorted (exampleUnsorted.get ⟨2, by decide⟩)
    (List.get_mem _ _ _)).1

/-! ## Collections out of order -/

/-- An animation of a collection with pairwise distinct identifiers never writes the cells
of two animations that stand in the wrong order. -/
theorem inversion_not_written (anims : List MocapAnimation)
    (hdist : ∀ i j : ℕ, ∀ hi : i < anims.length, ∀ hj : j < anims.length,
      (anims.get ⟨i, hi⟩).id = (anims.get ⟨j, hj⟩).id → i = j)
    (x : MocapAnimation) (hx : x ∈ anims) (p q : ℕ) (hp : p < anims.length)
    (hq : q < anims.length) (hpq : p < q)
    (hinv : (anims.get ⟨p, hp⟩).id > (anims.get ⟨q, hq⟩).id) :
    ((anims.get ⟨p, hp⟩).id, (anims.get ⟨q, hq⟩).id) ∉ writtenCells x anims ∧
    ((anims.get ⟨q, hq⟩).id, (anims.get ⟨p, hp⟩).id) ∉ writtenCells x anims := by
  obtain ⟨r, hr, er⟩ := mem_get anims x hx
  have hstop : ¬ x.getId > (anims.get ⟨r, hr⟩).getId := by
    rw [er]; exact lt_irrefl _
  constructor
  · intro hmem
    obtain ⟨i, hi, hir, hgt, hrc⟩ := writtenCells_index x anims r hr hstop _ hmem
    simp only [MocapAnimation.getId] at hgt hrc
    rcases hrc with h1 | h1
    · have := Prod.mk.inj h1
      omega
    · have h2 := Prod.mk.inj h1
      have e1 : p = r := hdist p r hp hr (by rw [er]; exact h2.1)
      have e2 : q = i := hdist q i hq hi h2.2
      omega
  · intro hmem
    obtain ⟨i, hi, hir, hgt, hrc⟩ := writtenCells_index x anims r hr hstop _ hmem
    simp only [MocapAnimation.getId] at hgt hrc
    rcases hrc with h1 | h1
    · have h2 := Prod.mk.inj h1
      have e1 : p = r := hdist p r hp hr (by rw [er]; exact h2.2)
      have e2 : q = i := hdist q i hq hi h2.1
      omega
    · have := Prod.mk.inj h1
      omega

theorem exampleSwapped_run :
    computeAllDistances exampleSwapped (setAnimations exampleSwapped) exampleSwapped
      exampleDescriptors = some (setAnimations exampleSwapped) := by
  simp [computeAllDistances, computeDistToAll, computeDistToAllLoop, exampleSwapped,
    MocapAnimation.getId]

/-- C11 (counterexample): the collection with the identifiers 1, 0 is not in non-decreasing
order, and the fill of stage 2 does not fail on it: it returns the matrix of
`setAnimations` unchanged, whose cells `(0,1)` and `(1,0)` hold the sentinel although the
distance of the two descriptors is `1.0f`. -/
theorem C11_counterexample :
    (exampleSwapped.get ⟨0, by decide⟩).id > (exampleSwapped.get ⟨1, by decide⟩).id ∧
    computeAllDistances exampleSwapped (setAnimations exampleSwapped) exampleSwapped
      exampleDescriptors = some (setAnimations exampleSwapped) ∧
    (setAnimations exampleSwapped).cell 0 1 = F32.numeric_limits_max ∧
    (setAnimations exampleSwapped).cell 1 0 = F32.numeric_limits_max ∧
    computeDist (exampleDescriptors 0) (exampleDescriptors 1) = F32.fin 1 := by
  refine ⟨by decide, exampleSwapped_run, rfl, rfl, ?_⟩
  exact computeDist_self [1, 1, 0] (by decide) (by norm_num)

/-- C11 (amended): stage 2 does not check the order of the identifiers.  For every
collection of `N` animations with pairwise distinct identifiers in `[0, N)`, in any order,
the fill by one `computeDistToAll` per animation (in the order of any permutation
`schedule`) fails in no way: it returns an `N x N` matrix, and for every two positions
`p < q` whose identifiers are in the wrong order, `id_p > id_q`, the cells `(id_p, id_q)` and
`(id_q, id_p)` are left at the sentinel `std::numeric_limits<float>::max()`. -/
theorem C11_unsorted_left_at_sentinel (anims : List MocapAnimation)
    (descriptors : Int → CImg) (schedule : List MocapAnimation)
    (hperm : schedule.Perm anims)
    (hrange : ∀ x ∈ anims, 0 ≤ x.id ∧ x.id < (anims.length : Int))
    (hdist : ∀ i j : ℕ, ∀ hi : i < anims.length, ∀ hj : j < anims.length,
      (anims.get ⟨i, hi⟩).id = (anims.get ⟨j, hj⟩).id → i = j) :
    ∃ m, computeAllDistances schedule (setAnimations anims) anims descriptors = some m ∧
      m.rows = anims.length ∧ m.cols = anims.length ∧
      ∀ p q : ℕ, ∀ hp : p < anims.length, ∀ hq : q < anims.length, p < q →
        (anims.get ⟨p, hp⟩).id > (anims.get ⟨q, hq⟩).id →
        m.cell (anims.get ⟨p, hp⟩).id.toNat (anims.get ⟨q, hq⟩).id.toNat
            = F32.numeric_limits_max ∧
        m.cell (anims.get ⟨q, hq⟩).id.toNat (anims.get ⟨p, hp⟩).id.toNat
            = F32.numeric_limits_max := by
  obtain ⟨m, hm, hr, hc, -, -⟩ := computeAllDistances_preserves anims descriptors hrange
    schedule (setAnimations anims) (fun x hx => hperm.subset hx) rfl rfl
  refine ⟨m, hm, hr, hc, ?_⟩
  intro p q hp hq hpq hinv
  have h0p := (hrange _ (List.get_mem anims p hp)).1
  have h0q := (hrange _ (List.get_mem anims q hq)).1
  have cp : (((anims.get ⟨p, hp⟩).id.toNat : ℕ) : Int) = (anims.get ⟨p, hp⟩).id :=
    Int.toNat_of_nonneg h0p
  have cq : (((anims.get ⟨q, hq⟩).id.toNat : ℕ) : Int) = (anims.get ⟨q, hq⟩).id :=
    Int.toNat_of_nonneg h0q
  constructor
  · rw [run_cells_unwritten anims descriptors _ _ schedule _ m hm]
    · rfl
    · intro x hx
      rw [cp, cq]
      exact (inversion_not_written anims hdist x (hperm.subset hx) p q hp hq hpq hinv).1
  · rw [run_cells_unwritten anims descriptors _ _ schedule _ m hm]
    · rfl
    · intro x hx
      rw [cp, cq]
      exact (inversion_not_written anims hdist x (hperm.subset hx) p q hp hq hpq hinv).2

theorem exampleUnsorted_range :
    ∀ x ∈ exampleUnsorted, 0 ≤ x.id ∧ x.id < (exampleUnsorted.length : Int) := by
  intro x hx
  simp only [exampleUnsorted, List.mem_cons, List.mem_singleton, List.not_mem_nil,
    or_false] at hx
  rcases hx with rfl | rfl | rfl <;> simp [exampleUnsorted]

theorem exampleUnsorted_distinct :
    ∀ i j : ℕ, ∀ hi : i < exampleUnsorted.length, ∀ hj : j < exampleUnsorted.length,
      (exampleUnsorted.get ⟨i, hi⟩).id = (exampleUnsorted.get ⟨j, hj⟩).id → i = j := by
  intro i j hi hj h
  have hi3 : i < 3 := hi
  have hj3 : j < 3 := hj
  interval_cases i <;> interval_cases j <;> first | rfl | (simp [exampleUnsorted] at h)

/-- C11 (amended) at the collection with the identifiers 0, 2, 1: the run returns a matrix
whose cells `(2,1)` and `(1,2)` hold the sentinel. -/
theorem C11_unsorted_left_at_sentinel_witness :
    ∃ m, computeAllDistances exampleUnsorted (setAnimations exampleUnsorted) exampleUnsorted
        exampleDescriptors = some m ∧
      m.cell 2 1 = F32.numeric_limits_max ∧ m.cell 1 2 = F32.numeric_limits_max := by
  obtain ⟨m, hm, -, -, h⟩ := C11_unsorted_left_at_sentinel exampleUnsorted exampleDescriptors
    exampleUnsorted (List.Perm.refl _) exampleUnsorted_range exampleUnsorted_distinct
  exact ⟨m, hm, h 1 2 (by decide) (by decide) (by decide) (by decide)⟩

/-! ## Disjoint writes -/

/-- C16: the writes of two calls never meet, whatever the order of the identifiers.  For
every collection whose identifiers are pairwise distinct (sorted or not, dense or not) and
every two different positions `i`, `j` of it, no cell assigned by `computeDistToAll` for the
animation at `i` is assigned by `computeDistToAll` for the animation at `j`.  The cells a
call assigns are those of its trace and no other, and each of them receives the distance
of its pair, `computeDist(descriptors[smaller], descriptors[larger])`: a cell is either left
as it was or holds the right value. -/
theorem C16_write_disjoint (anims : List MocapAnimation)
    (hdist : ∀ i j : ℕ, ∀ hi : i < anims.length, ∀ hj : j < anims.length,
      (anims.get ⟨i, hi⟩).id = (anims.get ⟨j, hj⟩).id → i = j)
    (i j : ℕ) (hi : i < anims.length) (hj : j < anims.length) (hij : i ≠ j) :
    (∀ rc, rc ∈ writtenCells (anims.get ⟨i, hi⟩) anims →
      rc ∉ writtenCells (anims.get ⟨j, hj⟩) anims) ∧
    (∀ (descriptors : Int → CImg) (m m' : Mat),
      computeDistToAll (anims.get ⟨i, hi⟩) m anims descriptors = some m' →
      ∀ a b : ℕ, m'.cell a b =
        if ((a : Int), (b : Int)) ∈ writtenCells (anims.get ⟨i, hi⟩) anims then
          pairDist descriptors a b
        else m.cell a b) := by
  refine ⟨writtenCells_disjoint _ _ anims (fun h => hij (hdist i j hi hj h)), ?_⟩
  intro descriptors m m' h
  exact loop_cells _ descriptors anims m m' h

/-- C16 at the collection with the identifiers 0, 2, 1 and its last two animations, whose
traces are `(0,2), (2,0)` and `(0,1), (1,0)`. -/
theorem C16_write_disjoint_witness :
    writtenCells (exampleUnsorted.get ⟨1, by decide⟩) exampleUnsorted = [(0, 2), (2, 0)] ∧
    writtenCells (exampleUnsorted.get ⟨2, by decide⟩) exampleUnsorted = [(0, 1), (1, 0)] ∧
    ∀ rc, rc ∈ writtenCells (exampleUnsorted.get ⟨1, by decide⟩) exampleUnsorted →
      rc ∉ writtenCells (exampleUnsorted.get ⟨2, by decide⟩) exampleUnsorted :=
  ⟨by decide, by decide,
    (C16_write_disjoint exampleUnsorted exampleUnsorted_distinct 1 2 (by decide) (by decide)
      (by decide)).1⟩

/-! ## Ownership of the cells -/

/-- On a part of a collection whose identifiers count up from `p`, the trace of the
animation with the identifier `k` lists the cells `(j,k)`, `(k,j)` for `j` from `p` to
`k - 1`. -/
theorem writtenCells_positions (anim : MocapAnimation) (k : ℕ) (hk : anim.getId = (k : Int)) :
    ∀ (l : List MocapAnimation) (p : ℕ),
      (∀ i : ℕ, ∀ h : i < l.length, (l.get ⟨i, h⟩).id = ((p + i : ℕ) : Int)) →
      p ≤ k → k < p + l.length →
      writtenCells anim l =
        (List.range' p (k - p)).flatMap fun id2 =>
          [((id2 : Int), (k : Int)), ((k : Int), (id2 : Int))] := by
  intro l
  induction l with
  | nil => intro p _ h1 h2; simp at h2; omega
  | cons it rest ih =>
    intro p hl hpk hkl
    have hit : it.getId = (p : Int) := by
      have := hl 0 (by simp)
      simpa [MocapAnimation.getId] using this
    rw [writtenCells, hit, hk]
    by_cases hlt : p < k
    · rw [if_pos (by exact_mod_cast hlt)]
      have e : k - p = (k - (p + 1)) + 1 := by omega
      rw [e, List.range'_succ, List.flatMap_cons]
      rw [ih (p + 1) ?_ (by omega) (by simp at hkl; omega)]
      · rfl
      · intro i h
        have := hl (i + 1) (by simpa using h)
        simp only [List.get_eq_getElem, List.getElem_cons_succ] at this ⊢
        rw [this]
        congr 1
        omega
    · have e : k - p = 0 := by omega
      rw [if_neg (by intro h; exact hlt (by exact_mod_cast h)), e]
      rfl

theorem mem_ownedCells (k p n : ℕ) (rc : Int × Int) :
    rc ∈ ((List.range' p n).flatMap fun id2 =>
        [((id2 : Int), (k : Int)), ((k : Int), (id2 : Int))]) ↔
      ∃ j : ℕ, p ≤ j ∧ j < p + n ∧ (rc = ((j : Int), (k : Int)) ∨ rc = ((k : Int), (j : Int))) := by
  rw [List.mem_flatMap]
  constructor
  · rintro ⟨j, hj, hrc⟩
    rw [List.mem_range'_1] at hj
    simp only [List.mem_cons, List.mem_singleton, List.not_mem_nil, or_false] at hrc
    exact ⟨j, hj.1, hj.2, hrc⟩
  · rintro ⟨j, h1, h2, hrc⟩
    refine ⟨j, List.mem_range'_1.2 ⟨h1, h2⟩, ?_⟩
    simp only [List.mem_cons, List.mem_singleton, List.not_mem_nil, or_false]
    exact hrc

/-- The cells `(j,k)`, `(k,j)` listed for `j` below `k` are listed once each. -/
theorem ownedCells_nodup (k : ℕ) :
    ∀ (n p : ℕ), p + n ≤ k →
      ((List.range' p n).flatMap fun id2 =>
        [((id2 : Int), (k : Int)), ((k : Int), (id2 : Int))]).Nodup := by
  intro n
  induction n with
  | zero => intro p _; simp
  | succ n ih =>
    intro p h
    rw [List.range'_succ, List.flatMap_cons]
    show (((p : Int), (k : Int)) :: ((k : Int), (p : Int)) :: _).Nodup
    rw [List.nodup_cons, List.nodup_cons]
    refine ⟨?_, ?_, ih (p + 1) (by omega)⟩
    · intro hmem
      rcases List.mem_cons.1 hmem with h1 | h1
      · have := Prod.mk.inj h1
        omega
      · obtain ⟨j, hj1, hj2, hrc⟩ := (mem_ownedCells k (p + 1) n _).1 h1
        rcases hrc with h2 | h2
        · have := Prod.mk.inj h2
          omega
        · have := Prod.mk.inj h2
          omega
    · intro h1
      obtain ⟨j, hj1, hj2, hrc⟩ := (mem_ownedCells k (p + 1) n _).1 h1
      rcases hrc with h2 | h2
      · have := Prod.mk.inj h2
        omega
      · have := Prod.mk.inj h2
        omega

theorem positions_range (anims : List MocapAnimation) (hpos : idsArePositions anims) :
    ∀ x ∈ anims, 0 ≤ x.id ∧ x.id < (anims.length : Int) := by
  intro x hx
  obtain ⟨p, hp, e⟩ := mem_get anims x hx
  have := hpos p hp
  rw [e] at this
  omega

theorem writtenCells_of_positions (anims : List MocapAnimation) (hpos : idsArePositions anims)
    (k : ℕ) (hk : k < anims.length) :
    writtenCells (anims.get ⟨k, hk⟩) anims =
      (List.range k).flatMap fun id2 =>
        [((id2 : Int), (k : Int)), ((k : Int), (id2 : Int))] := by
  rw [writtenCells_positions (anims.get ⟨k, hk⟩) k (hpos k hk) anims 0
    (fun i h => by rw [hpos i h]; simp) (Nat.zero_le _) (by omega), List.range_eq_range']
  rfl

/-- C12: ownership of the cells of the matrix.  For a collection of `N` animations whose
identifiers are their positions `0 .. N-1`, the call `computeDistToAll` for the identifier
`k` assigns the cells `(id2, k)` and `(k, id2)` for every `id2 < k`, in this order, each
once, and no other cell: the call returns a matrix that differs from the one it was given
on these cells only, where it holds the distance of the pair.  Consequently the cell of every
pair `i ≠ j` is assigned by exactly one call, that of the larger identifier, and the calls
for two different identifiers assign no common cell. -/
theorem C12_ownership (anims : List MocapAnimation) (hpos : idsArePositions anims)
    (k : ℕ) (hk : k < anims.length) :
    writtenCells (anims.get ⟨k, hk⟩) anims =
      ((List.range k).flatMap fun id2 =>
        [((id2 : Int), (k : Int)), ((k : Int), (id2 : Int))]) ∧
    (writtenCells (anims.get ⟨k, hk⟩) anims).Nodup ∧
    (∀ (descriptors : Int → CImg) (m : Mat), m.rows = anims.length → m.cols = anims.length →
      ∃ m', computeDistToAll (anims.get ⟨k, hk⟩) m anims descriptors = some m' ∧
        ∀ a b : ℕ, m'.cell a b =
          if ((a : Int), (b : Int)) ∈ writtenCells (anims.get ⟨k, hk⟩) anims then
            pairDist descriptors a b
          else m.cell a b) ∧
    (∀ i j : ℕ, i < anims.length → j < anims.length → i ≠ j →
      ∀ t : ℕ, ∀ ht : t < anims.length,
        ((i : Int), (j : Int)) ∈ writtenCells (anims.get ⟨t, ht⟩) anims ↔ t = max i j) ∧
    (∀ t : ℕ, ∀ ht : t < anims.length, t ≠ k →
      ∀ rc, rc ∈ writtenCells (anims.get ⟨k, hk⟩) anims →
        rc ∉ writtenCells (anims.get ⟨t, ht⟩) anims) := by
  refine ⟨writtenCells_of_positions anims hpos k hk, ?_, ?_, ?_, ?_⟩
  · rw [writtenCells_of_positions anims hpos k hk, List.range_eq_range']
    exact ownedCells_nodup k k 0 (by omega)
  · intro descriptors m hr hc
    obtain ⟨m', hm'⟩ := loop_defined (anims.get ⟨k, hk⟩) descriptors anims.length
      (positions_range anims hpos _ (List.get_mem anims k hk)) anims m hr hc
      (positions_range anims hpos) ⟨_, List.get_mem anims k hk, lt_irrefl _⟩
    exact ⟨m', hm', loop_cells _ descriptors anims m m' hm'⟩
  · intro i j hi hj hij t ht
    rw [writtenCells_of_positions anims hpos t ht, List.range_eq_range', mem_ownedCells]
    constructor
    · rintro ⟨x, -, hx, hrc⟩
      rcases hrc with h | h
      · have := Prod.mk.inj h
        omega
      · have := Prod.mk.inj h
        omega
    · intro e
      rcases Nat.lt_or_gt_of_ne hij with h | h
      · exact ⟨i, Nat.zero_le _, by omega, Or.inl (by rw [e, max_eq_right h.le])⟩
      · exact ⟨j, Nat.zero_le _, by omega, Or.inr (by rw [e, max_eq_left h.le])⟩
  · intro t ht htk
    apply writtenCells_disjoint
    show (anims.get ⟨k, hk⟩).id ≠ (anims.get ⟨t, ht⟩).id
    rw [hpos k hk, hpos t ht]
    intro h
    exact htk (by exact_mod_cast h.symm)

/-- C12 at the collection with the identifiers 0, 1, 2 and the call for the identifier 2,
which assigns the four cells `(0,2)`, `(2,0)`, `(1,2)`, `(2,1)`. -/
theorem C12_ownership_witness :
    idsArePositions exampleAnims ∧
    writtenCells (exampleAnims.get ⟨2, by decide⟩) exampleAnims =
      [(0, 2), (2, 0), (1, 2), (2, 1)] ∧
    (writtenCells (exampleAnims.get ⟨2, by decide⟩) exampleAnims).Nodup :=
  ⟨exampleAnims_positions,
    (C12_ownership exampleAnims exampleAnims_positions 2 (by decide)).1.trans (by decide),
    (C12_ownership exampleAnims exampleAnims_positions 2 (by decide)).2.1⟩

/-! ## Range of `computeDist` -/

theorem fullGrid_zip :
    fullGrid.zip singleGrid =
      ((1 : Int), (1 : Int)) :: List.replicate 7999 ((1 : Int), (0 : Int)) := by
  unfold fullGrid singleGrid
  rw [show (8000 : ℕ) = 7999 + 1 from rfl, List.replicate_succ, List.zip_cons_cons,
    List.zip_replicate']

theorem fullGrid_counts :
    countBoth fullGrid singleGrid = 1 ∧ countFirstOnly fullGrid singleGrid = 7999 ∧
      countSecondOnly fullGrid singleGrid = 0 := by
  unfold countBoth countFirstOnly countSecondOnly
  rw [fullGrid_zip]
  simp only [List.countP_cons, List.countP_replicate]
  refine ⟨?_, ?_, ?_⟩ <;> simp

theorem fullGrid_binary : isBinary fullGrid ∧ isBinary singleGrid := by
  constructor
  · intro v hv
    exact Or.inr (List.eq_of_mem_replicate hv)
  · intro v hv
    rcases List.mem_cons.1 hv with h | h
    · exact Or.inr h
    · exact Or.inl (List.eq_of_mem_replicate h)

theorem fullGrid_length : fullGrid.length = 8000 ∧ singleGrid.length = 8000 := by
  unfold fullGrid singleGrid
  rw [List.length_cons, List.length_replicate, List.length_replicate]
  exact ⟨rfl, rfl⟩

theorem fullGrid_diceExact : diceExact fullGrid singleGrid = 2 / 8001 := by
  obtain ⟨c1, c2, c3⟩ := fullGrid_counts
  unfold diceExact
  rw [c1, c2, c3]
  norm_num

/-- Unless both grids are empty, `computeDist` returns the sentinel or a float between 1 and
1000. -/
theorem computeDist_range (g1 g2 : CImg) (hlen : g1.length = g2.length)
    (hsize : g1.length < 2 ^ 62) (hb1 : isBinary g1) (hb2 : isBinary g2)
    (hocc : (1 : Int) ∈ g1 ∨ (1 : Int) ∈ g2) :
    computeDist g1 g2 = F32.numeric_limits_max ∨
      ∃ q : ℚ, computeDist g1 g2 = F32.fin q ∧ 1 ≤ q ∧ q ≤ 1000 := by
  obtain ⟨d, hd, h0, h1⟩ := dice_range g1 g2 hlen hsize hb1 hb2 hocc
  rw [computeDist_of_dice hd]
  by_cases h : d < 8589935 / 2 ^ 33
  · left; rw [if_pos h]
  · right
    rw [if_neg h]
    have hd0 : (0 : ℚ) < d := lt_of_lt_of_le (by norm_num) (not_lt.1 h)
    refine ⟨_, rfl, ?_, ?_⟩
    · have h2 : (1 : ℚ) ≤ 1 / d := by
        rw [le_div_iff₀ hd0]; linarith
      have := roundQ_mono (by norm_num : (0 : ℚ) ≤ 1) h2
      rwa [roundQ_one] at this
    · have h2 : 1 / d ≤ (1000 : ℚ) := by
        rw [div_le_iff₀ hd0]
        have := not_lt.1 h
        have h3 : (1000 : ℚ) * (8589935 / 2 ^ 33) ≤ 1000 * d :=
          mul_le_mul_of_nonneg_left this (by norm_num)
        have h4 : (1 : ℚ) ≤ 1000 * (8589935 / 2 ^ 33) := by norm_num
        linarith
      have h5 : (0 : ℚ) ≤ 1 / d := by positivity
      have := roundQ_mono h5 h2
      have e : roundQ 1000 = 1000 := by
        simpa using roundQ_natCast 1000 (by norm_num)
      rwa [e] at this

/-- C17 (first part, and the defect of the second).  The fully occupied 20x20x20 grid and
the grid with one occupied cell are binary and share the occupied cell 0 (`tp = 1`,
`fp = 7999`, `fn = 0`, Dice coefficient `2/8001 < 0.001`), and `computeDist` returns the
sentinel `std::numeric_limits<float>::max()` for them.  The second part fails on two empty
20x20x20 grids: the result of `computeDist` is NaN, which is neither the sentinel nor a
value of `[1, 1000]`; this is the division `0.0f / 0.0f` of C2. -/
theorem C17_sentinel_and_range :
    (isBinary fullGrid ∧ isBinary singleGrid ∧ fullGrid.length = 8000 ∧
      singleGrid.length = 8000 ∧ fullGrid[0]? = some 1 ∧ singleGrid[0]? = some 1 ∧
      countBoth fullGrid singleGrid = 1 ∧ countFirstOnly fullGrid singleGrid = 7999 ∧
      countSecondOnly fullGrid singleGrid = 0 ∧
      diceExact fullGrid singleGrid = 2 / 8001 ∧
      computeDist fullGrid singleGrid = F32.numeric_limits_max) ∧
    (isBinary (List.replicate 8000 (0 : Int)) ∧
      computeDist (List.replicate 8000 0) (List.replicate 8000 0) = F32.nan ∧
      F32.nan ≠ F32.numeric_limits_max ∧
      ∀ q : ℚ, 1 ≤ q → q ≤ 1000 → F32.nan ≠ F32.fin q) := by
  obtain ⟨c1, c2, c3⟩ := fullGrid_counts
  obtain ⟨b1, b2⟩ := fullGrid_binary
  obtain ⟨l1, l2⟩ := fullGrid_length
  have hz : isBinary (List.replicate 8000 (0 : Int)) := by
    intro v hv; exact Or.inl (List.eq_of_mem_replicate hv)
  have hno : (1 : Int) ∉ List.replicate 8000 (0 : Int) := by
    intro h; have := List.eq_of_mem_replicate h; omega
  have g1 : fullGrid[0]? = some 1 := by
    unfold fullGrid
    rw [List.getElem?_replicate, if_pos (by norm_num)]
  have g2 : singleGrid[0]? = some 1 := List.getElem?_cons_zero
  refine ⟨⟨b1, b2, l1, l2, g1, g2, c1, c2, c3, fullGrid_diceExact, ?_⟩,
    hz, computeDist_both_empty _ _ rfl hz hz hno hno, by simp [F32.numeric_limits_max],
    fun q _ _ h => F32.noConfusion h⟩
  rw [computeDist_small fullGrid singleGrid (by rw [l1, l2]) (by rw [l1]; norm_num) b1 b2
    (Or.inr (List.mem_cons_self _ _)), fullGrid_diceExact, if_pos (by norm_num)]

/-! ## Stationary joints -/

theorem writeVoxel_of_lt (img : CImg) (c : ℕ × ℕ × ℕ)
    (h : c.1 + 20 * c.2.1 + 400 * c.2.2 < img.length) :
    writeVoxel img c = some (img.set (c.1 + 20 * c.2.1 + 400 * c.2.2) 1) := by
  unfold writeVoxel
  rw [if_pos h]

/-- A step between two frames with the same position is the single write
`m_voxelMap(posi[0], posi[1], posi[2]) = 1`. -/
theorem voxelStep_stationary (toUnsigned : Int → ℕ) (anim : MocapAnimation) (n f : ℕ)
    (p : Vec3f) (c : ℕ × ℕ × ℕ) (img : CImg) (hp : anim.posAt n f = some p)
    (hq : anim.posAt n (f - 1) = some p) (hc : voxelCoord toUnsigned p = some c) :
    voxelStep toUnsigned anim n f img = writeVoxel img c := by
  unfold voxelStep
  rw [hp, hq]
  simp only [hc]
  rw [if_pos trivial]

theorem framesLoop_stationary (toUnsigned : Int → ℕ) (anim : MocapAnimation) (n : ℕ)
    (p : Vec3f) (c : ℕ × ℕ × ℕ) (hc : voxelCoord toUnsigned p = some c) :
    ∀ (fs : List ℕ) (img : CImg), c.1 + 20 * c.2.1 + 400 * c.2.2 < img.length →
      (∀ f ∈ fs, anim.posAt n f = some p ∧ anim.posAt n (f - 1) = some p) →
      framesLoop toUnsigned anim n fs img =
        some (if fs = [] then img else img.set (c.1 + 20 * c.2.1 + 400 * c.2.2) 1) := by
  intro fs
  induction fs with
  | nil => intro img _ _; rfl
  | cons f rest ih =>
    intro img ho hst
    obtain ⟨h1, h2⟩ := hst f (List.mem_cons_self _ _)
    rw [framesLoop, voxelStep_stationary toUnsigned anim n f p c img h1 h2 hc,
      writeVoxel_of_lt img c ho]
    simp only
    rw [ih _ (by rw [List.length_set]; exact ho)
      (fun g hg => hst g (List.mem_cons_of_mem _ hg)), List.set_set,
      if_neg (List.cons_ne_nil _ _)]
    split_ifs <;> rfl

theorem nodesLoop_stationary (toUnsigned : Int → ℕ) (anim : MocapAnimation)
    (p : Vec3f) (c : ℕ × ℕ × ℕ) (hc : voxelCoord toUnsigned p = some c)
    (hlen : 2 ≤ anim.poses.length) :
    ∀ (ns : List ℕ) (img : CImg), c.1 + 20 * c.2.1 + 400 * c.2.2 < img.length →
      (∀ n ∈ ns, ∀ f : ℕ, f < anim.poses.length → anim.posAt n f = some p) →
      nodesLoop toUnsigned anim ns img =
        some (if ns = [] then img else img.set (c.1 + 20 * c.2.1 + 400 * c.2.2) 1) := by
  intro ns
  induction ns with
  | nil => intro img _ _; rfl
  | cons n rest ih =>
    intro img ho hst
    have hfs : List.range' 1 (anim.frames.toNat - 1) ≠ [] := by
      rw [frames_toNat]
      intro h
      have := congrArg List.length h
      rw [List.length_range'] at this
      simp at this
      omega
    rw [nodesLoop, framesLoop_stationary toUnsigned anim n p c hc _ img ho (by
      intro f hf
      rw [List.mem_range', frames_toNat] at hf
      obtain ⟨i, hi, rfl⟩ := hf
      exact ⟨hst n (List.mem_cons_self _ _) _ (by omega),
        hst n (List.mem_cons_self _ _) _ (by omega)⟩), if_neg hfs]
    simp only
    rw [ih _ (by rw [List.length_set]; exact ho)
      (fun m hm => hst m (List.mem_cons_of_mem _ hm)), List.set_set,
      if_neg (List.cons_ne_nil _ _)]
    split_ifs <;> rfl

/-- The grid of an animation whose 31 joints stay at one position, the write being inside
the buffer: one cell is set as soon as there are two frames. -/
theorem computeVoxels_stationary (toUnsigned : Int → ℕ) (anim : MocapAnimation)
    (p : Vec3f) (c : ℕ × ℕ × ℕ) (hc : voxelCoord toUnsigned p = some c)
    (ho : c.1 + 20 * c.2.1 + 400 * c.2.2 < 8000)
    (hst : ∀ n : ℕ, n < 31 → ∀ f : ℕ, f < anim.poses.length → anim.posAt n f = some p) :
    computeVoxels toUnsigned anim =
      some (anim.id, if anim.poses.length ≤ 1 then List.replicate 8000 0
        else (List.replicate 8000 0).set (c.1 + 20 * c.2.1 + 400 * c.2.2) 1) := by
  by_cases hlen : anim.poses.length ≤ 1
  · rw [if_pos hlen]
    exact computeVoxels_few_frames toUnsigned anim hlen
  · rw [if_neg hlen]
    unfold computeVoxels
    rw [nodesLoop_stationary toUnsigned anim p c hc (by omega) (List.range 31)
      (List.replicate 8000 0) (by rw [List.length_replicate]; exact ho)
      (fun n hn => hst n (List.mem_range.1 hn)),
      if_neg (by intro h; have := congrArg List.length h; simp at this)]
    rfl

theorem zeros_not_occupied (i : ℕ) : (List.replicate 8000 (0 : Int))[i]? ≠ some 1 := by
  rw [List.getElem?_replicate]
  split_ifs
  · intro h; have := Option.some.inj h; omega
  · intro h; exact Option.noConfusion h

theorem single_occupied (o i : ℕ) (h : ((List.replicate 8000 (0 : Int)).set o 1)[i]? = some 1) :
    i = o := by
  by_contra hne
  rw [List.getElem?_set, if_neg (fun e => hne e.symm)] at h
  exact zeros_not_occupied i h

theorem stationaryAnim_posAt (p : Vec3f) (frames n f : ℕ) (hn : n < 31) (hf : f < frames) :
    (stationaryAnim p frames).posAt n f = some p := by
  show ((List.replicate frames (List.replicate 31 p)).get? f).bind (fun frame => frame.get? n)
    = some p
  rw [List.get?_eq_getElem?, List.getElem?_replicate, if_pos hf]
  show (List.replicate 31 p).get? n = some p
  rw [List.get?_eq_getElem?, List.getElem?_replicate, if_pos hn]

theorem stationaryAnim_frames (p : Vec3f) (frames : ℕ) :
    (stationaryAnim p frames).poses.length = frames := by
  show (List.replicate frames _).length = frames
  rw [List.length_replicate]

/-! ## Grid coordinates of some positions -/

theorem toGridAxis_eval (x s a r : ℚ) (h1 : roundQ (x + 20) = s) (h2 : roundQ (s * 5) = a)
    (h3 : roundQ (a * (13421773 / 2 ^ 27)) = r) (b1 : |s| < 2 ^ 128) (b2 : |a| < 2 ^ 128)
    (b3 : |r| < 2 ^ 128) : toGridAxis (F32.fin x) = F32.fin r := by
  unfold toGridAxis
  have h20 : F32.lit 20 = F32.fin 20 := by
    simpa [F32.lit] using F32.round_natCast 20 (by norm_num)
  have h5 : F32.lit 5 = F32.fin 5 := by
    simpa [F32.lit] using F32.round_natCast 5 (by norm_num)
  rw [h20, h5, F32.div_one_ten]
  show F32.mul (F32.mul (F32.round (x + 20)) (F32.fin 5)) _ = _
  rw [F32.round_eq_fin (by rw [h1]; exact b1), h1]
  show F32.mul (F32.round (s * 5)) _ = _
  rw [F32.round_eq_fin (by rw [h2]; exact b2), h2]
  show F32.round (a * (13421773 / 2 ^ 27)) = _
  rw [F32.round_eq_fin (by rw [h3]; exact b3), h3]

theorem toGridAxis_30 : toGridAxis (F32.fin 30) = F32.fin 25 := by
  apply toGridAxis_eval 30 50 250 25
  · rw [show (30 + 20 : ℚ) = ((50 : ℕ) : ℚ) by norm_num, roundQ_natCast 50 (by norm_num)]
    norm_num
  · rw [show (50 * 5 : ℚ) = ((250 : ℕ) : ℚ) by norm_num, roundQ_natCast 250 (by norm_num)]
    norm_num
  · rw [roundQ_eq_of 4 13107200 (by norm_num) (by norm_num [abs_of_pos])
      (by norm_num [abs_of_pos]) (by norm_num) (by norm_num)]
    norm_num
  · norm_num [abs_of_pos]
  · norm_num [abs_of_pos]
  · norm_num [abs_of_pos]

/-- The float `1 + 2^-23` has the grid coordinate `10.5` before rounding: the sum
`21 + 2^-23` is rounded to `21`. -/
theorem toGridAxis_above_one : toGridAxis (F32.fin (1 + 1 / 2 ^ 23)) = F32.fin (21 / 2) := by
  apply toGridAxis_eval (1 + 1 / 2 ^ 23) 21 105 (21 / 2)
  · rw [roundQ_eq_of 4 11010048 (by norm_num) (by norm_num [abs_of_pos])
      (by norm_num [abs_of_pos]) (by norm_num) (by norm_num)]
    norm_num
  · rw [show (21 * 5 : ℚ) = ((105 : ℕ) : ℚ) by norm_num, roundQ_natCast 105 (by norm_num)]
    norm_num
  · rw [roundQ_eq_of 3 11010048 (by norm_num) (by norm_num [abs_of_pos])
      (by norm_num [abs_of_pos]) (by norm_num) (by norm_num)]
    norm_num
  · norm_num [abs_of_pos]
  · norm_num [abs_of_pos]
  · norm_num [abs_of_pos]

theorem roundQ_above_one : roundQ (1 + 1 / 2 ^ 23) = 1 + 1 / 2 ^ 23 := by
  rw [roundQ_eq_of 0 8388609 (by norm_num) (by norm_num [abs_of_pos])
    (by norm_num [abs_of_pos]) (by norm_num) (by norm_num)]
  norm_num

theorem rne_tie : rne (21 / 2) = 10 := by
  have hf : ⌊(21 / 2 : ℚ)⌋ = 10 := by
    rw [Int.floor_eq_iff]; norm_num
  unfold rne
  rw [hf]
  norm_num

theorem voxelCoord_of_rne (toUnsigned : Int → ℕ) (p : Vec3f) (qx qy qz : ℚ) (x y z : ℤ)
    (hx : toGridAxis p.1 = F32.fin qx) (hy : toGridAxis p.2.1 = F32.fin qy)
    (hz : toGridAxis p.2.2 = F32.fin qz) (rx : rne qx = x) (ry : rne qy = y)
    (rz : rne qz = z)
    (bx : -2 ^ 31 ≤ x ∧ x < 2 ^ 31) (by' : -2 ^ 31 ≤ y ∧ y < 2 ^ 31)
    (bz : -2 ^ 31 ≤ z ∧ z < 2 ^ 31) :
    voxelCoord toUnsigned p = some (toUnsigned x, toUnsigned y, toUnsigned z) := by
  unfold voxelCoord toGrid
  simp only [hx, hy, hz, F32.nearbyintf, rx, ry, rz, F32.toInt_intCast _ bx.1 bx.2,
    F32.toInt_intCast _ by'.1 by'.2, F32.toInt_intCast _ bz.1 bz.2]

theorem voxelCoord_above_one (toUnsigned : Int → ℕ)
    (h : ∀ v : Int, 0 ≤ v → toUnsigned v = v.toNat) :
    voxelCoord toUnsigned (F32.fin (1 + 1 / 2 ^ 23), F32.fin (-20), F32.fin (-20))
      = some (10, 0, 0) := by
  rw [voxelCoord_of_rne toUnsigned _ (21 / 2) 0 0 10 0 0 toGridAxis_above_one
    (by simpa using toGridAxis_neg20) (by simpa using toGridAxis_neg20) rne_tie
    (by simpa using rne_intCast 0) (by simpa using rne_intCast 0)
    (by norm_num) (by norm_num) (by norm_num), h 10 (by norm_num), h 0 (le_refl _)]
  rfl

theorem voxelCoord_30 (toUnsigned : Int → ℕ) (h : ∀ v : Int, 0 ≤ v → toUnsigned v = v.toNat) :
    voxelCoord toUnsigned (F32.fin 30, F32.fin (-20), F32.fin (-20)) = some (25, 0, 0) := by
  rw [voxelCoord_of_axes toUnsigned (F32.fin 30, F32.fin (-20), F32.fin (-20)) 25 0 0
    (by simpa using toGridAxis_30) (by simpa using toGridAxis_neg20)
    (by simpa using toGridAxis_neg20) (by norm_num) (by norm_num) (by norm_num),
    h 25 (by norm_num), h 0 (le_refl _)]
  rfl

theorem toGridAxis_neg30 : toGridAxis (F32.fin (-30)) = F32.fin (-5) := by
  apply toGridAxis_eval (-30) (-10) (-50) (-5)
  · have := roundQ_of_repr (-10) 0 (by norm_num) (by norm_num)
    rw [show (-30 + 20 : ℚ) = ((-10 : ℤ) : ℚ) * 2 ^ (0 : ℤ) by norm_num, this]
    norm_num
  · have := roundQ_of_repr (-50) 0 (by norm_num) (by norm_num)
    rw [show (-10 * 5 : ℚ) = ((-50 : ℤ) : ℚ) * 2 ^ (0 : ℤ) by norm_num, this]
    norm_num
  · rw [roundQ_eq_of 2 (-10485760) (by norm_num) (by norm_num [abs_of_neg])
      (by norm_num [abs_of_neg]) (by norm_num) (by norm_num)]
    norm_num
  · norm_num [abs_of_neg]
  · norm_num [abs_of_neg]
  · norm_num [abs_of_neg]

/-- With the conversion of OpenCV 4 the position `(-30,-20,-20)`, whose x coordinate rounds
to `-5`, has the unsigned coordinates `(0,0,0)`. -/
theorem voxelCoord_neg30 :
    voxelCoord saturate_cast_unsigned (F32.fin (-30), F32.fin (-20), F32.fin (-20))
      = some (0, 0, 0) := by
  rw [voxelCoord_of_axes saturate_cast_unsigned (F32.fin (-30), F32.fin (-20), F32.fin (-20))
    (-5) 0 0 (by simpa using toGridAxis_neg30) (by simpa using toGridAxis_neg20)
    (by simpa using toGridAxis_neg20) (by norm_num) (by norm_num) (by norm_num)]
  rfl

/-! ## Claims on stationary joints -/

/-- C13 (counterexample).  (a) The float `1 + 2^-23` on the x axis: the exact value of
`(p + 20) * 0.5` is `10.5 + 2^-24`, whose nearest integer is 11, but in `float` the sum
`p + 20` is rounded to 21, the product is `10.5`, `nearbyintf` gives 10, and the animation
whose joints all stay there marks the voxel `(10,0,0)`.  (b) The position `(30,-20,-20)` has
the rounded coordinates `(25,0,0)`, outside the grid; the write goes to the cell 25 of the
buffer, which is the voxel `(5,1,0)`. -/
theorem C13_counterexample :
    (roundQ (1 + 1 / 2 ^ 23) = 1 + 1 / 2 ^ 23 ∧
      |((1 + 1 / 2 ^ 23 : ℚ) + 20) * (1 / 2) - 11| < 1 / 2 ∧
      voxelCoord saturate_cast_unsigned (F32.fin (1 + 1 / 2 ^ 23), F32.fin (-20), F32.fin (-20))
        = some (10, 0, 0) ∧
      computeVoxels saturate_cast_unsigned
          (stationaryAnim (F32.fin (1 + 1 / 2 ^ 23), F32.fin (-20), F32.fin (-20)) 2)
        = some (0, (List.replicate 8000 0).set (10 + 20 * 0 + 400 * 0) 1)) ∧
    (voxelCoord saturate_cast_unsigned (F32.fin 30, F32.fin (-20), F32.fin (-20))
        = some (25, 0, 0) ∧
      computeVoxels saturate_cast_unsigned
          (stationaryAnim (F32.fin 30, F32.fin (-20), F32.fin (-20)) 2)
        = some (0, (List.replicate 8000 0).set (5 + 20 * 1 + 400 * 0) 1)) := by
  refine ⟨⟨roundQ_above_one, by norm_num [abs_lt], voxelCoord_above_one _ (fun _ _ => rfl),
    ?_⟩, voxelCoord_30 _ (fun _ _ => rfl), ?_⟩
  · rw [computeVoxels_stationary saturate_cast_unsigned _ _ (10, 0, 0)
      (voxelCoord_above_one _ (fun _ _ => rfl)) (by norm_num)
      (fun n hn f hf => stationaryAnim_posAt _ 2 n f hn
        (by rwa [stationaryAnim_frames] at hf)),
      if_neg (by rw [stationaryAnim_frames]; norm_num)]
    rfl
  · rw [computeVoxels_stationary saturate_cast_unsigned _ _ (25, 0, 0)
      (voxelCoord_30 _ (fun _ _ => rfl)) (by norm_num)
      (fun n hn f hf => stationaryAnim_posAt _ 2 n f hn
        (by rwa [stationaryAnim_frames] at hf)),
      if_neg (by rw [stationaryAnim_frames]; norm_num)]
    rfl

/-- C13 (amended): stationary joints.  Let `c` be the rounded grid coordinates of a position
`p` as `computeVoxels` computes them in `float` (`nearbyintf` of
`((p + 20) * 5.0f) * (1.f / 10.0f)` on every axis), and let `c` lie inside the grid.  For
every animation, a joint that has the position `p` at all frames marks one voxel only: each
of its steps is the single write of 1 to the cell `c.x + 20*c.y + 400*c.z`, the voxel `c`.
So an animation whose 31 joints all stay at `p` yields a grid of 8000 cells in which no
cell but that of the voxel `c` is occupied; that cell is occupied as soon as there are two
frames, and with fewer frames the grid is empty. -/
theorem C13_stationary_joint (toUnsigned : Int → ℕ) (anim : MocapAnimation) (p : Vec3f)
    (c : ℕ × ℕ × ℕ) (hc : voxelCoord toUnsigned p = some c)
    (hin : c.1 < 20 ∧ c.2.1 < 20 ∧ c.2.2 < 20) :
    (∀ n : ℕ, (∀ f : ℕ, f < anim.poses.length → anim.posAt n f = some p) →
      ∀ (f : ℕ) (img : CImg), 1 ≤ f → f < anim.poses.length → img.length = 8000 →
        voxelStep toUnsigned anim n f img =
          some (img.set (c.1 + 20 * c.2.1 + 400 * c.2.2) 1)) ∧
    ((∀ n : ℕ, n < 31 → ∀ f : ℕ, f < anim.poses.length → anim.posAt n f = some p) →
      ∃ g : CImg, computeVoxels toUnsigned anim = some (anim.id, g) ∧ g.length = 8000 ∧
        (∀ i : ℕ, g[i]? = some 1 → i = c.1 + 20 * c.2.1 + 400 * c.2.2) ∧
        (2 ≤ anim.poses.length → g[c.1 + 20 * c.2.1 + 400 * c.2.2]? = some 1) ∧
        (anim.poses.length ≤ 1 → g = List.replicate 8000 0)) := by
  obtain ⟨h1, h2, h3⟩ := hin
  have ho : c.1 + 20 * c.2.1 + 400 * c.2.2 < 8000 := by omega
  constructor
  · intro n hst f img hf1 hf hlen
    rw [voxelStep_stationary toUnsigned anim n f p c img (hst f hf) (hst (f - 1) (by omega)) hc,
      writeVoxel_of_lt img c (by rw [hlen]; exact ho)]
  · intro hst
    refine ⟨_, computeVoxels_stationary toUnsigned anim p c hc ho hst, ?_, ?_, ?_, ?_⟩
    · split_ifs
      · rw [List.length_replicate]
      · rw [List.length_set, List.length_replicate]
    · intro i hi
      split_ifs at hi
      · exact absurd hi (zeros_not_occupied i)
      · exact single_occupied _ i hi
    · intro hlen
      rw [if_neg (by omega)]
      apply List.getElem?_set_self
      rw [List.length_replicate]
      exact ho
    · intro hlen
      rw [if_pos hlen]

/-- C13 (amended) at the animation of three frames whose 31 joints stay at `(-10,-10,-10)`,
the voxel `(5,5,5)`: the grid has the cell `5 + 20*5 + 400*5` occupied and no other. -/
theorem C13_stationary_joint_witness :
    voxelCoord saturate_cast_unsigned (F32.fin (-10), F32.fin (-10), F32.fin (-10))
      = some (5, 5, 5) ∧
    ∃ g : CImg,
      computeVoxels saturate_cast_unsigned
        (stationaryAnim (F32.fin (-10), F32.fin (-10), F32.fin (-10)) 3) = some (0, g) ∧
      (∀ i : ℕ, g[i]? = some 1 → i = 5 + 20 * 5 + 400 * 5) ∧
      g[5 + 20 * 5 + 400 * 5]? = some 1 := by
  refine ⟨voxelCoord_neg10 _ (fun _ _ => rfl), ?_⟩
  obtain ⟨g, h1, -, h3, h4, -⟩ :=
    (C13_stationary_joint saturate_cast_unsigned
      (stationaryAnim (F32.fin (-10), F32.fin (-10), F32.fin (-10)) 3)
      (F32.fin (-10), F32.fin (-10), F32.fin (-10)) (5, 5, 5)
      (voxelCoord_neg10 _ (fun _ _ => rfl)) (by decide)).2
      (fun n hn f hf => stationaryAnim_posAt _ 3 n f hn (by rwa [stationaryAnim_frames] at hf))
  exact ⟨g, h1, h3, h4 (by rw [stationaryAnim_frames]; norm_num)⟩

/-- With the conversion of OpenCV 4, which clips a negative value to 0, the animation whose
joints stay at `(-30,-20,-20)` has the write at `(0,0,0)`. -/
theorem computeVoxels_neg30_clipped :
    computeVoxels saturate_cast_unsigned
        (stationaryAnim (F32.fin (-30), F32.fin (-20), F32.fin (-20)) 2)
      = some (0, (List.replicate 8000 0).set 0 1) := by
  rw [computeVoxels_stationary saturate_cast_unsigned _ _ (0, 0, 0)
    voxelCoord_neg30 (by norm_num)
    (fun n hn f hf => stationaryAnim_posAt _ 2 n f hn
      (by rwa [stationaryAnim_frames] at hf)),
    if_neg (by rw [stationaryAnim_frames]; norm_num)]
  rfl

theorem pushAnimation_positions (st : LoadState) (h : idsArePositions st.retVal) :
    idsArePositions (pushAnimation st) := by
  intro i hi
  unfold pushAnimation at hi ⊢
  rw [List.length_append, List.length_singleton] at hi
  rw [List.get_eq_getElem]
  by_cases hlt : i < st.retVal.length
  · rw [List.getElem_append_left hlt]
    exact h i hlt
  · have e : i = st.retVal.length := by omega
    subst e
    rw [List.getElem_append_right (le_refl _)]
    simp

theorem headerState_positions (st : LoadState) (cat : Int) (h : idsArePositions st.retVal) :
    idsArePositions (headerState st cat).retVal := by
  unfold headerState
  dsimp only
  split_ifs
  · exact pushAnimation_positions st h
  · exact h

/-- Every state of the loop of `load` holds animations whose identifiers are their
positions. -/
theorem loadLoop_positions (toInt : QString → Int) (toFloat : QString → F32)
    (maxNumber : Int) :
    ∀ (n : ℕ) (lines : List QString) (st st' : LoadState), lines.length ≤ n →
      idsArePositions st.retVal →
      loadLoop toInt toFloat maxNumber lines st = some st' → idsArePositions st'.retVal := by
  intro n
  induction n with
  | zero =>
    intro lines st st' hlen hinv h
    have : lines = [] := List.length_eq_zero.1 (by omega)
    subst this
    rw [loadLoop] at h
    rw [← Option.some.inj h]
    exact hinv
  | succ n ih =>
    intro lines st st' hlen hinv h
    cases lines with
    | nil =>
      rw [loadLoop] at h
      rw [← Option.some.inj h]
      exact hinv
    | cons line rest =>
      have hrest : rest.length ≤ n := by simpa using hlen
      rw [loadLoop] at h
      by_cases hhead : line.head? = some '#'
      · rw [if_pos hhead] at h
        cases hp : (split line ' ').get? 2 with
        | none => rw [hp] at h; exact Option.noConfusion h
        | some part =>
          rw [hp] at h
          simp only at h
          cases hi : (split part '_').get? 1 with
          | none => rw [hi] at h; exact Option.noConfusion h
          | some info =>
            rw [hi] at h
            simp only at h
            by_cases hmax : maxNumber ≠ -1 ∧
                (((headerState st (toInt info)).retVal.length : ℕ) : Int) ≥ maxNumber
            · rw [if_pos hmax] at h
              rw [← Option.some.inj h]
              exact headerState_positions st _ hinv
            · rw [if_neg hmax] at h
              cases rest with
              | nil =>
                simp only at h
                rw [← Option.some.inj h]
                exact headerState_positions st _ hinv
              | cons second rest2 =>
                simp only at h
                exact ih rest2 _ st' (by simp at hrest; omega)
                  (headerState_positions st _ hinv) h
      · rw [if_neg hhead] at h
        cases hp : parseCoordsLine toFloat line with
        | none => rw [hp] at h; exact Option.noConfusion h
        | some frame =>
          rw [hp] at h
          simp only at h
          by_cases hmax : maxNumber ≠ -1 ∧ ((st.retVal.length : ℕ) : Int) ≥ maxNumber
          · rw [if_pos hmax] at h
            rw [← Option.some.inj h]
            exact hinv
          · rw [if_neg hmax] at h
            exact ih rest { st with currentPoses := st.currentPoses ++ [frame] } st' hrest
              hinv h

theorem nil_positions : idsArePositions ([] : List MocapAnimation) := by
  intro i hi
  simp at hi

theorem load_positions (toInt : QString → Int) (toFloat : QString → F32)
    (file : Option (List QString)) (maxNumber : Int) (retVal : List MocapAnimation)
    (h : load toInt toFloat file maxNumber = some retVal) : idsArePositions retVal := by
  unfold load at h
  cases file with
  | none =>
    simp only at h
    rw [← Option.some.inj h]
    exact nil_positions
  | some lines =>
    simp only at h
    cases hl : loadLoop toInt toFloat maxNumber lines
        { retVal := [], currentPoses := [], currCatID := -1 } with
    | none => rw [hl] at h; exact Option.noConfusion h
    | some st =>
      rw [hl] at h
      simp only at h
      have hinv := loadLoop_positions toInt toFloat maxNumber lines.length lines _ st
        (le_refl _) nil_positions hl
      split_ifs at h
      · rw [← Option.some.inj h]
        exact pushAnimation_positions st hinv
      · rw [← Option.some.inj h]
        exact hinv

theorem exampleFile_load :
    load (fun _ => 7) (fun _ => F32.fin 0) (some exampleFile) (-1) =
      some [{ catId := 7,
              poses := [[(F32.fin 0, F32.fin 0, F32.fin 0), (F32.fin 0, F32.fin 0, F32.fin 0)],
                [(F32.fin 0, F32.fin 0, F32.fin 0), (F32.fin 0, F32.fin 0, F32.fin 0)]],
              id := 0 },
            { catId := 7,
              poses := [[(F32.fin 0, F32.fin 0, F32.fin 0), (F32.fin 0, F32.fin 0, F32.fin 0)]],
              id := 1 }] := by
  rfl

/-- C18: `ModelFactory::load` gives every animation its position as identifier.  For every
file content, every `maxNumber` and every behaviour of the string conversions, the
animation at position `i` of the vector that `load` returns was constructed with the
identifier `i`; so the identifiers are `0, 1, ..., N-1` in the order of the collection, all
of them in `[0, N)`.  A file that cannot be opened gives the empty vector. -/
theorem C18_load_identifiers (toInt : QString → Int) (toFloat : QString → F32)
    (file : Option (List QString)) (maxNumber : Int) (retVal : List MocapAnimation)
    (h : load toInt toFloat file maxNumber = some retVal) :
    idsArePositions retVal ∧
    (∀ x ∈ retVal, 0 ≤ x.id ∧ x.id < (retVal.length : Int)) ∧
    (file = none → retVal = []) := by
  have hpos := load_positions toInt toFloat file maxNumber retVal h
  refine ⟨hpos, positions_range retVal hpos, ?_⟩
  intro hf
  subst hf
  exact (Option.some.inj h).symm

/-- C18 at a file of two animations: `load` returns two animations, with the identifiers
0 and 1. -/
theorem C18_load_identifiers_witness :
    ∃ a b : MocapAnimation,
      load (fun _ => 7) (fun _ => F32.fin 0) (some exampleFile) (-1) = some [a, b] ∧
      a.id = 0 ∧ b.id = 1 ∧ idsArePositions [a, b] :=
  ⟨_, _, exampleFile_load, rfl, rfl,
    (C18_load_identifiers (fun _ => 7) (fun _ => F32.fin 0) (some exampleFile) (-1) _
      exampleFile_load).1⟩

end MoCapSim
